import Mathlib

/-!
# workflow-guard: rule evaluation and dispatch engine

A shallow embedding of `engine/internal/conditions/evaluator.go`,
`engine/internal/actions/executor.go` and `engine/internal/rules/engine.go`,
with the fragment of the Go standard library those files call into.

Conventions.
* A Go `string` is a `List Char` (`Str`), so every string function below is
  structurally recursive and evaluates by reduction.
* A Go `map[string]T` is an association list read with `mapGet` (first entry
  of a key) and written with `mapSet` (overwrite or append). A Go map has one
  entry per key; the theorems that read a map after a merge state it as a
  hypothesis on the keys of the list.
* `Evaluate`, `Execute` and `Dispatch` recurse through registry references,
  which the source does not bound; they take a fuel argument and return
  `none` when it runs out.
* `regexp.MatchString`, `sort.Slice` and the iteration order of a map are
  taken from a `GoLib` record: the first is too large to embed, the other two
  are specified by Go only up to a contract.
-/

namespace WorkflowGuard

/-- Go strings, as lists of characters. -/
abbrev Str := List Char

/-! ## Standard library: `strings` -/

/-- `strings.Contains(s, sub)`. -/
def stringsContains : Str → Str → Bool
  | [], sub => sub.isEmpty
  | c :: cs, sub => sub.isPrefixOf (c :: cs) || stringsContains cs sub

/-- `strings.HasPrefix(s, p)`. -/
def stringsHasPrefix (s p : Str) : Bool := p.isPrefixOf s

/-- `strings.HasSuffix(s, p)`. -/
def stringsHasSuffix (s p : Str) : Bool := p.reverse.isPrefixOf s.reverse

/-- `strings.Split(s, sep)` for a one-character separator. -/
def stringsSplit (sep : Char) : Str → List Str
  | [] => [[]]
  | c :: cs =>
    if c = sep then [] :: stringsSplit sep cs
    else match stringsSplit sep cs with
      | [] => [[c]]
      | p :: ps => (c :: p) :: ps

/-- Left-to-right replacement of the non-overlapping occurrences of a
non-empty `old`; the first argument bounds the number of steps. -/
def replaceAllAux (old new : Str) : Nat → Str → Str
  | 0, s => s
  | _ + 1, [] => []
  | n + 1, c :: cs =>
    if old.isPrefixOf (c :: cs) then new ++ replaceAllAux old new n ((c :: cs).drop old.length)
    else c :: replaceAllAux old new n cs

/-- `strings.ReplaceAll(s, old, new)`. With an empty `old` Go inserts `new`
before every character and at the end. -/
def stringsReplaceAll (s old new : Str) : Str :=
  if old.isEmpty then new ++ (s.map (fun c => c :: new)).flatten
  else replaceAllAux old new s.length s

/-! ## Standard library: `path/filepath` (Unix) -/

/-- `filepath.Base(path)`: the last element of the path, after trailing
slashes are dropped; `.` for the empty path and `/` for a path of slashes. -/
def filepathBase (path : Str) : Str :=
  if path.isEmpty then ['.']
  else
    let stripped := (path.reverse.dropWhile (fun c => c == '/')).reverse
    let last := (stripped.reverse.takeWhile (fun c => c != '/')).reverse
    if last.isEmpty then ['/'] else last

/-- `scanChunk` of `path/filepath/match.go`, after the leading stars are
gone: the chunk runs up to the first `*` outside a character class; a
backslash protects the character after it. -/
def scanChunkBody : Bool → Str → Str × Str
  | _, [] => ([], [])
  | inrange, '\\' :: c :: cs =>
    let (chunk, rest) := scanChunkBody inrange cs
    ('\\' :: c :: chunk, rest)
  | inrange, c :: cs =>
    if c = '*' ∧ inrange = false then ([], c :: cs)
    else
      let (chunk, rest) := scanChunkBody (if c = '[' then true else if c = ']' then false else inrange) cs
      (c :: chunk, rest)

/-- `scanChunk(pattern)`: whether the chunk is preceded by stars, the chunk,
and the rest of the pattern. -/
def scanChunk (pattern : Str) : Bool × Str × Str :=
  let noStar := pattern.dropWhile (fun c => c == '*')
  let (chunk, rest) := scanChunkBody false noStar
  (noStar.length < pattern.length, chunk, rest)

/-- `getEsc(chunk)`: one possibly escaped character of a character class and
the remaining chunk; `none` is `ErrBadPattern`. -/
def getEsc : Str → Option (Char × Str)
  | [] => none
  | '-' :: _ => none
  | ']' :: _ => none
  | '\\' :: [] => none
  | '\\' :: c :: rest => if rest.isEmpty then none else some (c, rest)
  | c :: rest => if rest.isEmpty then none else some (c, rest)

/-- The range loop of `matchChunk`: reads ranges up to the closing bracket,
returning whether `r` fell in one of them and the chunk after the bracket;
`none` is `ErrBadPattern`. -/
def matchClass (r : Char) : Nat → Nat → Bool → Str → Option (Bool × Str)
  | 0, _, _, _ => none
  | fuel + 1, nrange, acc, chunk =>
    match chunk, decide (0 < nrange) with
    | ']' :: rest, true => some (acc, rest)
    | _, _ =>
      match getEsc chunk with
      | none => none
      | some (lo, chunk1) =>
        match chunk1 with
        | '-' :: chunk2 =>
          match getEsc chunk2 with
          | none => none
          | some (hi, chunk3) =>
            matchClass r fuel (nrange + 1) (acc || (decide (lo ≤ r) && decide (r ≤ hi))) chunk3
        | _ => matchClass r fuel (nrange + 1) (acc || decide (lo = r)) chunk1

/-- `matchChunk(chunk, s)`: `none` is `ErrBadPattern`, `some none` a failed
match, `some (some rest)` a match leaving `rest` of `s`. The second argument
is the `failed` flag of the source: after a failure the chunk is still read
to the end, so that a malformed chunk is reported. -/
def matchChunk : Nat → Bool → Str → Str → Option (Option Str)
  | 0, _, _, _ => none
  | _ + 1, failed, [], s => if failed then some none else some (some s)
  | fuel + 1, failed, c :: chunk, s =>
    let failed := failed || s.isEmpty
    if c = '[' then
      let r : Char := if failed then Char.ofNat 0 else s.headD (Char.ofNat 0)
      let s := if failed then s else s.tail
      let negated := chunk.head? == some '^'
      let chunk := if negated then chunk.tail else chunk
      match matchClass r (chunk.length + 1) 0 false chunk with
      | none => none
      | some (m, chunk) => matchChunk fuel (failed || (m == negated)) chunk s
    else if c = '?' then
      matchChunk fuel (failed || s.head? == some '/') chunk (if failed then s else s.tail)
    else if c = '\\' then
      match chunk with
      | [] => none
      | e :: chunk => matchChunk fuel (failed || s.head? != some e) chunk (if failed then s else s.tail)
    else
      matchChunk fuel (failed || s.head? != some c) chunk (if failed then s else s.tail)

/-- The inner loop of `filepath.Match` for a chunk that follows a star: try
the chunk after skipping one more character of `name`, never skipping a
slash. `last` says that no pattern is left after the chunk, in which case a
match must use up the name. -/
def matchSkip (chunk : Str) (last : Bool) : Str → Option (Option Str)
  | [] => some none
  | c :: name =>
    if c = '/' then some none
    else
      match matchChunk (chunk.length + 1) false chunk name with
      | none => none
      | some (some t) =>
        if last && !t.isEmpty then matchSkip chunk last name else some (some t)
      | some none => matchSkip chunk last name

/-- The outer loop of `filepath.Match`. A chunk that does not match ends the
loop with `false` and no error: the rest of the pattern is not read, so a
malformed chunk further on is not reported (the closing check of
`path.Match` is not in `filepath.Match`). -/
def matchLoop : Nat → Str → Str → Option Bool
  | 0, _, _ => none
  | fuel + 1, pattern, name =>
    if pattern.isEmpty then some name.isEmpty
    else
      let (star, chunk, rest) := scanChunk pattern
      if star && chunk.isEmpty then some (!stringsContains name ['/'])
      else
        match matchChunk (chunk.length + 1) false chunk name with
        | none => none
        | some r =>
          match r with
          | some t =>
            if t.isEmpty || !rest.isEmpty then matchLoop fuel rest t
            else if star then
              match matchSkip chunk rest.isEmpty name with
              | none => none
              | some none => some false
              | some (some t) => matchLoop fuel rest t
            else some false
          | none =>
            if star then
              match matchSkip chunk rest.isEmpty name with
              | none => none
              | some none => some false
              | some (some t) => matchLoop fuel rest t
            else some false

/-- `filepath.Match(pattern, name)`: `none` is `ErrBadPattern`. The model
reads the name character by character; Go reads bytes and decodes a
character where it stands, which is the same on names of one-byte
characters and can differ when a star has to skip part of a character of
several bytes. -/
def filepathMatch (pattern name : Str) : Option Bool :=
  matchLoop (pattern.length + 1) pattern name

/-! ## Data model (`engine/internal/config/loader.go`) -/

/-- A decoded `interface{}` value: `nil`, a string, a boolean, a number (kept
with the text `%v` prints for it), a sequence, or a mapping keyed by
strings. -/
inductive Value where
  | null : Value
  | str (s : Str) : Value
  | bool (b : Bool) : Value
  | num (text : Str) : Value
  | seq (items : List Value) : Value
  | map (entries : List (Str × Value)) : Value

/-- A Go map keyed by strings. -/
abbrev GoMap (α : Type) := List (Str × α)

/-- The read `m[k]`, with `none` for a missing key. -/
def mapGet {α : Type} (m : GoMap α) (k : Str) : Option α :=
  match m with
  | [] => none
  | (k1, v) :: rest => if k1 = k then some v else mapGet rest k

/-- The write `m[k] = v`. -/
def mapSet {α : Type} (m : GoMap α) (k : Str) (v : α) : GoMap α :=
  match m with
  | [] => [(k, v)]
  | (k1, v1) :: rest => if k1 = k then (k, v) :: rest else (k1, v1) :: mapSet rest k v

/-- `Condition` of the configuration. `Script`, `Timeout`, `Builtin` and
`Params` are never read by the evaluator and are left out. -/
inductive Condition where
  | mk (Type_ Field Pattern Value Operator : Str) (Flags : List Str)
      (All Any : List Condition) (Not : Option Condition) (Ref : Str) : Condition

namespace Condition

def Type_ : Condition → Str
  | mk t _ _ _ _ _ _ _ _ _ => t

def Field : Condition → Str
  | mk _ f _ _ _ _ _ _ _ _ => f

def Pattern : Condition → Str
  | mk _ _ p _ _ _ _ _ _ _ => p

def Value : Condition → Str
  | mk _ _ _ v _ _ _ _ _ _ => v

def Operator : Condition → Str
  | mk _ _ _ _ o _ _ _ _ _ => o

def Flags : Condition → List Str
  | mk _ _ _ _ _ fl _ _ _ _ => fl

def All : Condition → List Condition
  | mk _ _ _ _ _ _ a _ _ _ => a

def Any : Condition → List Condition
  | mk _ _ _ _ _ _ _ a _ _ => a

def Not : Condition → Option Condition
  | mk _ _ _ _ _ _ _ _ n _ => n

def Ref : Condition → Str
  | mk _ _ _ _ _ _ _ _ _ r => r

/-- The zero value of the struct. -/
def zero : Condition := mk [] [] [] [] [] [] [] [] none []

end Condition

/-- `HookEvent` of `conditions/evaluator.go`. -/
structure HookEvent where
  HookType : Str
  ToolName : Str
  ToolInput : GoMap Value
  SessionID : Str
  Raw : GoMap Value

/-- `Action` of the configuration. `Script`, `Async`, `Timeout` and
`Transforms` are never read by the executor and are left out. -/
inductive Action where
  | mk (Type_ Decision Message : Str) (Actions : List Action) (Ref : Str)
      (Params : GoMap Value) (Condition : Option Condition)
      (Then Else : Option Action) : Action

namespace Action

def Type_ : Action → Str
  | mk t _ _ _ _ _ _ _ _ => t

def Decision : Action → Str
  | mk _ d _ _ _ _ _ _ _ => d

def Message : Action → Str
  | mk _ _ m _ _ _ _ _ _ => m

def Actions : Action → List Action
  | mk _ _ _ a _ _ _ _ _ => a

def Ref : Action → Str
  | mk _ _ _ _ r _ _ _ _ => r

def Params : Action → GoMap Value
  | mk _ _ _ _ _ p _ _ _ => p

def Condition : Action → Option Condition
  | mk _ _ _ _ _ _ c _ _ => c

def Then : Action → Option Action
  | mk _ _ _ _ _ _ _ t _ => t

def Else : Action → Option Action
  | mk _ _ _ _ _ _ _ _ e => e

/-- The same action with another parameter map. -/
def withParams : Action → GoMap Value → Action
  | mk t d m a r _ c th el, p => mk t d m a r p c th el

end Action

/-- `Trigger` of the configuration. -/
structure Trigger where
  Event : Str
  Matcher : Str

/-- `Rule` of the configuration (`Name`, `Description` and `Tags` are never
read by the dispatcher and are left out). -/
structure Rule where
  ID : Str
  Enabled : Bool
  Priority : Int
  Trigger : Trigger
  Conditions : Option Condition
  Actions : List Action

/-- `Config` of the configuration: the rules and the two registries. -/
structure Config where
  Rules : List Rule
  Conditions : GoMap Condition
  Actions : GoMap Action

/-- `Response` of `actions/executor.go`. -/
structure Response where
  ExitCode : Int
  Decision : Str
  Message : Str
  deriving DecidableEq, Repr

/-! ## The part of Go that is taken as given -/

/-- What the engine uses of Go without this development embedding it.
* `regexpMatchString pattern s` is `regexp.MatchString`; `none` is a pattern
  that does not compile.
* `sortSlice` is the call `sort.Slice(enabledRules, less)` of `Dispatch`,
  where `less` puts the higher priority first. Go promises a permutation in
  which no element is `less` than an element before it, and does not promise
  to keep equal elements in order.
* `mapOrder pass m` is the order in which `range` visits the entries of the
  map `m` in pass number `pass`; Go leaves it unspecified. -/
structure GoLib where
  regexpMatchString : Str → Str → Option Bool
  sortSlice : List Rule → List Rule
  sortSlice_perm : ∀ l, (sortSlice l).Perm l
  sortSlice_sorted : ∀ l, (sortSlice l).Pairwise (fun a b => b.Priority ≤ a.Priority)
  mapOrder : Nat → GoMap Str → GoMap Str
  mapOrder_perm : ∀ pass m, (mapOrder pass m).Perm m

/-! ## Standard library: `fmt` -/

mutual
/-- `fmt.Sprintf("%v", v)`. A mapping is printed in the order of its entries
(Go prints it by ascending key, which is how the entries are kept). -/
def sprint : Value → Str
  | .null => "<nil>".toList
  | .str s => s
  | .bool b => if b then "true".toList else "false".toList
  | .num text => text
  | .seq items => '[' :: sprintSeq items ++ [']']
  | .map entries => "map[".toList ++ sprintMap entries ++ [']']
/-- The elements of a sequence, separated by blanks. -/
def sprintSeq : List Value → Str
  | [] => []
  | [v] => sprint v
  | v :: w :: rest => sprint v ++ ' ' :: sprintSeq (w :: rest)
/-- The entries of a mapping as `key:value`, separated by blanks. -/
def sprintMap : List (Str × Value) → Str
  | [] => []
  | [(k, v)] => k ++ ':' :: sprint v
  | (k, v) :: e :: rest => k ++ ':' :: sprint v ++ ' ' :: sprintMap (e :: rest)
end

/-! ## Conditions (`engine/internal/conditions/evaluator.go`) -/

/-- `mergeCondition(base, override)`: the base, with each of the type, field,
pattern, value, operator and flags replaced by the override's when the
override's is non-empty. `All`, `Any`, `Not` and `Ref` stay the base's. -/
def mergeCondition (base override : Condition) : Condition :=
  Condition.mk
    (if override.Type_ ≠ [] then override.Type_ else base.Type_)
    (if override.Field ≠ [] then override.Field else base.Field)
    (if override.Pattern ≠ [] then override.Pattern else base.Pattern)
    (if override.Value ≠ [] then override.Value else base.Value)
    (if override.Operator ≠ [] then override.Operator else base.Operator)
    (if 0 < override.Flags.length then override.Flags else base.Flags)
    base.All base.Any base.Not base.Ref

/-- The loop of `getFieldValue`: `none` is Go's `nil`. -/
def walkPath : List Str → Value → Option Value
  | [], current => some current
  | part :: rest, current =>
    match current with
    | .map m =>
      match mapGet m part with
      | none => none
      | some .null => none
      | some v => walkPath rest v
    | _ => none

/-- `getFieldValue(data, fieldPath)`: `none` is Go's `nil`. -/
def getFieldValue (data : GoMap Value) (fieldPath : Str) : Option Value :=
  if fieldPath = [] then none
  else walkPath (stringsSplit '.' fieldPath) (.map data)

/-- `evaluateRegex(cond, fieldValue)`. -/
def evaluateRegex (lib : GoLib) (cond : Condition) (fieldValue : Option Value) : Bool :=
  match fieldValue with
  | none => false
  | some v =>
    let valueStr := sprint v
    let pattern :=
      if cond.Flags.any (fun flag => flag == "ignorecase".toList) then "(?i)".toList ++ cond.Pattern
      else cond.Pattern
    match lib.regexpMatchString pattern valueStr with
    | none => false
    | some matched => matched

/-- `evaluateGlob(cond, fieldValue)`. -/
def evaluateGlob (cond : Condition) (fieldValue : Option Value) : Bool :=
  match fieldValue with
  | none => false
  | some v =>
    let valueStr := sprint v
    match filepathMatch cond.Pattern (filepathBase valueStr) with
    | none => false
    | some matched =>
      if stringsContains cond.Pattern "**".toList then
        let pattern := stringsReplaceAll cond.Pattern "**".toList "*".toList
        if filepathMatch pattern valueStr = some true then true else matched
      else matched

/-- `evaluateEquals(cond, fieldValue)`. -/
def evaluateEquals (cond : Condition) (fieldValue : Option Value) : Bool :=
  match fieldValue with
  | none => false
  | some v =>
    let fieldStr := sprint v
    let valueStr := cond.Value
    let operator := if cond.Operator = [] then "equals".toList else cond.Operator
    if operator = "equals".toList then decide (fieldStr = valueStr)
    else if operator = "startswith".toList then stringsHasPrefix fieldStr valueStr
    else if operator = "endswith".toList then stringsHasSuffix fieldStr valueStr
    else if operator = "contains".toList then stringsContains fieldStr valueStr
    else false

/-- The field-based tail of `Evaluate`. -/
def evaluateLeaf (lib : GoLib) (cond : Condition) (event : HookEvent) : Bool :=
  let fieldValue := getFieldValue event.Raw cond.Field
  if cond.Type_ = "regex".toList then evaluateRegex lib cond fieldValue
  else if cond.Type_ = "glob".toList then evaluateGlob cond fieldValue
  else if cond.Type_ = "equals".toList then evaluateEquals cond fieldValue
  else if cond.Type_ = "exists".toList then fieldValue.isSome
  else false

/-- The loop over `cond.All`: false at the first false child. -/
def evalAll (f : Condition → Option Bool) : List Condition → Option Bool
  | [] => some true
  | c :: cs =>
    match f c with
    | none => none
    | some false => some false
    | some true => evalAll f cs

/-- The loop over `cond.Any`: true at the first true child. -/
def evalAny (f : Condition → Option Bool) : List Condition → Option Bool
  | [] => some false
  | c :: cs =>
    match f c with
    | none => none
    | some true => some true
    | some false => evalAny f cs

/-- `Evaluate(cond, event, cfg)`. The condition is a pointer in the source,
`none` being `nil`. The result is `none` when the fuel runs out. -/
def Evaluate (lib : GoLib) : Nat → Option Condition → HookEvent → Config → Option Bool
  | 0, _, _, _ => none
  | _ + 1, none, _, _ => some true
  | fuel + 1, some cond, event, cfg =>
    if cond.Ref ≠ [] then
      match mapGet cfg.Conditions cond.Ref with
      | none => some false
      | some refCond => Evaluate lib fuel (some (mergeCondition refCond cond)) event cfg
    else if 0 < cond.All.length then
      evalAll (fun c => Evaluate lib fuel (some c) event cfg) cond.All
    else if 0 < cond.Any.length then
      evalAny (fun c => Evaluate lib fuel (some c) event cfg) cond.Any
    else
      match cond.Not with
      | some n => (Evaluate lib fuel (some n) event cfg).map (fun b => !b)
      | none => some (evaluateLeaf lib cond event)

/-! ## Actions (`engine/internal/actions/executor.go`) -/

/-- The context of `renderTemplate`: the tool name and the session id, then
the tool input, then the parameters, each write replacing an earlier value
of the same key. -/
def buildContext (event : HookEvent) (params : GoMap Value) : GoMap Str :=
  let context : GoMap Str := mapSet (mapSet [] "tool_name".toList event.ToolName)
    "session_id".toList event.SessionID
  let context := event.ToolInput.foldl (fun c kv => mapSet c kv.1 (sprint kv.2)) context
  params.foldl (fun c kv => mapSet c kv.1 (sprint kv.2)) context

/-- One pass of `renderTemplate` over the context entries in the given order:
the text after the pass and whether a placeholder was replaced. -/
def renderPass (entries : GoMap Str) (result : Str) : Str × Bool :=
  entries.foldl
    (fun acc kv =>
      let placeholder := "\x7b\x7b".toList ++ kv.1 ++ "\x7d\x7d".toList
      if stringsContains acc.1 placeholder then (stringsReplaceAll acc.1 placeholder kv.2, true)
      else acc)
    (result, false)

/-- The pass loop of `renderTemplate`: `n` passes are left, `pass` is the
number of the next one, and the loop stops after a pass that changed
nothing. -/
def renderPasses (lib : GoLib) (context : GoMap Str) : Nat → Nat → Str → Str
  | 0, _, result => result
  | n + 1, pass, result =>
    let r := renderPass (lib.mapOrder pass context) result
    if r.2 then renderPasses lib context n (pass + 1) r.1 else r.1

/-- `renderTemplate(template, event, params)`. -/
def renderTemplate (lib : GoLib) (template : Str) (event : HookEvent) (params : GoMap Value) : Str :=
  renderPasses lib (buildContext event params) 3 0 template

/-- `executeDecision(action, event)`. -/
def executeDecision (lib : GoLib) (action : Action) (event : HookEvent) : Response :=
  let decision := action.Decision
  let message := renderTemplate lib action.Message event action.Params
  if decision = "deny".toList ∨ decision = "block".toList then
    { ExitCode := 2, Decision := "deny".toList, Message := message }
  else if decision = "allow".toList then
    { ExitCode := 0, Decision := "allow".toList, Message := [] }
  else if decision = "ask".toList then
    { ExitCode := 0, Decision := "ask".toList, Message := message }
  else
    { ExitCode := 0, Decision := [], Message := [] }

/-- `executeLog(action, event)`: appends a record to a log file and returns
`nil` on every path; the write is outside this model. -/
def executeLog (_action : Action) (_event : HookEvent) : Option Response := none

/-- The parameter merge of `executeChain`: a parent entry is added to the
child only when the child has no entry of that key. -/
def inheritParams (parent child : GoMap Value) : GoMap Value :=
  if 0 < parent.length then
    parent.foldl (fun m kv => if (mapGet m kv.1).isSome then m else mapSet m kv.1 kv.2) child
  else child

/-- The parameter merge of a reference in `Execute`: every caller entry is
written over the referenced definition's parameters. -/
def overlayParams (base caller : GoMap Value) : GoMap Value :=
  if 0 < caller.length then caller.foldl (fun m kv => mapSet m kv.1 kv.2) base
  else base

/-- The loop of `executeChain`: each child runs with the parent's parameters
merged in, and the first response that is not `nil` is returned. -/
def chainLoop (f : Action → Option (Option Response)) (params : GoMap Value) :
    List Action → Option (Option Response)
  | [] => some none
  | subAction :: rest =>
    match f (subAction.withParams (inheritParams params subAction.Params)) with
    | none => none
    | some (some resp) => some (some resp)
    | some none => chainLoop f params rest

/-- `Execute(action, event, cfg)`. The action is a pointer in the source,
`none` being `nil`. The outer `none` of the result is fuel that ran out, the
inner `none` is the `nil` response of an action that is not terminal.

The two parameter merges write into Go maps that the registry entry, or the
chain's child, shares with the copy being run. Such a write is followed at
once by the run of the action written to, and a run that goes on afterwards
has returned `nil` without rendering a message, so the writes cannot reach
the response of one `Execute` or `Dispatch` call; they are modelled as
values. -/
def Execute (lib : GoLib) : Nat → Option Action → HookEvent → Config → Option (Option Response)
  | 0, _, _, _ => none
  | _ + 1, none, _, _ => some none
  | fuel + 1, some action, event, cfg =>
    if action.Ref ≠ [] then
      match mapGet cfg.Actions action.Ref with
      | none => some none
      | some refAction =>
        let merged := refAction.withParams (overlayParams refAction.Params action.Params)
        Execute lib fuel (some merged) event cfg
    else if action.Type_ = "decision".toList then
      some (some (executeDecision lib action event))
    else if action.Type_ = "log".toList then
      some (executeLog action event)
    else if action.Type_ = "chain".toList then
      chainLoop (fun a => Execute lib fuel (some a) event cfg) action.Params action.Actions
    else if action.Type_ = "conditional".toList then
      match action.Condition with
      | none => some none
      | some c =>
        match Evaluate lib fuel (some c) event cfg with
        | none => none
        | some true =>
          match action.Then with
          | some t => Execute lib fuel (some t) event cfg
          | none => some none
        | some false =>
          match action.Else with
          | some e => Execute lib fuel (some e) event cfg
          | none => some none
    else some none

/-! ## Dispatcher (`engine/internal/rules/engine.go`) -/

/-- `matchesTrigger(rule, event)`. -/
def matchesTrigger (lib : GoLib) (rule : Rule) (event : HookEvent) : Bool :=
  if rule.Trigger.Event ≠ [] ∧ rule.Trigger.Event ≠ event.HookType then false
  else if rule.Trigger.Matcher ≠ [] then
    match lib.regexpMatchString rule.Trigger.Matcher event.ToolName with
    | some true => true
    | _ => false
  else true

/-- The loop over `rule.Actions` in `Dispatch`: the first response that is
not `nil`. -/
def runActions (f : Action → Option (Option Response)) : List Action → Option (Option Response)
  | [] => some none
  | action :: rest =>
    match f action with
    | none => none
    | some (some resp) => some (some resp)
    | some none => runActions f rest

/-- The condition check of `Dispatch`: a rule without conditions passes. -/
def ruleCondition (lib : GoLib) (fuel : Nat) (rule : Rule) (event : HookEvent) (cfg : Config) :
    Option Bool :=
  match rule.Conditions with
  | none => some true
  | some c => Evaluate lib fuel (some c) event cfg

/-- The default response of `Dispatch`: continue normally. -/
def defaultResponse : Response := { ExitCode := 0, Decision := [], Message := [] }

/-- The loop of `Dispatch` over the sorted enabled rules. -/
def runRules (lib : GoLib) (fuel : Nat) (event : HookEvent) (cfg : Config) :
    List Rule → Option Response
  | [] => some defaultResponse
  | rule :: rest =>
    if matchesTrigger lib rule event = false then runRules lib fuel event cfg rest
    else
      match ruleCondition lib fuel rule event cfg with
      | none => none
      | some false => runRules lib fuel event cfg rest
      | some true =>
        match runActions (fun a => Execute lib fuel (some a) event cfg) rule.Actions with
        | none => none
        | some (some resp) => some resp
        | some none => runRules lib fuel event cfg rest

/-- The enabled rules, in the order of the ruleset. -/
def enabledRules (cfg : Config) : List Rule := cfg.Rules.filter (fun rule => rule.Enabled)

/-- `Dispatch(event, cfg)`; `none` is fuel that ran out. -/
def Dispatch (lib : GoLib) (fuel : Nat) (event : HookEvent) (cfg : Config) : Option Response :=
  runRules lib fuel event cfg (lib.sortSlice (enabledRules cfg))

/-! ## An instance of the library, for running the engine on examples -/

/-- The inner loop of `insertionSort_func` in Go's `sort` package, on the
sorted prefix held in reverse: the new rule moves left past every rule of
lower priority. -/
def insertRule (x : Rule) : List Rule → List Rule
  | [] => [x]
  | q :: qs => if q.Priority < x.Priority then q :: insertRule x qs else x :: q :: qs

/-- `insertionSort_func` with the `less` of `Dispatch`: the sort that
`sort.Slice` runs on a slice of at most 12 elements. -/
def insertionSort_func (l : List Rule) : List Rule :=
  (l.foldl (fun acc x => insertRule x acc) []).reverse

/-- `sort.Slice` leaves the rules of `l` that have the same priority in their
order: its result on `l` is that of the insertion sort. Go does not promise
it; it holds when `l` has at most 12 rules, a slice on which `sort.Slice`
(Go 1.19 and later) runs `insertionSort_func` and nothing else. -/
def KeepsTies (lib : GoLib) (l : List Rule) : Prop :=
  lib.sortSlice l = insertionSort_func l

/-- A character that stands for itself in a regular expression. -/
def isWordChar (c : Char) : Bool := c.isAlphanum || c == '_'

/-- `regexp.MatchString` on the patterns `w`, `^w`, `w$` and `^w$`, where `w`
is made of letters, digits and underscores. Other patterns are not covered
by this instance, which reports them as not compiling. -/
def wordRegexp (pattern s : Str) : Option Bool :=
  let atStart := pattern.head? == some '^'
  let p1 := if atStart then pattern.tail else pattern
  let atEnd := p1.getLast? == some '$'
  let w := if atEnd then p1.dropLast else p1
  if w.all isWordChar then
    some (match atStart, atEnd with
      | true, true => decide (s = w)
      | true, false => stringsHasPrefix s w
      | false, true => stringsHasSuffix s w
      | false, false => stringsContains s w)
  else none

/-- An instance of `GoLib`: `wordRegexp`, the insertion sort, and maps visited
in the order of their entries. -/
def sampleLib : GoLib where
  regexpMatchString := wordRegexp
  sortSlice := insertionSort_func
  sortSlice_perm := by
    intro l
    have ins : ∀ (x : Rule) (acc : List Rule), (insertRule x acc).Perm (x :: acc) := by
      intro x acc
      induction acc with
      | nil => exact List.Perm.refl _
      | cons q qs ih =>
        unfold insertRule
        split
        · exact (List.Perm.cons q ih).trans (List.Perm.swap x q qs)
        · exact List.Perm.refl _
    have key : ∀ (l acc : List Rule),
        (l.foldl (fun acc x => insertRule x acc) acc).Perm (acc ++ l) := by
      intro l
      induction l with
      | nil => intro acc; simp
      | cons x xs ih =>
        intro acc
        simp only [List.foldl_cons]
        refine (ih (insertRule x acc)).trans ?_
        refine ((ins x acc).append_right xs).trans ?_
        exact (List.perm_middle : (acc ++ x :: xs).Perm (x :: (acc ++ xs))).symm
    simpa [insertionSort_func] using (List.reverse_perm _).trans (key l [])
  sortSlice_sorted := by
    intro l
    have ins : ∀ (x : Rule) (acc : List Rule),
        acc.Pairwise (fun a b => a.Priority ≤ b.Priority) →
        (insertRule x acc).Pairwise (fun a b => a.Priority ≤ b.Priority) := by
      intro x acc
      induction acc with
      | nil => intro _; simp [insertRule]
      | cons q qs ih =>
        intro h
        have hq := List.pairwise_cons.mp h
        unfold insertRule
        split
        · rename_i hlt
          refine List.pairwise_cons.mpr ⟨?_, ih hq.2⟩
          intro b hb
          have hmem : b ∈ x :: qs := by
            have hp : (insertRule x qs).Perm (x :: qs) := by
              clear ih h hq hb hlt
              induction qs with
              | nil => exact List.Perm.refl _
              | cons q2 qs2 ih2 =>
                unfold insertRule
                split
                · exact (List.Perm.cons q2 ih2).trans (List.Perm.swap x q2 qs2)
                · exact List.Perm.refl _
            exact hp.mem_iff.mp hb
          rcases List.mem_cons.mp hmem with rfl | hb2
          · exact le_of_lt hlt
          · exact hq.1 b hb2
        · rename_i hge
          have hxq : x.Priority ≤ q.Priority := not_lt.mp hge
          refine List.pairwise_cons.mpr ⟨?_, h⟩
          intro b hb
          rcases List.mem_cons.mp hb with rfl | hb2
          · exact hxq
          · exact le_trans hxq (hq.1 b hb2)
    have key : ∀ (l acc : List Rule),
        acc.Pairwise (fun a b => a.Priority ≤ b.Priority) →
        (l.foldl (fun acc x => insertRule x acc) acc).Pairwise
          (fun a b => a.Priority ≤ b.Priority) := by
      intro l
      induction l with
      | nil => intro acc h; simpa using h
      | cons x xs ih => intro acc h; exact ih _ (ins x acc h)
    have h := key l [] List.Pairwise.nil
    simpa [insertionSort_func, List.pairwise_reverse] using h
  mapOrder := fun _ m => m
  mapOrder_perm := fun _ m => List.Perm.refl m

/-! ## Events and rules of the scenarios -/

/-- The event as `cmd/dispatcher/main.go` hands it to `Dispatch`: the decoded
fields, and the field map filled with `hook_type`, `tool_name`, `session_id`
and `tool_input`. -/
def decodeEvent (hookType toolName sessionID : Str) (toolInput : GoMap Value) : HookEvent :=
  { HookType := hookType, ToolName := toolName, ToolInput := toolInput, SessionID := sessionID,
    Raw := [("hook_type".toList, .str hookType), ("tool_name".toList, .str toolName),
            ("session_id".toList, .str sessionID), ("tool_input".toList, .map toolInput)] }

/-- The event of the scenarios: `delete_file` on `/etc/passwd` before the
tool runs. -/
def deleteEvent : HookEvent :=
  decodeEvent "pre_tool".toList "delete_file".toList [] [("path".toList, .str "/etc/passwd".toList)]

/-- A leaf condition of the given type, field and pattern. -/
def leafCondition (type field pattern : Str) : Condition :=
  Condition.mk type field pattern [] [] [] [] [] none []

/-- A decision action with the given decision and message template. -/
def decisionAction (decision message : Str) : Action :=
  Action.mk "decision".toList decision message [] [] [] none none none

/-- The rule of the first scenario, with the glob pattern left open: it
fires on `delete_file` before the tool runs and denies with the path in the
message. -/
def denyRule (id : Str) (priority : Int) (matcher pattern message : Str) : Rule :=
  { ID := id, Enabled := true, Priority := priority,
    Trigger := { Event := "pre_tool".toList, Matcher := matcher },
    Conditions := some (leafCondition "glob".toList "tool_input.path".toList pattern),
    Actions := [decisionAction "deny".toList message] }

/-- A ruleset of the given rules with empty registries. -/
def rulesOnly (rules : List Rule) : Config :=
  { Rules := rules, Conditions := [], Actions := [] }

/-- The condition whose only set field is the list `all`. -/
def allOf (cs : List Condition) : Condition :=
  Condition.mk [] [] [] [] [] [] cs [] none []

/-- The condition whose only set field is the list `any`. -/
def anyOf (cs : List Condition) : Condition :=
  Condition.mk [] [] [] [] [] [] [] cs none []

/-- The condition whose only set field is `not`. -/
def notOf (c : Condition) : Condition :=
  Condition.mk [] [] [] [] [] [] [] [] (some c) []

/-- The condition whose only set field is `ref`. -/
def refTo (name : Str) : Condition :=
  Condition.mk [] [] [] [] [] [] [] [] none name

/-- The rule produces no verdict in the loop of `Dispatch`, and the loop
goes on to the next rule: its trigger fails, or its condition evaluates to
false, or its condition passes and every one of its actions returns `nil`. -/
def NoVerdict (lib : GoLib) (fuel : Nat) (event : HookEvent) (cfg : Config) (r : Rule) : Prop :=
  matchesTrigger lib r event = false ∨
  ruleCondition lib fuel r event cfg = some false ∨
  (ruleCondition lib fuel r event cfg = some true ∧
    ∀ a ∈ r.Actions, Execute lib fuel (some a) event cfg = some none)

/-- Two deny rules on the scenario's event whose glob pattern is the base
name `passwd`, with priorities 10 and 90. -/
def twoDenyRules : Config :=
  rulesOnly [denyRule "low".toList 10 "delete_file".toList "passwd".toList "low priority".toList,
             denyRule "high".toList 90 "delete_file".toList "passwd".toList "high priority".toList]

/-- A log action. -/
def logAction : Action :=
  Action.mk "log".toList [] [] [] [] [] none none none

/-- Three rules that yield no verdict on the scenario's event: a deny rule
that is disabled, a deny rule whose matcher is anchored on `write_file`, and
a matching rule whose only action is a log. -/
def quietRules : Config :=
  rulesOnly
    [{ denyRule "off".toList 50 "delete_file".toList "passwd".toList "off".toList with
        Enabled := false },
     denyRule "other".toList 40 "^write_file$".toList "passwd".toList "other".toList,
     { denyRule "log".toList 30 "delete_file".toList "passwd".toList [] with
        Actions := [logAction] }]

/-- The condition has a dangling reference at its root, or in its `all` list,
or in an `all` list nested in `all` lists at any depth, with no reference on
the way down. -/
inductive DanglingUnderAll (cfg : Config) : Condition → Prop where
  | root (c : Condition) : c.Ref ≠ [] → mapGet cfg.Conditions c.Ref = none →
      DanglingUnderAll cfg c
  | all (c child : Condition) : c.Ref = [] → child ∈ c.All → DanglingUnderAll cfg child →
      DanglingUnderAll cfg c

/-- The deny rule of the scenarios with another root condition. -/
def denyRuleOn (cond : Condition) (message : Str) : Rule :=
  { denyRule [] 0 "delete_file".toList [] message with Conditions := some cond }

/-- Three matching rules of priority 5 on the scenario's event, in this
order: one whose first action is the given one, a deny rule with message
"first" and a deny rule with message "second". -/
def tieRules (a : Action) : Config :=
  rulesOnly
    [{ denyRule "zero".toList 5 "delete_file".toList "passwd".toList [] with Actions := [a] },
     denyRule "one".toList 5 "delete_file".toList "passwd".toList "first".toList,
     denyRule "two".toList 5 "delete_file".toList "passwd".toList "second".toList]

/-- `Evaluate` returns `b` on the condition: it does so with some fuel, and
then with every larger fuel. -/
def EvaluatesTo (lib : GoLib) (event : HookEvent) (cfg : Config) (c : Condition) (b : Bool) :
    Prop :=
  ∃ fuel, Evaluate lib fuel (some c) event cfg = some b

/-- The condition is a leaf: it has no reference and none of `all`, `any` and
`not`. -/
def IsLeaf (c : Condition) : Prop :=
  c.Ref = [] ∧ c.All = [] ∧ c.Any = [] ∧ c.Not = none

/-- `Execute` returns `r` on the action (`none` being the `nil` response): it
does so with some fuel, and then with every larger fuel. -/
def ExecutesTo (lib : GoLib) (event : HookEvent) (cfg : Config) (a : Action)
    (r : Option Response) : Prop :=
  ∃ fuel, Execute lib fuel (some a) event cfg = some r

/-- A registry with one condition, `is_pre`: the tool name equals
`pre_tool`. -/
def preRegistry : Config :=
  { Rules := [], Actions := [],
    Conditions := [("is_pre".toList,
      Condition.mk "equals".toList "tool_name".toList [] "pre_tool".toList [] [] [] [] none [])] }

/-- A reference to `name` that overrides the field only. -/
def refWithField (name field : Str) : Condition :=
  Condition.mk [] field [] [] [] [] [] [] none name

/-- A registry with one action, `deny_k`: a deny decision whose message is
the placeholder of `k` and whose parameter `k` is "base". -/
def denyRegistry : Config :=
  { Rules := [], Conditions := [],
    Actions := [("deny_k".toList,
      Action.mk "decision".toList "deny".toList "\x7b\x7bk\x7d\x7d".toList [] []
        [("k".toList, .str "base".toList)] none none none)] }

/-- A reference to the action `name` with the given parameters. -/
def actionRef (name : Str) (params : GoMap Value) : Action :=
  Action.mk [] [] [] [] name params none none none

/-- A chain action with the given parameters and children. -/
def chainAction (params : GoMap Value) (children : List Action) : Action :=
  Action.mk "chain".toList [] [] children [] params none none none

/-- A chain with parameters `k` = "parent" and `j` = "inherited" over a log
action, a deny decision with message `{{k}} {{j}}` and its own parameter
`k` = "child", and a second deny decision. -/
def sampleChain : Action :=
  chainAction [("k".toList, .str "parent".toList), ("j".toList, .str "inherited".toList)]
    [logAction,
     Action.mk "decision".toList "deny".toList
       "\x7b\x7bk\x7d\x7d \x7b\x7bj\x7d\x7d".toList [] []
       [("k".toList, .str "child".toList)] none none none,
     decisionAction "deny".toList "never".toList]

/-- A conditional action with the given condition and branches. -/
def conditionalAction (cond : Option Condition) (thenAction elseAction : Option Action) :
    Action :=
  Action.mk "conditional".toList [] [] [] [] [] cond thenAction elseAction

/-- The deny rule of the scenarios, matching on the base name `passwd`, with
the given priority and actions. -/
def ruleWithActions (priority : Int) (actions : List Action) : Rule :=
  { denyRule [] priority "delete_file".toList "passwd".toList [] with Actions := actions }

/-- The path resolves from the value `current` to the value `v`, which is
not null: every segment is a key of the mapping reached so far and maps to
a value that is not null. -/
inductive ResolvesTo : Value → List Str → Value → Prop where
  | last (m : GoMap Value) (seg : Str) (v : Value) :
      mapGet m seg = some v → v ≠ Value.null → ResolvesTo (.map m) [seg] v
  | step (m : GoMap Value) (seg : Str) (next : Value) (rest : List Str) (v : Value) :
      mapGet m seg = some next → next ≠ Value.null → ResolvesTo next rest v →
      ResolvesTo (.map m) (seg :: rest) v

/-- The scenario's event with another path in the tool input. -/
def deleteEventAt (path : Str) : HookEvent :=
  decodeEvent "pre_tool".toList "delete_file".toList [] [("path".toList, .str path)]

/-- The text has no brace character. -/
def BraceFree (s : Str) : Prop := '\x7b' ∉ s ∧ '\x7d' ∉ s

/-- The step of `renderPass` on one context entry: the body of the loop over
the context in `renderTemplate`. -/
def renderStep (acc : Str × Bool) (kv : Str × Str) : Str × Bool :=
  if stringsContains acc.1 ("\x7b\x7b".toList ++ kv.1 ++ "\x7d\x7d".toList) then
    (stringsReplaceAll acc.1 ("\x7b\x7b".toList ++ kv.1 ++ "\x7d\x7d".toList) kv.2, true)
  else acc

/-- An instance of `GoLib` that differs from `sampleLib` in the order in
which a map is visited: from the last entry to the first. -/
def reverseLib : GoLib :=
  { sampleLib with
    mapOrder := fun _ m => m.reverse
    mapOrder_perm := fun _ m => List.reverse_perm m }

/-- No placeholder begins in the text: it has no two opening braces in a row
and does not end in an opening brace. Single braces and closing braces are
free. -/
def NoOpening (s : Str) : Prop :=
  stringsContains s "\x7b\x7b".toList = false ∧ s.getLast? ≠ some '\x7b'

/-- A piece of a flat template: text, or the placeholder of a key. -/
inductive Piece where
  | text (s : Str) : Piece
  | key (k : Str) : Piece

namespace Piece

/-- The text of a piece in a template. -/
def render : Piece → Str
  | text s => s
  | key k => "\x7b\x7b".toList ++ k ++ "\x7d\x7d".toList

/-- The piece is plain: its text has no two opening braces in a row and
does not end in an opening brace, so that no placeholder begins in it; or
its key has no brace. -/
def Plain : Piece → Prop
  | text s => NoOpening s
  | key k => BraceFree k

/-- The piece after the placeholder of the key `k` is replaced by `v`. -/
def replaceKey (k v : Str) : Piece → Piece
  | text s => text s
  | key c => if c = k then text v else key c

end Piece

/-- The template made of the pieces, one after the other. -/
def flattenPieces : List Piece → Str
  | [] => []
  | p :: ps => p.render ++ flattenPieces ps

namespace Piece

/-- What one replacement makes of a piece: the pieces of the value for the
placeholder of the key `k`, the piece itself otherwise. -/
def replaceBy (k : Str) (value : List Piece) : Piece → List Piece
  | text s => [text s]
  | key c => if c = k then value else [key c]

/-- One level of expansion of a piece: the pieces of the value for the
placeholder of a context key, the piece itself otherwise. -/
def expand (context : GoMap Str) (pieces : Str → List Piece) : Piece → List Piece
  | text s => [text s]
  | key c => if (mapGet context c).isSome then pieces c else [key c]

end Piece

/-- The replacement of the placeholders of the key `k` in a flat template. -/
def replacePieces (k : Str) (value : List Piece) : List Piece → List Piece
  | [] => []
  | p :: ps => p.replaceBy k value ++ replacePieces k value ps

/-- One level of expansion of a flat template: every placeholder of a
context key gives way to the pieces of its value. -/
def expandPieces (context : GoMap Str) (pieces : Str → List Piece) : List Piece → List Piece
  | [] => []
  | p :: ps => p.expand context pieces ++ expandPieces context pieces ps

/-- The context is flat as far as the rendering reaches: no key has a brace,
and the value of every key of rank below three is the text of the pieces
given for it, which are plain. The value of a key of rank three or more is
free. -/
def FlatContext (context : GoMap Str) (pieces : Str → List Piece) (rank : Str → Nat) : Prop :=
  ∀ kv ∈ context, BraceFree kv.1 ∧
    (rank kv.1 < 3 → kv.2 = flattenPieces (pieces kv.1) ∧ ∀ p ∈ pieces kv.1, p.Plain)

/-- The piece is text, or the placeholder of a key that is not in the
context, or the placeholder of a context key of rank below `n`. -/
def Piece.RankBelow (context : GoMap Str) (rank : Str → Nat) (n : Nat) : Piece → Prop
  | .text _ => True
  | .key c => (mapGet context c).isSome = true → rank c < n

/-- The context is ranked as far as the rendering reaches: the value of a
key of rank below three has placeholders of context keys of strictly smaller
rank only. -/
def RankedContext (context : GoMap Str) (pieces : Str → List Piece) (rank : Str → Nat) : Prop :=
  ∀ kv ∈ context, rank kv.1 < 3 → ∀ p ∈ pieces kv.1, p.RankBelow context rank (rank kv.1)

/-- The placeholders of context keys among the pieces have rank below `n`. -/
def KeysBelow (context : GoMap Str) (rank : Str → Nat) (n : Nat) (ps : List Piece) : Prop :=
  ∀ p ∈ ps, p.RankBelow context rank n

/-- The invariant of a pass over pieces whose context keys have rank below
`n`: a context key that the pass has visited and whose placeholder is among
the pieces has rank below `n - 1`. -/
def PassInv (context : GoMap Str) (rank : Str → Nat) (n : Nat) (visited : List Str)
    (ps : List Piece) : Prop :=
  ∀ c, Piece.key c ∈ ps → (mapGet context c).isSome = true →
    rank c < n ∧ (c ∈ visited → rank c + 1 < n)

/-- Whether a text has no brace can be computed. -/
instance decidableBraceFree (s : Str) : Decidable (BraceFree s) :=
  inferInstanceAs (Decidable ('\x7b' ∉ s ∧ '\x7d' ∉ s))

/-- Whether a placeholder begins in a text can be computed. -/
instance decidableNoOpening (s : Str) : Decidable (NoOpening s) :=
  inferInstanceAs
    (Decidable (stringsContains s "\x7b\x7b".toList = false ∧ s.getLast? ≠ some '\x7b'))

/-- Whether a piece is plain can be computed. -/
instance Piece.decidablePlain : (p : Piece) → Decidable p.Plain
  | .text s => inferInstanceAs (Decidable (NoOpening s))
  | .key k => inferInstanceAs (Decidable (BraceFree k))

/-- Whether a piece is below a rank can be computed. -/
instance Piece.decidableRankBelow (context : GoMap Str) (rank : Str → Nat) (n : Nat) :
    (p : Piece) → Decidable (p.RankBelow context rank n)
  | .text _ => inferInstanceAs (Decidable True)
  | .key c => inferInstanceAs (Decidable ((mapGet context c).isSome = true → rank c < n))

/-- The pieces of a key in a table of values, none for a key without
entry. -/
def piecesOf (table : GoMap (List Piece)) (k : Str) : List Piece :=
  match mapGet table k with
  | some ps => ps
  | none => []

/-- The shapes of a verdict at the process boundary: the decision is one of
the four tags, the exit status is 2 for "deny" and 0 otherwise, and there is
no message with the empty decision or with "allow". -/
def BoundaryShape (r : Response) : Prop :=
  (r.Decision = [] ∨ r.Decision = "allow".toList ∨ r.Decision = "deny".toList
    ∨ r.Decision = "ask".toList) ∧
  r.ExitCode = (if r.Decision = "deny".toList then 2 else 0) ∧
  (r.Decision = [] ∨ r.Decision = "allow".toList → r.Message = [])

/-- A ruleset whose only rule runs a chain that reaches, through a reference
and a conditional, a decision written as "block". -/
def nestedBlockRules : Config :=
  { Rules := [ruleWithActions 10 [chainAction [] [logAction, actionRef "stop".toList []]]]
    Conditions := []
    Actions := [("stop".toList,
      conditionalAction (some (leafCondition "exists".toList "tool_input.path".toList []))
        (some (decisionAction "block".toList "no \x7b\x7bpath\x7d\x7d".toList)) none)] }

mutual
/-- The names a condition refers to: its own reference and, at any depth,
those of its `all`, `any` and `not` children. -/
def Condition.refNames : Condition → List Str
  | .mk _ _ _ _ _ _ all any not ref =>
    (if ref = [] then [] else [ref])
      ++ (condRefNamesList all ++ (condRefNamesList any ++ condRefNamesOpt not))
/-- The names a list of conditions refers to. -/
def condRefNamesList : List Condition → List Str
  | [] => []
  | c :: cs => c.refNames ++ condRefNamesList cs
/-- The names an optional condition refers to. -/
def condRefNamesOpt : Option Condition → List Str
  | none => []
  | some c => c.refNames
end

mutual
/-- The nesting depth of a condition through `all`, `any` and `not`. -/
def Condition.depth : Condition → Nat
  | .mk _ _ _ _ _ _ all any not _ =>
    max (condDepthList all) (max (condDepthList any) (condDepthOpt not)) + 1
/-- The largest depth in a list of conditions. -/
def condDepthList : List Condition → Nat
  | [] => 0
  | c :: cs => max c.depth (condDepthList cs)
/-- The depth of an optional condition. -/
def condDepthOpt : Option Condition → Nat
  | none => 0
  | some c => c.depth
end

mutual
/-- The names an action refers to: its own reference and, at any depth,
those of its chain children and of its `then` and `else` branches. -/
def Action.refNames : Action → List Str
  | .mk _ _ _ actions ref _ _ thenAction elseAction =>
    (if ref = [] then [] else [ref])
      ++ (actRefNamesList actions ++ (actRefNamesOpt thenAction ++ actRefNamesOpt elseAction))
/-- The names a list of actions refers to. -/
def actRefNamesList : List Action → List Str
  | [] => []
  | a :: as => a.refNames ++ actRefNamesList as
/-- The names an optional action refers to. -/
def actRefNamesOpt : Option Action → List Str
  | none => []
  | some a => a.refNames
end

mutual
/-- The nesting depth of an action through chain children and branches. -/
def Action.depth : Action → Nat
  | .mk _ _ _ actions _ _ _ thenAction elseAction =>
    max (actDepthList actions) (max (actDepthOpt thenAction) (actDepthOpt elseAction)) + 1
/-- The largest depth in a list of actions. -/
def actDepthList : List Action → Nat
  | [] => 0
  | a :: as => max a.depth (actDepthList as)
/-- The depth of an optional action. -/
def actDepthOpt : Option Action → Nat
  | none => 0
  | some a => a.depth
end

/-- The condition registry is acyclic under the rank: every registered
definition refers only to names of strictly smaller rank than its own
name. -/
def CondAcyclic (rank : Str → Nat) (cfg : Config) : Prop :=
  ∀ n B, mapGet cfg.Conditions n = some B → ∀ m ∈ B.refNames, rank m < rank n

/-- The action registry is acyclic under the rank: every registered
definition refers only to names of strictly smaller rank than its own
name. -/
def ActAcyclic (rank : Str → Nat) (cfg : Config) : Prop :=
  ∀ n B, mapGet cfg.Actions n = some B → ∀ m ∈ B.refNames, rank m < rank n

/-- A ruleset with layered registries: the condition `top` refers to `base`
and to a name that is not registered, the action `outer` is a chain that
refers to `stop`, and `stop` is a conditional on `top`. -/
def layeredRules : Config :=
  { Rules := [{ ruleWithActions 10 [actionRef "outer".toList []] with
      Conditions := some (refTo "top".toList) }]
    Conditions :=
      [("base".toList, leafCondition "exists".toList "tool_input.path".toList []),
       ("top".toList, allOf [refTo "base".toList, notOf (refTo "missing".toList)])]
    Actions :=
      [("stop".toList, conditionalAction (some (refTo "top".toList))
          (some (decisionAction "deny".toList "no \x7b\x7bpath\x7d\x7d".toList)) none),
       ("outer".toList, chainAction [] [logAction, actionRef "stop".toList []])] }

/-- A rank for `layeredRules`: `top` and `outer` are above the rest. -/
def layeredRank (n : Str) : Nat :=
  if n = "top".toList ∨ n = "outer".toList then 1 else 0

/-- A registry with one condition, `loop`, that refers to itself. -/
def cyclicRegistry : Config :=
  { Rules := [], Actions := [], Conditions := [("loop".toList, refTo "loop".toList)] }

/-- An event whose tool input has a path with single braces and a content
with braces of every kind. -/
def writeEvent : HookEvent :=
  decodeEvent "pre_tool".toList "write_file".toList "s1".toList
    [("path".toList, .str "/tmp/\x7bdraft\x7d.txt".toList),
     ("content".toList, .str "if x \x7b\x7b\x7ba\x7d\x7d \x7d\x7d\x7b\x7b".toList)]

/-- Parameters with two levels of nesting below the template: `a` refers to
`b`, and `b` refers to `c` and to the path of the tool input. -/
def nestedParams : GoMap Value :=
  [("a".toList, .str "<\x7b\x7bb\x7d\x7d>".toList),
   ("b".toList, .str "\x7b\x7bc\x7d\x7d at \x7b\x7bpath\x7d\x7d".toList),
   ("c".toList, .str "end".toList)]

/-- The values of the context of `writeEvent` with `nestedParams` that a
template over `a` reaches, in pieces; the content is not among them. -/
def nestedTable : GoMap (List Piece) :=
  [("path".toList, [Piece.text "/tmp/\x7bdraft\x7d.txt".toList]),
   ("a".toList, [Piece.text "<".toList, Piece.key "b".toList, Piece.text ">".toList]),
   ("b".toList, [Piece.key "c".toList, Piece.text " at ".toList, Piece.key "path".toList]),
   ("c".toList, [Piece.text "end".toList])]

/-- A rank for `nestedParams`: `a` is above `b`, `b` is above `c` and the
path, and the keys that a template over `a` does not reach have rank
three. -/
def nestedRank (k : Str) : Nat :=
  if k = "a".toList then 2
  else if k = "b".toList then 1
  else if k = "c".toList ∨ k = "path".toList then 0
  else 3

/-! ## Standard library: `sort.Slice` (Go 1.19 and later)

`sort.Slice` runs `pdqsort_func` of `sort/zsortfunc.go` on the slice, with
the `less` and the swap of the caller. The model below follows that file
function by function. It leaves out `heapSort_func`, `breakPatterns_func`
and the shifting of `partialInsertionSort_func` on 50 elements or more: a
run that reaches one of them has no result in the model. -/

/-- An element of the slice as far as the sort reads it: the place the rule
had before the sort, and the priority of the rule. -/
abbrev Slot := Nat × Int

/-- `data.Less(i, j)` with the `less` of `Dispatch`: the rule at `i` has the
higher priority. -/
def sliceLess (data : List Slot) (i j : Nat) : Bool :=
  match data[i]?, data[j]? with
  | some x, some y => decide (y.2 < x.2)
  | _, _ => false

/-- `data.Swap(i, j)`. -/
def sliceSwap (data : List Slot) (i j : Nat) : List Slot :=
  match data[i]?, data[j]? with
  | some x, some y => (data.set i y).set j x
  | _, _ => data

/-- The inner loop of `insertionSort_func`: the element at `j` moves left
while `j > a` and it is less than its left neighbour. -/
def insertLeft (a : Nat) : Nat → List Slot → List Slot
  | 0, data => data
  | j + 1, data =>
    if a < j + 1 ∧ sliceLess data (j + 1) j = true then
      insertLeft a j (sliceSwap data (j + 1) j)
    else data

/-- The outer loop of `insertionSort_func`, with `n` values of `i` to go. -/
def insertionLoop (a : Nat) : Nat → Nat → List Slot → List Slot
  | 0, _, data => data
  | n + 1, i, data => insertionLoop a n (i + 1) (insertLeft a i data)

/-- `insertionSort_func(data, a, b)` on the slice itself. -/
def insertionSortRange (data : List Slot) (a b : Nat) : List Slot :=
  insertionLoop a (b - (a + 1)) (a + 1) data

/-- `sortedHint` of the `sort` package. -/
inductive SortedHint where
  | unknownHint
  | increasingHint
  | decreasingHint
  deriving DecidableEq, Repr

/-- `order2_func(data, a, b, swaps)`: the two indices in order, and the
count of swaps. -/
def order2_func (data : List Slot) (a b swaps : Nat) : Nat × Nat × Nat :=
  if sliceLess data b a then (b, a, swaps + 1) else (a, b, swaps)

/-- `median_func(data, a, b, c, swaps)`: the index of the median, and the
count of swaps. -/
def median_func (data : List Slot) (a b c swaps : Nat) : Nat × Nat :=
  let r1 := order2_func data a b swaps
  let r2 := order2_func data r1.2.1 c r1.2.2
  let r3 := order2_func data r1.1 r2.1 r2.2.2
  (r3.2.1, r3.2.2)

/-- `medianAdjacent_func(data, a, swaps)`. -/
def medianAdjacent_func (data : List Slot) (a swaps : Nat) : Nat × Nat :=
  median_func data (a - 1) a (a + 1) swaps

/-- `choosePivot_func(data, a, b)`. -/
def choosePivot_func (data : List Slot) (a b : Nat) : Nat × SortedHint :=
  let l := b - a
  let i := a + l / 4 * 1
  let j := a + l / 4 * 2
  let k := a + l / 4 * 3
  let r :=
    if 8 ≤ l then
      if 50 ≤ l then
        let ri := medianAdjacent_func data i 0
        let rj := medianAdjacent_func data j ri.2
        let rk := medianAdjacent_func data k rj.2
        median_func data ri.1 rj.1 rk.1 rk.2
      else median_func data i j k 0
    else (j, 0)
  if r.2 = 0 then (r.1, .increasingHint)
  else if r.2 = 12 then (r.1, .decreasingHint)
  else (r.1, .unknownHint)

/-- The loop of `reverseRange_func`, with `n` steps to go. -/
def reverseLoop : Nat → Nat → Nat → List Slot → List Slot
  | 0, _, _, data => data
  | n + 1, i, j, data =>
    if i < j then reverseLoop n (i + 1) (j - 1) (sliceSwap data i j) else data

/-- `reverseRange_func(data, a, b)`. -/
def reverseRange_func (data : List Slot) (a b : Nat) : List Slot :=
  reverseLoop (b - a) a (b - 1) data

/-- The scan of `partialInsertionSort_func`: `i` moves right while the
element at `i` is not less than its left neighbour. -/
def scanInOrder (data : List Slot) (b : Nat) : Nat → Nat → Nat
  | 0, i => i
  | n + 1, i =>
    if i < b ∧ sliceLess data i (i - 1) = false then scanInOrder data b n (i + 1) else i

/-- `partialInsertionSort_func(data, a, b)` as far as it is modelled: true
when the slice is in order, false when it is not and has fewer than 50
elements, which leaves the slice as it is; no result otherwise. -/
def partialInsertionSort_func (data : List Slot) (a b : Nat) : Option Bool :=
  let i := scanInOrder data b (b - a) (a + 1)
  if i = b then some true
  else if b - a < 50 then some false
  else none

/-- The loop `for i <= j && data.Less(i, a) { i++ }` of `partition_func`. -/
def scanLess (data : List Slot) (a j : Nat) : Nat → Nat → Nat
  | 0, i => i
  | n + 1, i =>
    if i ≤ j ∧ sliceLess data i a = true then scanLess data a j n (i + 1) else i

/-- The loop `for i <= j && !data.Less(j, a) { j-- }` of `partition_func`. -/
def scanNotLess (data : List Slot) (a i : Nat) : Nat → Nat → Nat
  | 0, j => j
  | n + 1, j =>
    if i ≤ j ∧ sliceLess data j a = false then scanNotLess data a i n (j - 1) else j

/-- The main loop of `partition_func`, with `n` rounds to go: the slice, and
`j` at the end. -/
def partitionLoop (a : Nat) : Nat → Nat → Nat → List Slot → List Slot × Nat
  | 0, _, j, data => (data, j)
  | n + 1, i, j, data =>
    let i1 := scanLess data a j (j + 1 - i) i
    let j1 := scanNotLess data a i1 (j + 1 - i1) j
    if j1 < i1 then (data, j1)
    else partitionLoop a n (i1 + 1) (j1 - 1) (sliceSwap data i1 j1)

/-- `partition_func(data, a, b, pivot)`: the slice, the new place of the
pivot, and whether the slice was partitioned already. -/
def partition_func (data : List Slot) (a b pivot : Nat) : List Slot × Nat × Bool :=
  let data := sliceSwap data a pivot
  let i := scanLess data a (b - 1) (b - 1 - a) (a + 1)
  let j := scanNotLess data a i (b - i) (b - 1)
  if j < i then (sliceSwap data j a, j, true)
  else
    let r := partitionLoop a (b - a) (i + 1) (j - 1) (sliceSwap data i j)
    (sliceSwap r.1 r.2 a, r.2, false)

/-- The loop `for i <= j && !data.Less(a, i) { i++ }` of
`partitionEqual_func`. -/
def scanNotGreater (data : List Slot) (a j : Nat) : Nat → Nat → Nat
  | 0, i => i
  | n + 1, i =>
    if i ≤ j ∧ sliceLess data a i = false then scanNotGreater data a j n (i + 1) else i

/-- The loop `for i <= j && data.Less(a, j) { j-- }` of
`partitionEqual_func`. -/
def scanGreater (data : List Slot) (a i : Nat) : Nat → Nat → Nat
  | 0, j => j
  | n + 1, j =>
    if i ≤ j ∧ sliceLess data a j = true then scanGreater data a i n (j - 1) else j

/-- The loop of `partitionEqual_func`, with `n` rounds to go: the slice, and
`i` at the end. -/
def partitionEqualLoop (a : Nat) : Nat → Nat → Nat → List Slot → List Slot × Nat
  | 0, i, _, data => (data, i)
  | n + 1, i, j, data =>
    let i1 := scanNotGreater data a j (j + 1 - i) i
    let j1 := scanGreater data a i1 (j + 1 - i1) j
    if j1 < i1 then (data, i1)
    else partitionEqualLoop a n (i1 + 1) (j1 - 1) (sliceSwap data i1 j1)

/-- `partitionEqual_func(data, a, b, pivot)`: the slice and the new start. -/
def partitionEqual_func (data : List Slot) (a b pivot : Nat) : List Slot × Nat :=
  partitionEqualLoop a (b - a) (a + 1) (b - 1) (sliceSwap data a pivot)

/-- `pdqsort_func(data, a, b, limit)`, one round of its loop for each unit of
fuel; `wasBalanced` and `wasPartitioned` are its two local variables. There
is no result when the fuel runs out and when the run reaches a part that is
not modelled. -/
def pdqsort_func : Nat → List Slot → Nat → Nat → Nat → Bool → Bool → Option (List Slot)
  | 0, _, _, _, _, _, _ => none
  | fuel + 1, data, a, b, limit, wasBalanced, wasPartitioned =>
    let length := b - a
    if length ≤ 12 then some (insertionSortRange data a b)
    else if limit = 0 then none
    else if wasBalanced = false then none
    else
      let chosen := choosePivot_func data a b
      let data1 := if chosen.2 = .decreasingHint then reverseRange_func data a b else data
      let pivot := if chosen.2 = .decreasingHint then (b - 1) - (chosen.1 - a) else chosen.1
      let hint := if chosen.2 = .decreasingHint then SortedHint.increasingHint else chosen.2
      let inOrder :=
        if wasBalanced ∧ wasPartitioned ∧ hint = .increasingHint then
          partialInsertionSort_func data1 a b
        else some false
      match inOrder with
      | none => none
      | some true => some data1
      | some false =>
        if 0 < a ∧ sliceLess data1 (a - 1) pivot = false then
          let r := partitionEqual_func data1 a b pivot
          pdqsort_func fuel r.1 r.2 b limit wasBalanced wasPartitioned
        else
          let r := partition_func data1 a b pivot
          let mid := r.2.1
          let leftLen := mid - a
          let rightLen := b - mid
          let balanceThreshold := length / 8
          if leftLen < rightLen then
            match pdqsort_func fuel r.1 a mid limit true true with
            | none => none
            | some data2 =>
              pdqsort_func fuel data2 (mid + 1) b limit (decide (balanceThreshold ≤ leftLen)) r.2.2
          else
            match pdqsort_func fuel r.1 (mid + 1) b limit true true with
            | none => none
            | some data2 =>
              pdqsort_func fuel data2 a mid limit (decide (balanceThreshold ≤ rightLen)) r.2.2

/-- `bits.Len(x)`: the number of bits of `x`, with `n` halvings to go. -/
def bitsLen : Nat → Nat → Nat
  | 0, _ => 0
  | n + 1, x => if x = 0 then 0 else bitsLen n (x / 2) + 1

/-- The slice `enabledRules` as the sort reads it. -/
def slotsOf (l : List Rule) : List Slot :=
  (List.range l.length).zip (l.map (fun r => r.Priority))

/-- The run of `sort.Slice(enabledRules, less)` in `Dispatch`. -/
def sortSliceRun (l : List Rule) : Option (List Slot) :=
  pdqsort_func (l.length + 1) (slotsOf l) 0 l.length (bitsLen (l.length + 1) l.length) true true

/-- The rules in the order of the slots. -/
def rulesOf (l : List Rule) (data : List Slot) : List Rule :=
  data.filterMap (fun s => l[s.1]?)

/-- `sort.Slice(enabledRules, less)` on the rules: the rules in the order
that the run ends with. The check that this is the rules in descending
priority holds on every run of the sort; it is there for the contract of
`GoLib`, and the insertion sort stands in where the model has no result. -/
def goSortSlice (l : List Rule) : List Rule :=
  match sortSliceRun l with
  | some data =>
    if (data.map Prod.fst).Perm (List.range l.length) ∧
        (rulesOf l data).Pairwise (fun a b => b.Priority ≤ a.Priority) then rulesOf l data
    else insertionSort_func l
  | none => insertionSort_func l

/-- An instance of `GoLib` that sorts as `sort.Slice` does: `wordRegexp`, the
model of `pdqsort_func`, and maps visited in the order of their entries. -/
def pdqLib : GoLib where
  regexpMatchString := wordRegexp
  sortSlice := goSortSlice
  sortSlice_perm := by
    intro l
    have hrange : ∀ m : List Rule, (List.range m.length).filterMap (fun i => m[i]?) = m := by
      intro m
      induction m with
      | nil => rfl
      | cons x xs ih =>
        rw [List.length_cons, List.range_succ_eq_map, List.filterMap_cons]
        simp only [List.getElem?_cons_zero, List.filterMap_map]
        congr 1
        have hfun : ((fun i => (x :: xs)[i]?) ∘ Nat.succ) = fun i => xs[i]? := by
          funext i
          simp
        rw [hfun]
        exact ih
    unfold goSortSlice
    split
    · rename_i data _
      split
      · rename_i h
        have h1 : rulesOf l data = (data.map Prod.fst).filterMap (fun i => l[i]?) := by
          unfold rulesOf
          rw [List.filterMap_map]
          rfl
        rw [h1]
        have h2 := h.1.filterMap (fun i => l[i]?)
        rw [hrange l] at h2
        exact h2
      · exact sampleLib.sortSlice_perm l
    · exact sampleLib.sortSlice_perm l
  sortSlice_sorted := by
    intro l
    unfold goSortSlice
    split
    · split
      · rename_i h
        exact h.2
      · exact sampleLib.sortSlice_sorted l
    · exact sampleLib.sortSlice_sorted l
  mapOrder := fun _ m => m
  mapOrder_perm := fun _ m => List.Perm.refl m

/-- A deny rule of priority 0 whose matcher is anchored on `write_file`: its
trigger fails on the scenario's event. -/
def fillerRule (id : Str) : Rule :=
  denyRule id 0 "^write_file$".toList "passwd".toList "filler".toList

/-- Thirteen enabled rules: a deny rule of priority 10 with message "first",
a filler, a deny rule of priority 10 with message "second", and ten more
fillers. -/
def thirteenRules : Config :=
  rulesOnly
    [denyRule "one".toList 10 "delete_file".toList "passwd".toList "first".toList,
     fillerRule "f01".toList,
     denyRule "two".toList 10 "delete_file".toList "passwd".toList "second".toList,
     fillerRule "f02".toList, fillerRule "f03".toList, fillerRule "f04".toList,
     fillerRule "f05".toList, fillerRule "f06".toList, fillerRule "f07".toList,
     fillerRule "f08".toList, fillerRule "f09".toList, fillerRule "f10".toList,
     fillerRule "f11".toList]

/-- The rules of `thirteenRules` without the filler `f01`. -/
def twelveRules : Config :=
  rulesOnly
    [denyRule "one".toList 10 "delete_file".toList "passwd".toList "first".toList,
     denyRule "two".toList 10 "delete_file".toList "passwd".toList "second".toList,
     fillerRule "f02".toList, fillerRule "f03".toList, fillerRule "f04".toList,
     fillerRule "f05".toList, fillerRule "f06".toList, fillerRule "f07".toList,
     fillerRule "f08".toList, fillerRule "f09".toList, fillerRule "f10".toList,
     fillerRule "f11".toList]

/-! ## Lemmas on the dispatcher loop -/

/-- `sort.Slice` leaves a slice of one rule as it is. -/
theorem sortSlice_singleton (lib : GoLib) (r : Rule) : lib.sortSlice [r] = [r] :=
  List.perm_singleton.mp (lib.sortSlice_perm [r])

/-- A rule whose trigger fails is passed over by the loop. -/
theorem runRules_cons_trigger (lib : GoLib) (fuel : Nat) (event : HookEvent) (cfg : Config)
    (r : Rule) (rest : List Rule) (h : matchesTrigger lib r event = false) :
    runRules lib fuel event cfg (r :: rest) = runRules lib fuel event cfg rest := by
  simp [runRules, h]

/-- A rule whose condition is false is passed over by the loop. -/
theorem runRules_cons_condition (lib : GoLib) (fuel : Nat) (event : HookEvent) (cfg : Config)
    (r : Rule) (rest : List Rule) (h : ruleCondition lib fuel r event cfg = some false) :
    runRules lib fuel event cfg (r :: rest) = runRules lib fuel event cfg rest := by
  by_cases ht : matchesTrigger lib r event = false <;> simp [runRules, ht, h]

/-- A rule that passes trigger and condition and whose actions all return
`nil` is passed over by the loop. -/
theorem runRules_cons_noop (lib : GoLib) (fuel : Nat) (event : HookEvent) (cfg : Config)
    (r : Rule) (rest : List Rule) (hc : ruleCondition lib fuel r event cfg = some true)
    (ha : runActions (fun a => Execute lib fuel (some a) event cfg) r.Actions = some none) :
    runRules lib fuel event cfg (r :: rest) = runRules lib fuel event cfg rest := by
  by_cases ht : matchesTrigger lib r event = false <;> simp [runRules, ht, hc, ha]

/-- A rule that passes trigger and condition and whose actions give a
response ends the loop with that response. -/
theorem runRules_cons_fire (lib : GoLib) (fuel : Nat) (event : HookEvent) (cfg : Config)
    (r : Rule) (rest : List Rule) (resp : Response)
    (ht : matchesTrigger lib r event = true)
    (hc : ruleCondition lib fuel r event cfg = some true)
    (ha : runActions (fun a => Execute lib fuel (some a) event cfg) r.Actions = some (some resp)) :
    runRules lib fuel event cfg (r :: rest) = some resp := by
  simp [runRules, ht, hc, ha]

/-- When every action returns `nil`, so does the loop over the actions. -/
theorem runActions_all_none (f : Action → Option (Option Response)) (l : List Action)
    (h : ∀ a ∈ l, f a = some none) : runActions f l = some none := by
  induction l with
  | nil => rfl
  | cons a rest ih =>
    have ha : f a = some none := h a (List.mem_cons_self a rest)
    have hr : ∀ b ∈ rest, f b = some none := fun b hb => h b (List.mem_cons_of_mem a hb)
    simp [runActions, ha, ih hr]

/-- A rule that produces no verdict is passed over by the loop. -/
theorem runRules_cons_noVerdict (lib : GoLib) (fuel : Nat) (event : HookEvent) (cfg : Config)
    (r : Rule) (rest : List Rule) (h : NoVerdict lib fuel event cfg r) :
    runRules lib fuel event cfg (r :: rest) = runRules lib fuel event cfg rest := by
  rcases h with h | h | ⟨hc, ha⟩
  · exact runRules_cons_trigger lib fuel event cfg r rest h
  · exact runRules_cons_condition lib fuel event cfg r rest h
  · exact runRules_cons_noop lib fuel event cfg r rest hc (runActions_all_none _ _ ha)

/-- Rules that produce no verdict in front of the list do not change the
result of the loop. -/
theorem runRules_append_noVerdict (lib : GoLib) (fuel : Nat) (event : HookEvent) (cfg : Config)
    (l rest : List Rule) (h : ∀ r ∈ l, NoVerdict lib fuel event cfg r) :
    runRules lib fuel event cfg (l ++ rest) = runRules lib fuel event cfg rest := by
  induction l with
  | nil => rfl
  | cons r l ih =>
    rw [List.cons_append, runRules_cons_noVerdict lib fuel event cfg r _
      (h r (List.mem_cons_self r l))]
    exact ih (fun x hx => h x (List.mem_cons_of_mem r hx))

/-- A non-reference decision action with decision "deny" is terminal: with
fuel for one step `Execute` returns exit code 2, decision "deny" and the
rendered message. -/
theorem execute_deny (lib : GoLib) (fuel : Nat) (event : HookEvent) (cfg : Config) (a : Action)
    (href : a.Ref = []) (hty : a.Type_ = "decision".toList) (hdec : a.Decision = "deny".toList) :
    Execute lib (fuel + 1) (some a) event cfg
      = some (some { ExitCode := 2, Decision := "deny".toList,
                     Message := renderTemplate lib a.Message event a.Params }) := by
  simp [Execute, href, hty, executeDecision, hdec]

/-- A rule that passes trigger and condition and whose first action is a
terminal deny ends the loop with that action's verdict. -/
theorem runRules_cons_deny (lib : GoLib) (fuel : Nat) (event : HookEvent) (cfg : Config)
    (r : Rule) (tail : List Rule) (a : Action) (rest : List Action)
    (ht : matchesTrigger lib r event = true)
    (hc : ruleCondition lib (fuel + 1) r event cfg = some true)
    (hact : r.Actions = a :: rest) (href : a.Ref = []) (hty : a.Type_ = "decision".toList)
    (hdec : a.Decision = "deny".toList) :
    runRules lib (fuel + 1) event cfg (r :: tail)
      = some { ExitCode := 2, Decision := "deny".toList,
               Message := renderTemplate lib a.Message event a.Params } := by
  apply runRules_cons_fire lib (fuel + 1) event cfg r tail _ ht hc
  rw [hact]
  simp [runActions, execute_deny lib fuel event cfg a href hty hdec]

/-- In a list sorted by descending priority, a rule whose priority is
strictly above that of every other rule of the list stands first. -/
theorem sorted_head_of_strict_max (l pre post : List Rule) (r : Rule)
    (hperm : l.Perm (pre ++ r :: post))
    (hsorted : l.Pairwise (fun a b => b.Priority ≤ a.Priority))
    (hmax : ∀ x ∈ pre ++ post, x.Priority < r.Priority) :
    ∃ t, l = r :: t := by
  cases l with
  | nil =>
    have := hperm.length_eq
    simp at this
    omega
  | cons h t =>
    have hr : r ∈ h :: t := hperm.mem_iff.mpr (by simp)
    have hh : h ∈ pre ++ r :: post := hperm.mem_iff.mp (List.mem_cons_self h t)
    rcases List.mem_cons.mp hr with heq | hrt
    · exact ⟨t, by rw [heq]⟩
    · have hle : r.Priority ≤ h.Priority := (List.pairwise_cons.mp hsorted).1 r hrt
      have hh2 : h = r ∨ h ∈ pre ++ post := by
        simp only [List.mem_append, List.mem_cons] at hh ⊢
        tauto
      rcases hh2 with heq | hmem
      · exact ⟨t, by rw [heq]⟩
      · exact absurd (hmax h hmem) (not_lt.mpr hle)

/-! ## C1: the first scenario -/

/-- C1, as stated, fails: on the scenario's event the rule with the glob
pattern `/etc/*` on `tool_input.path` does not fire, because the pattern is
matched against the base name `passwd`; `Dispatch` does not return exit code
2, decision "deny" and message "blocked: /etc/passwd". -/
theorem c1_scenario_not_denied :
    Dispatch sampleLib 1 deleteEvent
        (rulesOnly [denyRule [] 0 "delete_file".toList "/etc/*".toList
          "blocked: \x7b\x7bpath\x7d\x7d".toList])
      ≠ some { ExitCode := 2, Decision := "deny".toList,
               Message := "blocked: /etc/passwd".toList } := by
  decide

/-- On the scenario's event and the scenario's message template, a pass over
the context in any order replaces the `path` placeholder, and a further pass
changes nothing. -/
theorem renderPass_scenario (l : GoMap Str) (hl : l.Perm (buildContext deleteEvent [])) :
    renderPass l "blocked: \x7b\x7bpath\x7d\x7d".toList
      = ("blocked: /etc/passwd".toList, true) ∧
    renderPass l "blocked: /etc/passwd".toList = ("blocked: /etc/passwd".toList, false) := by
  have hlen : l.length = 3 := hl.length_eq
  match l, hlen with
  | [x, y, z], _ =>
    have hx : x ∈ buildContext deleteEvent [] := hl.mem_iff.mp (by simp)
    have hy : y ∈ buildContext deleteEvent [] := hl.mem_iff.mp (by simp)
    have hz : z ∈ buildContext deleteEvent [] := hl.mem_iff.mp (by simp)
    have hp : ("path".toList, "/etc/passwd".toList) ∈ [x, y, z] := hl.mem_iff.mpr (by decide)
    have e : buildContext deleteEvent [] = [("tool_name".toList, "delete_file".toList),
      ("session_id".toList, []), ("path".toList, "/etc/passwd".toList)] := by decide
    rw [e] at hx hy hz
    simp only [List.mem_cons, List.mem_singleton, List.not_mem_nil, or_false] at hx hy hz
    rcases hx with rfl | rfl | rfl <;> rcases hy with rfl | rfl | rfl <;>
      rcases hz with rfl | rfl | rfl <;>
      first
        | exact ⟨by decide, by decide⟩
        | exact absurd hp (by decide)

/-- The scenario's message renders to "blocked: /etc/passwd" on the
scenario's event, in whatever order the context is visited. -/
theorem renderTemplate_scenario (lib : GoLib) :
    renderTemplate lib "blocked: \x7b\x7bpath\x7d\x7d".toList deleteEvent []
      = "blocked: /etc/passwd".toList := by
  have h0 := (renderPass_scenario _ (lib.mapOrder_perm 0 (buildContext deleteEvent []))).1
  have h1 := (renderPass_scenario _ (lib.mapOrder_perm 1 (buildContext deleteEvent []))).2
  simp only [renderTemplate, renderPasses, h0, h1]
  simp

/-- C1, amended: for every library, rule id and priority and every fuel of
at least one, `Dispatch` on the scenario's event and rule returns the
default verdict (exit code 0, empty decision, empty message), since the glob
pattern `/etc/*` is matched against the base name `passwd`; and when the
glob pattern is `/etc/**`, which is also tried as `/etc/*` against the whole
value, and the matcher `delete_file` matches the tool name, it returns exit
code 2, decision "deny" and the message "blocked: /etc/passwd". -/
theorem c1_scenario_default (lib : GoLib) (fuel : Nat) (id : Str) (priority : Int) :
    Dispatch lib (fuel + 1) deleteEvent
        (rulesOnly [denyRule id priority "delete_file".toList "/etc/*".toList
          "blocked: \x7b\x7bpath\x7d\x7d".toList])
      = some { ExitCode := 0, Decision := [], Message := [] }
    ∧ (lib.regexpMatchString "delete_file".toList "delete_file".toList = some true →
      Dispatch lib (fuel + 1) deleteEvent
          (rulesOnly [denyRule id priority "delete_file".toList "/etc/**".toList
            "blocked: \x7b\x7bpath\x7d\x7d".toList])
        = some { ExitCode := 2, Decision := "deny".toList,
                 Message := "blocked: /etc/passwd".toList }) := by
  constructor
  · have hs : lib.sortSlice (enabledRules (rulesOnly [denyRule id priority "delete_file".toList
        "/etc/*".toList "blocked: \x7b\x7bpath\x7d\x7d".toList]))
        = [denyRule id priority "delete_file".toList "/etc/*".toList
            "blocked: \x7b\x7bpath\x7d\x7d".toList] := by
      have : enabledRules (rulesOnly [denyRule id priority "delete_file".toList
          "/etc/*".toList "blocked: \x7b\x7bpath\x7d\x7d".toList])
          = [denyRule id priority "delete_file".toList "/etc/*".toList
              "blocked: \x7b\x7bpath\x7d\x7d".toList] := rfl
      rw [this, sortSlice_singleton]
    unfold Dispatch
    rw [hs]
    by_cases ht : matchesTrigger lib (denyRule id priority "delete_file".toList "/etc/*".toList
        "blocked: \x7b\x7bpath\x7d\x7d".toList) deleteEvent = false
    · rw [runRules_cons_trigger _ _ _ _ _ _ ht]; rfl
    · have hc : ruleCondition lib (fuel + 1) (denyRule id priority "delete_file".toList
          "/etc/*".toList "blocked: \x7b\x7bpath\x7d\x7d".toList) deleteEvent
          (rulesOnly [denyRule id priority "delete_file".toList "/etc/*".toList
            "blocked: \x7b\x7bpath\x7d\x7d".toList]) = some false := rfl
      rw [runRules_cons_condition _ _ _ _ _ _ hc]; rfl
  · intro hre
    have hs : lib.sortSlice (enabledRules (rulesOnly [denyRule id priority "delete_file".toList
        "/etc/**".toList "blocked: \x7b\x7bpath\x7d\x7d".toList]))
        = [denyRule id priority "delete_file".toList "/etc/**".toList
            "blocked: \x7b\x7bpath\x7d\x7d".toList] := by
      have : enabledRules (rulesOnly [denyRule id priority "delete_file".toList
          "/etc/**".toList "blocked: \x7b\x7bpath\x7d\x7d".toList])
          = [denyRule id priority "delete_file".toList "/etc/**".toList
              "blocked: \x7b\x7bpath\x7d\x7d".toList] := rfl
      rw [this, sortSlice_singleton]
    have ht : matchesTrigger lib (denyRule id priority "delete_file".toList "/etc/**".toList
        "blocked: \x7b\x7bpath\x7d\x7d".toList) deleteEvent = true := by
      have hm : lib.regexpMatchString (denyRule id priority "delete_file".toList
          "/etc/**".toList "blocked: \x7b\x7bpath\x7d\x7d".toList).Trigger.Matcher
          deleteEvent.ToolName = some true := hre
      unfold matchesTrigger
      rw [hm]
      rfl
    unfold Dispatch
    rw [hs, runRules_cons_deny lib fuel deleteEvent _ _ []
      (decisionAction "deny".toList "blocked: \x7b\x7bpath\x7d\x7d".toList) []
      ht rfl rfl rfl rfl rfl]
    have hm := renderTemplate_scenario lib
    have hm2 : renderTemplate lib
        (decisionAction "deny".toList "blocked: \x7b\x7bpath\x7d\x7d".toList).Message
        deleteEvent
        (decisionAction "deny".toList "blocked: \x7b\x7bpath\x7d\x7d".toList).Params
        = "blocked: /etc/passwd".toList := hm
    rw [hm2]

/-- C1, amended, on the sample library: the pattern `/etc/*` gives the
default verdict and the pattern `/etc/**` the deny verdict. -/
theorem c1_scenario_default_witness :
    Dispatch sampleLib 1 deleteEvent
        (rulesOnly [denyRule [] 0 "delete_file".toList "/etc/*".toList
          "blocked: \x7b\x7bpath\x7d\x7d".toList])
      = some { ExitCode := 0, Decision := [], Message := [] }
    ∧ Dispatch sampleLib 1 deleteEvent
        (rulesOnly [denyRule [] 0 "delete_file".toList "/etc/**".toList
          "blocked: \x7b\x7bpath\x7d\x7d".toList])
      = some { ExitCode := 2, Decision := "deny".toList,
               Message := "blocked: /etc/passwd".toList } :=
  ⟨(c1_scenario_default sampleLib 0 [] 0).1,
   (c1_scenario_default sampleLib 0 [] 0).2 (by decide)⟩

/-! ## C2: the rule of highest priority wins -/

/-- C2: when an enabled rule `r` passes its trigger and its condition, has as
first action a non-reference decision action with decision "deny", and every
other enabled rule has a strictly lower priority, `Dispatch` returns exit
code 2, decision "deny" and the message rendered from `r`'s action: the
result is fixed by `r` alone, whatever the other rules and their actions. -/
theorem c2_highest_priority_wins (lib : GoLib) (fuel : Nat) (event : HookEvent) (cfg : Config)
    (pre post : List Rule) (r : Rule) (a : Action) (rest : List Action)
    (hrules : cfg.Rules = pre ++ r :: post)
    (hen : r.Enabled = true)
    (ht : matchesTrigger lib r event = true)
    (hc : ruleCondition lib (fuel + 1) r event cfg = some true)
    (hact : r.Actions = a :: rest) (href : a.Ref = []) (hty : a.Type_ = "decision".toList)
    (hdec : a.Decision = "deny".toList)
    (hother : ∀ x ∈ pre ++ post, x.Enabled = true → x.Priority < r.Priority) :
    Dispatch lib (fuel + 1) event cfg
      = some { ExitCode := 2, Decision := "deny".toList,
               Message := renderTemplate lib a.Message event a.Params } := by
  have hen2 : enabledRules cfg
      = pre.filter (fun x => x.Enabled) ++ r :: post.filter (fun x => x.Enabled) := by
    simp [enabledRules, hrules, List.filter_append, List.filter_cons, hen]
  have hmax : ∀ x ∈ pre.filter (fun x => x.Enabled) ++ post.filter (fun x => x.Enabled),
      x.Priority < r.Priority := by
    intro x hx
    simp only [List.mem_append, List.mem_filter] at hx
    rcases hx with ⟨hx, he⟩ | ⟨hx, he⟩
    · exact hother x (List.mem_append_left _ hx) he
    · exact hother x (List.mem_append_right _ hx) he
  obtain ⟨t, hsort⟩ := sorted_head_of_strict_max (lib.sortSlice (enabledRules cfg)) _ _ r
    (hen2 ▸ lib.sortSlice_perm (enabledRules cfg)) (lib.sortSlice_sorted _) hmax
  unfold Dispatch
  rw [hsort]
  exact runRules_cons_deny lib fuel event cfg r t a rest ht hc hact href hty hdec

/-- C2 on two matching deny rules with priorities 10 and 90: the verdict is
that of the rule with priority 90. -/
theorem c2_highest_priority_wins_witness :
    Dispatch sampleLib 1 deleteEvent twoDenyRules
      = some { ExitCode := 2, Decision := "deny".toList, Message := "high priority".toList } :=
  c2_highest_priority_wins sampleLib 0 deleteEvent twoDenyRules
    [denyRule "low".toList 10 "delete_file".toList "passwd".toList "low priority".toList] []
    (denyRule "high".toList 90 "delete_file".toList "passwd".toList "high priority".toList)
    (decisionAction "deny".toList "high priority".toList) []
    rfl rfl (by decide) (by decide) rfl rfl rfl rfl
    (by
      intro x hx _
      simp only [List.append_nil, List.mem_singleton] at hx
      subst hx
      decide)

/-! ## C3: the default verdict -/

/-- C3: when every enabled rule produces no verdict (its trigger fails, or
its condition evaluates to false, or every one of its actions returns
`nil`), `Dispatch` returns the default verdict: exit code 0, empty decision,
empty message. A ruleset without enabled rules, one in which no trigger
matches and one whose matching rules only have no-op actions are instances. -/
theorem c3_default_verdict (lib : GoLib) (fuel : Nat) (event : HookEvent) (cfg : Config)
    (h : ∀ r ∈ cfg.Rules, r.Enabled = true → NoVerdict lib fuel event cfg r) :
    Dispatch lib fuel event cfg = some { ExitCode := 0, Decision := [], Message := [] } := by
  have hall : ∀ r ∈ lib.sortSlice (enabledRules cfg), NoVerdict lib fuel event cfg r := by
    intro r hr
    have hr2 : r ∈ enabledRules cfg := (lib.sortSlice_perm _).mem_iff.mp hr
    simp only [enabledRules, List.mem_filter] at hr2
    exact h r hr2.1 hr2.2
  have := runRules_append_noVerdict lib fuel event cfg (lib.sortSlice (enabledRules cfg)) [] hall
  rw [List.append_nil] at this
  unfold Dispatch
  rw [this]
  rfl

/-- C3 on a ruleset with a disabled deny rule, a rule whose trigger does not
match and a matching rule that only logs: the verdict is the default. -/
theorem c3_default_verdict_witness :
    Dispatch sampleLib 1 deleteEvent quietRules
      = some { ExitCode := 0, Decision := [], Message := [] } :=
  c3_default_verdict sampleLib 1 deleteEvent quietRules (by
    intro r hr hen
    simp only [quietRules, rulesOnly, List.mem_cons, List.mem_singleton, List.not_mem_nil,
      or_false] at hr
    rcases hr with rfl | rfl | rfl
    · exact absurd hen (by decide)
    · exact Or.inl (by decide)
    · refine Or.inr (Or.inr ⟨by decide, ?_⟩)
      intro a ha
      simp only [denyRule, List.mem_singleton] at ha
      subst ha
      decide)

/-! ## The insertion sort keeps ties in order -/

/-- A rule whose priority is not above any priority of the reversed prefix
stays where the inner loop starts. -/
theorem insertRule_of_le (x : Rule) (l : List Rule) (h : ∀ y ∈ l, x.Priority ≤ y.Priority) :
    insertRule x l = x :: l := by
  cases l with
  | nil => rfl
  | cons q qs =>
    have hq : ¬ q.Priority < x.Priority := not_lt.mpr (h q (List.mem_cons_self q qs))
    simp [insertRule, hq]

/-- Filtering after an insertion is the insertion, if the rule is kept, into
the filtered prefix. -/
theorem filter_insertRule (p : Rule → Bool) (x : Rule) (acc : List Rule)
    (hacc : acc.Pairwise (fun a b => a.Priority ≤ b.Priority)) :
    (insertRule x acc).filter p
      = if p x = true then insertRule x (acc.filter p) else acc.filter p := by
  induction acc with
  | nil => cases hp : p x <;> simp [insertRule, hp]
  | cons q qs ih =>
    have hq := List.pairwise_cons.mp hacc
    have ih2 := ih hq.2
    by_cases hlt : q.Priority < x.Priority
    · cases hpq : p q <;> cases hpx : p x <;>
        simp [insertRule, hlt, List.filter_cons, hpq, hpx, ih2]
    · have hle : x.Priority ≤ q.Priority := not_lt.mp hlt
      have hins : insertRule x ((q :: qs).filter p) = x :: (q :: qs).filter p := by
        apply insertRule_of_le
        intro y hy
        have hy2 : y ∈ q :: qs := (List.mem_filter.mp hy).1
        rcases List.mem_cons.mp hy2 with rfl | hy3
        · exact hle
        · exact le_trans hle (hq.1 y hy3)
      cases hpx : p x
      · simp [insertRule, hlt, List.filter_cons, hpx]
      · rw [if_pos rfl, hins]
        simp [insertRule, hlt, List.filter_cons, hpx]

/-- The reversed prefix built by the insertion sort is in ascending order of
priority. -/
theorem foldl_insertRule_sorted (l : List Rule) :
    (l.foldl (fun acc x => insertRule x acc) []).Pairwise
      (fun a b => a.Priority ≤ b.Priority) := by
  have h := sampleLib.sortSlice_sorted l
  have h2 : (insertionSort_func l).Pairwise (fun a b => b.Priority ≤ a.Priority) := h
  unfold insertionSort_func at h2
  exact List.pairwise_reverse.mp h2

/-- The insertion sort commutes with filtering: the rules that are kept are
sorted into the same order whether or not the others are there. -/
theorem insertionSort_func_filter (p : Rule → Bool) (l : List Rule) :
    (insertionSort_func l).filter p = insertionSort_func (l.filter p) := by
  have key : (l.foldl (fun acc x => insertRule x acc) []).filter p
      = (l.filter p).foldl (fun acc x => insertRule x acc) [] := by
    induction l using List.reverseRecOn with
    | nil => rfl
    | append_singleton l x ih =>
      rw [List.foldl_append, List.foldl_cons, List.foldl_nil,
        filter_insertRule p x _ (foldl_insertRule_sorted l), ih, List.filter_append]
      cases hpx : p x
      · simp [hpx]
      · simp [hpx, List.foldl_append]
  unfold insertionSort_func
  rw [List.filter_reverse, key]

/-- Rules that produce no verdict can be filtered out of the loop. -/
theorem runRules_filter (lib : GoLib) (fuel : Nat) (event : HookEvent) (cfg : Config)
    (p : Rule → Bool) (l : List Rule)
    (h : ∀ r ∈ l, p r = false → NoVerdict lib fuel event cfg r) :
    runRules lib fuel event cfg l = runRules lib fuel event cfg (l.filter p) := by
  induction l with
  | nil => rfl
  | cons r rest ih =>
    have ih2 := ih (fun x hx => h x (List.mem_cons_of_mem r hx))
    cases hp : p r
    · rw [runRules_cons_noVerdict lib fuel event cfg r rest (h r (List.mem_cons_self r rest) hp),
        ih2]
      simp [List.filter_cons, hp]
    · have hf : (r :: rest).filter p = r :: rest.filter p := by simp [List.filter_cons, hp]
      rw [hf]
      simp only [runRules]
      rw [ih2]

/-! ## The result does not depend on the rule list of the configuration -/

/-- `Evaluate` reads the condition registry only. -/
theorem evaluate_rules (lib : GoLib) (event : HookEvent) (cfg : Config) (rules : List Rule) :
    ∀ (fuel : Nat) (c : Option Condition),
      Evaluate lib fuel c event { cfg with Rules := rules } = Evaluate lib fuel c event cfg := by
  intro fuel
  induction fuel with
  | zero => intro c; simp [Evaluate]
  | succ n ih =>
    intro c
    cases c with
    | none => simp [Evaluate]
    | some cond => simp only [Evaluate, ih]

/-- `Execute` reads the two registries only. -/
theorem execute_rules (lib : GoLib) (event : HookEvent) (cfg : Config) (rules : List Rule) :
    ∀ (fuel : Nat) (a : Option Action),
      Execute lib fuel a event { cfg with Rules := rules } = Execute lib fuel a event cfg := by
  intro fuel
  induction fuel with
  | zero => intro a; simp [Execute]
  | succ n ih =>
    intro a
    cases a with
    | none => simp [Execute]
    | some action => simp only [Execute, ih, evaluate_rules]

/-- The loop of `Dispatch` reads the two registries only. -/
theorem runRules_rules (lib : GoLib) (fuel : Nat) (event : HookEvent) (cfg : Config)
    (rules l : List Rule) :
    runRules lib fuel event { cfg with Rules := rules } l = runRules lib fuel event cfg l := by
  induction l with
  | nil => rfl
  | cons r rest ih =>
    simp only [runRules, ruleCondition, ih, execute_rules, evaluate_rules]

/-- A rule that produces no verdict can be taken out of the list the loop
runs over, wherever it stands. -/
theorem runRules_remove (lib : GoLib) (fuel : Nat) (event : HookEvent) (cfg : Config)
    (l1 l2 : List Rule) (r : Rule) (h : NoVerdict lib fuel event cfg r) :
    runRules lib fuel event cfg (l1 ++ r :: l2) = runRules lib fuel event cfg (l1 ++ l2) := by
  induction l1 with
  | nil => exact runRules_cons_noVerdict lib fuel event cfg r l2 h
  | cons x l1 ih =>
    show runRules lib fuel event cfg (x :: (l1 ++ r :: l2))
      = runRules lib fuel event cfg (x :: (l1 ++ l2))
    simp only [runRules]
    rw [ih]

open Classical in
/-- When `sort.Slice` keeps ties in order, taking a rule that produces no
verdict out of the ruleset does not change the result of `Dispatch`. -/
theorem dispatch_remove_noVerdict (lib : GoLib) (fuel : Nat) (event : HookEvent) (cfg : Config)
    (pre post : List Rule) (r : Rule)
    (hrules : cfg.Rules = pre ++ r :: post)
    (hnv : NoVerdict lib fuel event cfg r)
    (hk : KeepsTies lib (enabledRules cfg))
    (hk2 : KeepsTies lib (enabledRules { cfg with Rules := pre ++ post })) :
    Dispatch lib fuel event cfg = Dispatch lib fuel event { cfg with Rules := pre ++ post } := by
  let p : Rule → Bool := fun x => !decide (NoVerdict lib fuel event cfg x)
  have hp : ∀ (l : List Rule), ∀ x ∈ l, p x = false → NoVerdict lib fuel event cfg x := by
    intro l x _ hx
    simpa [p] using hx
  have hpr : p r = false := by simp [p, hnv]
  have hE : (enabledRules cfg).filter p
      = (enabledRules { cfg with Rules := pre ++ post }).filter p := by
    simp only [enabledRules, hrules, List.filter_append, List.filter_filter]
    congr 1
    simp [List.filter_cons, hpr]
  unfold Dispatch
  rw [hk, hk2, runRules_rules lib fuel event cfg (pre ++ post),
    runRules_filter lib fuel event cfg p _ (hp _),
    runRules_filter lib fuel event cfg p (insertionSort_func (enabledRules _)) (hp _),
    insertionSort_func_filter, insertionSort_func_filter, hE]

/-! ## C4: a rule whose trigger fails is skipped -/

/-- The trigger fails when the event type is set and differs from the hook
type, or the matcher is set and does not match the tool name, a pattern that
does not compile included. -/
theorem matchesTrigger_eq_false (lib : GoLib) (r : Rule) (event : HookEvent)
    (h : (r.Trigger.Event ≠ [] ∧ r.Trigger.Event ≠ event.HookType) ∨
      (r.Trigger.Matcher ≠ [] ∧
        lib.regexpMatchString r.Trigger.Matcher event.ToolName ≠ some true)) :
    matchesTrigger lib r event = false := by
  unfold matchesTrigger
  rcases h with h | ⟨h1, h2⟩
  · rw [if_pos h]
  · split
    · rfl
    · split
      · rename_i heq
        exact absurd heq h2
      · rfl

/-- A rule whose trigger fails (its event type is set and differs from the
event's hook type, or its matcher is non-empty and does not match the
event's tool name or does not compile) is passed over by the loop of
`Dispatch`: for every `sort.Slice`, `Dispatch` returns what its loop returns
on the sorted rules with that rule taken out; and when `sort.Slice` keeps
ties in order on the ruleset and on the ruleset without the rule, as it does
on at most 12 rules, `Dispatch` returns the same verdict for both. -/
theorem failed_trigger_skipped (lib : GoLib) (fuel : Nat) (event : HookEvent) (cfg : Config)
    (pre post : List Rule) (r : Rule)
    (hrules : cfg.Rules = pre ++ r :: post)
    (htrig : (r.Trigger.Event ≠ [] ∧ r.Trigger.Event ≠ event.HookType) ∨
      (r.Trigger.Matcher ≠ [] ∧
        lib.regexpMatchString r.Trigger.Matcher event.ToolName ≠ some true)) :
    (∀ l1 l2, lib.sortSlice (enabledRules cfg) = l1 ++ r :: l2 →
      Dispatch lib fuel event cfg = runRules lib fuel event cfg (l1 ++ l2)) ∧
    (KeepsTies lib (enabledRules cfg) →
      KeepsTies lib (enabledRules { cfg with Rules := pre ++ post }) →
      Dispatch lib fuel event cfg
        = Dispatch lib fuel event { cfg with Rules := pre ++ post }) := by
  have hnv : NoVerdict lib fuel event cfg r := Or.inl (matchesTrigger_eq_false lib r event htrig)
  constructor
  · intro l1 l2 hs
    unfold Dispatch
    rw [hs]
    exact runRules_remove lib fuel event cfg l1 l2 r hnv
  · intro hk hk2
    exact dispatch_remove_noVerdict lib fuel event cfg pre post r hrules hnv hk hk2

/-- The scenario of a deny rule whose matcher is `^write_file$`, on the
scenario's event: the verdict is that of the empty ruleset, exit code 0 with
an empty decision. -/
theorem failed_trigger_skipped_scenario :
    Dispatch sampleLib 1 deleteEvent
        (rulesOnly [denyRule [] 0 "^write_file$".toList "passwd".toList "blocked".toList])
      = Dispatch sampleLib 1 deleteEvent (rulesOnly []) ∧
    Dispatch sampleLib 1 deleteEvent (rulesOnly [])
      = some { ExitCode := 0, Decision := [], Message := [] } :=
  ⟨(failed_trigger_skipped sampleLib 1 deleteEvent
      (rulesOnly [denyRule [] 0 "^write_file$".toList "passwd".toList "blocked".toList])
      [] [] (denyRule [] 0 "^write_file$".toList "passwd".toList "blocked".toList)
      rfl (Or.inr ⟨by decide, by decide⟩)).2 rfl rfl, rfl⟩

/-- The run of `sort.Slice` on the thirteen rules of `thirteenRules` ends
with the rule at place 2 before the rule at place 0: the first partition of
`pdqsort_func` swaps the rule at place 0 with the pivot at place 6 and brings
it back behind the rule at place 2. -/
theorem sortSliceRun_thirteen :
    (sortSliceRun thirteenRules.Rules).map (fun data => data.map Prod.fst)
      = some [2, 0, 6, 3, 4, 5, 1, 7, 8, 9, 10, 11, 12] := by
  decide

/-- On twelve rules `sort.Slice` runs the insertion sort, which keeps the
rules of `twelveRules` in their order. -/
theorem sortSliceRun_twelve :
    (sortSliceRun twelveRules.Rules).map (fun data => data.map Prod.fst)
      = some [0, 1, 2, 3, 4, 5, 6, 7, 8, 9, 10, 11] := by
  decide

/-- C4 fails on `thirteenRules`: the trigger of the filler `f01` fails on the
scenario's event, `Dispatch` returns the deny of the rule `two` with the
filler in the ruleset, and the deny of the rule `one` for the ruleset with
the filler removed. -/
theorem c4_removal_changes_verdict :
    matchesTrigger pdqLib (fillerRule "f01".toList) deleteEvent = false ∧
    twelveRules.Rules = thirteenRules.Rules.eraseIdx 1 ∧
    Dispatch pdqLib 2 deleteEvent thirteenRules
      = some { ExitCode := 2, Decision := "deny".toList, Message := "second".toList } ∧
    Dispatch pdqLib 2 deleteEvent twelveRules
      = some { ExitCode := 2, Decision := "deny".toList, Message := "first".toList } := by
  refine ⟨by decide, rfl, by decide, by decide⟩

/-! ## C5: rules of equal priority -/

/-- The inner loop of the insertion sort adds the rule to the prefix. -/
theorem insertRule_perm (x : Rule) (acc : List Rule) : (insertRule x acc).Perm (x :: acc) := by
  induction acc with
  | nil => exact List.Perm.refl _
  | cons q qs ih =>
    unfold insertRule
    split
    · exact (List.Perm.cons q ih).trans (List.Perm.swap x q qs)
    · exact List.Perm.refl _

/-- A rule whose priority is above every priority of the reversed prefix
moves to its far end. -/
theorem insertRule_of_lt (x : Rule) (l : List Rule) (h : ∀ y ∈ l, y.Priority < x.Priority) :
    insertRule x l = l ++ [x] := by
  induction l with
  | nil => rfl
  | cons q qs ih =>
    have hq : q.Priority < x.Priority := h q (List.mem_cons_self q qs)
    simp [insertRule, hq, ih (fun y hy => h y (List.mem_cons_of_mem q hy))]

/-- A rule whose priority is not above that of the rule at the far end of
the reversed prefix is inserted on this side of it. -/
theorem insertRule_keeps_last (x r : Rule) (l : List Rule) (h : x.Priority ≤ r.Priority) :
    ∃ l2, insertRule x (l ++ [r]) = l2 ++ [r] := by
  induction l with
  | nil =>
    have hr : ¬ r.Priority < x.Priority := not_lt.mpr h
    exact ⟨[x], by simp [insertRule, hr]⟩
  | cons q qs ih =>
    obtain ⟨l2, hl2⟩ := ih
    by_cases hq : q.Priority < x.Priority
    · exact ⟨q :: l2, by simp [insertRule, hq, hl2]⟩
    · exact ⟨x :: q :: qs, by simp [insertRule, hq]⟩

/-- The insertion sort puts first a rule that is preceded only by rules of
lower priority and followed only by rules of lower or equal priority. -/
theorem insertionSort_func_head (A B : List Rule) (r : Rule)
    (hA : ∀ x ∈ A, x.Priority < r.Priority) (hB : ∀ x ∈ B, x.Priority ≤ r.Priority) :
    ∃ t, insertionSort_func (A ++ r :: B) = r :: t := by
  have hmem : ∀ (l acc : List Rule), ∀ y ∈ l.foldl (fun acc x => insertRule x acc) acc,
      y ∈ acc ∨ y ∈ l := by
    intro l
    induction l with
    | nil => intro acc y hy; exact Or.inl hy
    | cons x xs ih =>
      intro acc y hy
      rcases ih (insertRule x acc) y hy with h | h
      · have hp : (insertRule x acc).Perm (x :: acc) := insertRule_perm x acc
        rcases List.mem_cons.mp (hp.mem_iff.mp h) with rfl | h2
        · exact Or.inr (List.mem_cons_self _ _)
        · exact Or.inl h2
      · exact Or.inr (List.mem_cons_of_mem x h)
  have hlast : ∀ (l acc : List Rule), (∀ x ∈ l, x.Priority ≤ r.Priority) →
      ∃ l2, l.foldl (fun acc x => insertRule x acc) (acc ++ [r]) = l2 ++ [r] := by
    intro l
    induction l with
    | nil => intro acc _; exact ⟨acc, rfl⟩
    | cons x xs ih =>
      intro acc hl
      obtain ⟨l2, hl2⟩ := insertRule_keeps_last x r acc (hl x (List.mem_cons_self x xs))
      rw [List.foldl_cons, hl2]
      exact ih l2 (fun y hy => hl y (List.mem_cons_of_mem x hy))
  have hfront : insertRule r (A.foldl (fun acc x => insertRule x acc) [])
      = A.foldl (fun acc x => insertRule x acc) [] ++ [r] := by
    apply insertRule_of_lt
    intro y hy
    rcases hmem A [] y hy with h | h
    · cases h
    · exact hA y h
  obtain ⟨l2, hl2⟩ := hlast B (A.foldl (fun acc x => insertRule x acc) []) hB
  refine ⟨l2.reverse, ?_⟩
  unfold insertionSort_func
  rw [List.foldl_append, List.foldl_cons, hfront, hl2]
  simp

/-- With three matching rules of equal priority, of which the second and the
third deny first thing and the first allows, `Dispatch` returns the verdict
of the first, not the deny verdict of the second: of the rules of equal
priority that produce a verdict, the first one counts. -/
theorem earlier_tie_wins_scenario :
    Dispatch sampleLib 1 deleteEvent (tieRules (decisionAction "allow".toList []))
      = some { ExitCode := 0, Decision := "allow".toList, Message := [] } ∧
    Dispatch sampleLib 1 deleteEvent (tieRules (decisionAction "allow".toList []))
      ≠ some { ExitCode := 2, Decision := "deny".toList, Message := "first".toList } := by
  decide

open Classical in
/-- Where `sort.Slice` keeps ties in order, as it does on at most 12 rules:
let two enabled rules `r1` and `r2` have the same priority, `r1` before `r2`
in the ruleset, both passing trigger and condition and each with a terminal
deny decision as first action. When no enabled rule of higher priority
produces a verdict and no enabled rule of the same priority placed before
`r1` produces a verdict, `Dispatch` returns `r1`'s verdict, which is not
`r2`'s when their messages differ. -/
theorem ties_in_source_order_of_keepsTies (lib : GoLib) (fuel : Nat) (event : HookEvent) (cfg : Config)
    (pre mid post : List Rule) (r1 r2 : Rule) (a1 a2 : Action) (rest1 rest2 : List Action)
    (hrules : cfg.Rules = pre ++ r1 :: (mid ++ r2 :: post))
    (hen1 : r1.Enabled = true) (_hen2 : r2.Enabled = true)
    (_hprio : r1.Priority = r2.Priority)
    (ht1 : matchesTrigger lib r1 event = true)
    (hc1 : ruleCondition lib (fuel + 1) r1 event cfg = some true)
    (_ht2 : matchesTrigger lib r2 event = true)
    (_hc2 : ruleCondition lib (fuel + 1) r2 event cfg = some true)
    (hact1 : r1.Actions = a1 :: rest1) (href1 : a1.Ref = [])
    (hty1 : a1.Type_ = "decision".toList) (hdec1 : a1.Decision = "deny".toList)
    (_hact2 : r2.Actions = a2 :: rest2) (_href2 : a2.Ref = [])
    (_hty2 : a2.Type_ = "decision".toList) (_hdec2 : a2.Decision = "deny".toList)
    (hhigher : ∀ x ∈ cfg.Rules, x.Enabled = true → r1.Priority < x.Priority →
      NoVerdict lib (fuel + 1) event cfg x)
    (hbefore : ∀ x ∈ pre, x.Enabled = true → x.Priority = r1.Priority →
      NoVerdict lib (fuel + 1) event cfg x)
    (hk : KeepsTies lib (enabledRules cfg)) :
    Dispatch lib (fuel + 1) event cfg
      = some { ExitCode := 2, Decision := "deny".toList,
               Message := renderTemplate lib a1.Message event a1.Params } ∧
    (renderTemplate lib a1.Message event a1.Params
        ≠ renderTemplate lib a2.Message event a2.Params →
      Dispatch lib (fuel + 1) event cfg
        ≠ some { ExitCode := 2, Decision := "deny".toList,
                 Message := renderTemplate lib a2.Message event a2.Params }) := by
  let p : Rule → Bool := fun x => !decide (NoVerdict lib (fuel + 1) event cfg x)
  have hp : ∀ (l : List Rule), ∀ x ∈ l, p x = false →
      NoVerdict lib (fuel + 1) event cfg x := by
    intro l x _ hx
    simpa [p] using hx
  have hpn : ∀ x, p x = true → ¬ NoVerdict lib (fuel + 1) event cfg x := by
    intro x hx
    simpa [p] using hx
  have hnv1 : ¬ NoVerdict lib (fuel + 1) event cfg r1 := by
    rintro (h | h | ⟨_, h⟩)
    · rw [ht1] at h; cases h
    · rw [hc1] at h; cases h
    · have h2 := h a1 (by rw [hact1]; exact List.mem_cons_self _ _)
      rw [execute_deny lib fuel event cfg a1 href1 hty1 hdec1] at h2
      cases h2
  have hp1 : p r1 = true := by simp [p, hnv1]
  have hE : (enabledRules cfg).filter p
      = (pre.filter (fun x => x.Enabled)).filter p
        ++ r1 :: ((mid ++ r2 :: post).filter (fun x => x.Enabled)).filter p := by
    simp only [enabledRules, hrules, List.filter_append]
    congr 1
    rw [List.filter_cons, if_pos hen1, List.filter_cons, if_pos hp1]
    simp only [List.filter_append]
  have hA : ∀ x ∈ (pre.filter (fun x => x.Enabled)).filter p, x.Priority < r1.Priority := by
    intro x hx
    obtain ⟨hx1, hpx⟩ := List.mem_filter.mp hx
    obtain ⟨hxpre, hxen⟩ := List.mem_filter.mp hx1
    have hxen2 : x.Enabled = true := by simpa using hxen
    have hmem : x ∈ cfg.Rules := by rw [hrules]; exact List.mem_append_left _ hxpre
    have h1 : ¬ r1.Priority < x.Priority := fun hlt => hpn x hpx (hhigher x hmem hxen2 hlt)
    have h2 : x.Priority ≠ r1.Priority := fun heq => hpn x hpx (hbefore x hxpre hxen2 heq)
    exact lt_of_le_of_ne (not_lt.mp h1) h2
  have hB : ∀ x ∈ ((mid ++ r2 :: post).filter (fun x => x.Enabled)).filter p,
      x.Priority ≤ r1.Priority := by
    intro x hx
    obtain ⟨hx1, hpx⟩ := List.mem_filter.mp hx
    obtain ⟨hxm, hxen⟩ := List.mem_filter.mp hx1
    have hxen2 : x.Enabled = true := by simpa using hxen
    have hmem : x ∈ cfg.Rules := by
      rw [hrules]
      exact List.mem_append_right _ (List.mem_cons_of_mem _ hxm)
    exact not_lt.mp (fun hlt => hpn x hpx (hhigher x hmem hxen2 hlt))
  obtain ⟨t, ht⟩ := insertionSort_func_head _ _ r1 hA hB
  have hmain : Dispatch lib (fuel + 1) event cfg
      = some { ExitCode := 2, Decision := "deny".toList,
               Message := renderTemplate lib a1.Message event a1.Params } := by
    unfold Dispatch
    rw [hk, runRules_filter lib (fuel + 1) event cfg p _ (hp _), insertionSort_func_filter,
      hE, ht]
    exact runRules_cons_deny lib fuel event cfg r1 t a1 rest1 ht1 hc1 hact1 href1 hty1 hdec1
  refine ⟨hmain, ?_⟩
  intro hne heq
  rw [hmain] at heq
  injection heq with heq
  injection heq with _ _ hm
  exact hne hm

/-- Three matching rules of priority 5, the first of which only logs: the
verdict is that of the second rule, the first of the two deny rules. -/
theorem ties_in_source_order_scenario :
    Dispatch sampleLib 1 deleteEvent (tieRules logAction)
      = some { ExitCode := 2, Decision := "deny".toList, Message := "first".toList } :=
  (ties_in_source_order_of_keepsTies sampleLib 0 deleteEvent (tieRules logAction)
    [{ denyRule "zero".toList 5 "delete_file".toList "passwd".toList [] with
        Actions := [logAction] }] [] []
    (denyRule "one".toList 5 "delete_file".toList "passwd".toList "first".toList)
    (denyRule "two".toList 5 "delete_file".toList "passwd".toList "second".toList)
    (decisionAction "deny".toList "first".toList)
    (decisionAction "deny".toList "second".toList) [] []
    rfl rfl rfl rfl (by decide) (by decide) (by decide) (by decide)
    rfl rfl rfl rfl rfl rfl rfl rfl
    (by
      intro x hx _ hlt
      simp only [tieRules, rulesOnly, List.mem_cons, List.mem_singleton, List.not_mem_nil,
        or_false] at hx
      rcases hx with rfl | rfl | rfl <;> exact absurd hlt (by decide))
    (by
      intro x hx _ _
      simp only [List.mem_singleton] at hx
      subst hx
      refine Or.inr (Or.inr ⟨by decide, ?_⟩)
      intro a ha
      simp only [List.mem_singleton] at ha
      subst ha
      decide)
    rfl).1

/-- C5 fails on `thirteenRules`: the rules `one` and `two` have the same
priority, the highest of the ruleset, `one` precedes `two`, both pass trigger
and condition and deny, and `Dispatch` returns the deny of `two`; with a
stable sort it returns the deny of `one`. -/
theorem c5_later_tie_wins_on_thirteen :
    (∀ r ∈ enabledRules thirteenRules, r.Priority ≤ 10) ∧
    (∀ r ∈ [denyRule "one".toList 10 "delete_file".toList "passwd".toList "first".toList,
            denyRule "two".toList 10 "delete_file".toList "passwd".toList "second".toList],
      matchesTrigger pdqLib r deleteEvent = true ∧
      ruleCondition pdqLib 1 r deleteEvent thirteenRules = some true) ∧
    Dispatch pdqLib 2 deleteEvent thirteenRules
      = some { ExitCode := 2, Decision := "deny".toList, Message := "second".toList } ∧
    Dispatch sampleLib 2 deleteEvent thirteenRules
      = some { ExitCode := 2, Decision := "deny".toList, Message := "first".toList } := by
  refine ⟨by decide, by decide, by decide, by decide⟩

/-! ## C6: the verdict of a decision action -/

/-- C6: for a non-reference decision action, with fuel for one step,
`Execute` returns a verdict fixed by the declared decision: "deny" or
"block" give exit code 2, decision "deny" and the rendered message; "allow"
gives exit code 0, decision "allow" and an empty message; "ask" gives exit
code 0, decision "ask" and the rendered message; any other decision, the
empty one included, gives exit code 0, an empty decision and an empty
message. -/
theorem c6_decision_verdict (lib : GoLib) (fuel : Nat) (event : HookEvent) (cfg : Config)
    (a : Action) (href : a.Ref = []) (hty : a.Type_ = "decision".toList) :
    (a.Decision = "deny".toList ∨ a.Decision = "block".toList →
      Execute lib (fuel + 1) (some a) event cfg
        = some (some { ExitCode := 2, Decision := "deny".toList,
                       Message := renderTemplate lib a.Message event a.Params })) ∧
    (a.Decision = "allow".toList →
      Execute lib (fuel + 1) (some a) event cfg
        = some (some { ExitCode := 0, Decision := "allow".toList, Message := [] })) ∧
    (a.Decision = "ask".toList →
      Execute lib (fuel + 1) (some a) event cfg
        = some (some { ExitCode := 0, Decision := "ask".toList,
                       Message := renderTemplate lib a.Message event a.Params })) ∧
    (a.Decision ≠ "deny".toList → a.Decision ≠ "block".toList →
      a.Decision ≠ "allow".toList → a.Decision ≠ "ask".toList →
      Execute lib (fuel + 1) (some a) event cfg
        = some (some { ExitCode := 0, Decision := [], Message := [] })) := by
  have e : Execute lib (fuel + 1) (some a) event cfg
      = some (some (executeDecision lib a event)) := by
    simp [Execute, href, hty]
  rw [e]
  refine ⟨?_, ?_, ?_, ?_⟩
  · intro h
    dsimp only [executeDecision]
    rw [if_pos h]
  · intro h
    dsimp only [executeDecision]
    rw [h]
    rfl
  · intro h
    dsimp only [executeDecision]
    rw [h]
    rfl
  · intro h1 h2 h3 h4
    dsimp only [executeDecision]
    rw [if_neg (by rintro (h | h); exact h1 h; exact h2 h), if_neg h3, if_neg h4]

/-- C6 on the four decisions "block", "allow", "ask" and "later" with the
message template of the first scenario on the scenario's event. -/
theorem c6_decision_verdict_witness :
    Execute sampleLib 1 (some (decisionAction "block".toList
        "blocked: \x7b\x7bpath\x7d\x7d".toList)) deleteEvent (rulesOnly [])
      = some (some { ExitCode := 2, Decision := "deny".toList,
                     Message := "blocked: /etc/passwd".toList }) ∧
    Execute sampleLib 1 (some (decisionAction "allow".toList
        "blocked: \x7b\x7bpath\x7d\x7d".toList)) deleteEvent (rulesOnly [])
      = some (some { ExitCode := 0, Decision := "allow".toList, Message := [] }) ∧
    Execute sampleLib 1 (some (decisionAction "ask".toList
        "blocked: \x7b\x7bpath\x7d\x7d".toList)) deleteEvent (rulesOnly [])
      = some (some { ExitCode := 0, Decision := "ask".toList,
                     Message := "blocked: /etc/passwd".toList }) ∧
    Execute sampleLib 1 (some (decisionAction "later".toList
        "blocked: \x7b\x7bpath\x7d\x7d".toList)) deleteEvent (rulesOnly [])
      = some (some { ExitCode := 0, Decision := [], Message := [] }) :=
  ⟨(c6_decision_verdict sampleLib 0 deleteEvent (rulesOnly [])
      (decisionAction "block".toList "blocked: \x7b\x7bpath\x7d\x7d".toList) rfl rfl).1
      (Or.inr rfl),
   (c6_decision_verdict sampleLib 0 deleteEvent (rulesOnly [])
      (decisionAction "allow".toList "blocked: \x7b\x7bpath\x7d\x7d".toList) rfl rfl).2.1 rfl,
   (c6_decision_verdict sampleLib 0 deleteEvent (rulesOnly [])
      (decisionAction "ask".toList "blocked: \x7b\x7bpath\x7d\x7d".toList) rfl rfl).2.2.1 rfl,
   (c6_decision_verdict sampleLib 0 deleteEvent (rulesOnly [])
      (decisionAction "later".toList "blocked: \x7b\x7bpath\x7d\x7d".toList) rfl rfl).2.2.2
      (by decide) (by decide) (by decide) (by decide)⟩

/-! ## C7: a reference that does not resolve -/

/-- C7: when the condition registry has no entry named `n`, a condition whose
reference is `n` evaluates to false on every event, whatever its other
fields (with fuel for one step). A reference is set when it is not the empty
string. -/
theorem c7_missing_reference (lib : GoLib) (fuel : Nat) (event : HookEvent) (cfg : Config)
    (n : Str) (cond : Condition)
    (hn : n ≠ []) (href : cond.Ref = n) (hmiss : mapGet cfg.Conditions n = none) :
    Evaluate lib (fuel + 1) (some cond) event cfg = some false := by
  subst href
  simp [Evaluate, hn, hmiss]

/-- C7 on the condition `{ref: "missing_name"}` and a registry that only has
an entry of another name. -/
theorem c7_missing_reference_witness :
    Evaluate sampleLib 1 (some (refTo "missing_name".toList)) deleteEvent
        { Rules := [], Actions := [],
          Conditions := [("present".toList,
            leafCondition "exists".toList "tool_name".toList [])] }
      = some false :=
  c7_missing_reference sampleLib 0 deleteEvent _ "missing_name".toList
    (refTo "missing_name".toList) (by decide) rfl rfl

/-! ## C8: dangling references -/

/-- The all-of loop is true only when every child is. -/
theorem evalAll_eq_true (f : Condition → Option Bool) (cs : List Condition)
    (h : evalAll f cs = some true) : ∀ c ∈ cs, f c = some true := by
  induction cs with
  | nil => intro c hc; cases hc
  | cons c0 cs ih =>
    intro c hc
    cases hf : f c0 with
    | none => simp [evalAll, hf] at h
    | some b =>
      cases b with
      | false => simp [evalAll, hf] at h
      | true =>
        have h2 : evalAll f cs = some true := by simpa [evalAll, hf] using h
        rcases List.mem_cons.mp hc with rfl | hc2
        · exact hf
        · exact ih h2 c hc2

/-- A condition with a dangling reference at its root or under nested `all`
lists does not evaluate to true, whatever the fuel. -/
theorem evaluate_dangling (lib : GoLib) (event : HookEvent) (cfg : Config) (c : Condition)
    (hd : DanglingUnderAll cfg c) :
    ∀ fuel, Evaluate lib fuel (some c) event cfg ≠ some true := by
  induction hd with
  | root c hn hmiss =>
    intro fuel
    cases fuel with
    | zero => simp [Evaluate]
    | succ n => simp [Evaluate, hn, hmiss]
  | all c child href hmem _ ih =>
    intro fuel
    cases fuel with
    | zero => simp [Evaluate]
    | succ n =>
      have hlen : 0 < c.All.length := List.length_pos_of_mem hmem
      intro heq
      have h2 : evalAll (fun c => Evaluate lib n (some c) event cfg) c.All = some true := by
        simpa [Evaluate, href, hlen] using heq
      exact ih n (evalAll_eq_true _ _ h2 child hmem)

/-- C8, as stated, fails: a rule whose root condition is the negation of a
dangling reference fires. On the scenario's event `Dispatch` returns its
deny verdict, not the verdict of the ruleset without that rule. -/
theorem c8_dangling_under_not_fires :
    Dispatch sampleLib 2 deleteEvent
        (rulesOnly [denyRuleOn (notOf (refTo "missing_name".toList)) "blocked".toList])
      = some { ExitCode := 2, Decision := "deny".toList, Message := "blocked".toList } ∧
    Dispatch sampleLib 2 deleteEvent (rulesOnly [])
      = some { ExitCode := 0, Decision := [], Message := [] } ∧
    Dispatch sampleLib 2 deleteEvent
        (rulesOnly [denyRuleOn (notOf (refTo "missing_name".toList)) "blocked".toList])
      ≠ Dispatch sampleLib 2 deleteEvent (rulesOnly []) := by
  decide

/-- C8, amended: a rule whose root condition has a dangling reference at its
root, or in an `all` list nested in `all` lists at any depth, never
matches: its condition does not evaluate to true for any fuel; and when the
evaluation of the condition returns, the rule is skipped: for every
`sort.Slice`, `Dispatch` returns what its loop returns on the sorted rules
with that rule taken out, and when `sort.Slice` keeps ties in order
`Dispatch` returns the same verdict as for the ruleset with that rule
removed. -/
theorem c8_dangling_under_all_skipped (lib : GoLib) (fuel : Nat) (event : HookEvent)
    (cfg : Config) (pre post : List Rule) (r : Rule) (c : Condition)
    (hrules : cfg.Rules = pre ++ r :: post)
    (hcond : r.Conditions = some c)
    (hd : DanglingUnderAll cfg c) :
    (∀ n, Evaluate lib n (some c) event cfg ≠ some true) ∧
    (Evaluate lib fuel (some c) event cfg ≠ none →
      (∀ l1 l2, lib.sortSlice (enabledRules cfg) = l1 ++ r :: l2 →
        Dispatch lib fuel event cfg = runRules lib fuel event cfg (l1 ++ l2)) ∧
      (KeepsTies lib (enabledRules cfg) →
        KeepsTies lib (enabledRules { cfg with Rules := pre ++ post }) →
        Dispatch lib fuel event cfg
          = Dispatch lib fuel event { cfg with Rules := pre ++ post })) := by
  have hne := evaluate_dangling lib event cfg c hd
  refine ⟨hne, ?_⟩
  intro hret
  have hfalse : Evaluate lib fuel (some c) event cfg = some false := by
    cases hv : Evaluate lib fuel (some c) event cfg with
    | none => exact absurd hv hret
    | some b =>
      cases b with
      | false => rfl
      | true => exact absurd hv (hne fuel)
  have hnv : NoVerdict lib fuel event cfg r := by
    refine Or.inr (Or.inl ?_)
    simp [ruleCondition, hcond, hfalse]
  constructor
  · intro l1 l2 hs
    unfold Dispatch
    rw [hs]
    exact runRules_remove lib fuel event cfg l1 l2 r hnv
  · intro hk hk2
    exact dispatch_remove_noVerdict lib fuel event cfg pre post r hrules hnv hk hk2

/-- C8 on a deny rule whose condition is an all-of of a true leaf and a
nested all-of holding a dangling reference: the condition is never true and
the verdict is that of the empty ruleset. -/
theorem c8_dangling_under_all_skipped_witness :
    (∀ n, Evaluate sampleLib n
        (some (allOf [leafCondition "exists".toList "tool_name".toList [],
                      allOf [refTo "missing_name".toList]]))
        deleteEvent
        (rulesOnly [denyRuleOn
          (allOf [leafCondition "exists".toList "tool_name".toList [],
                  allOf [refTo "missing_name".toList]]) "blocked".toList]) ≠ some true) ∧
    Dispatch sampleLib 3 deleteEvent
        (rulesOnly [denyRuleOn
          (allOf [leafCondition "exists".toList "tool_name".toList [],
                  allOf [refTo "missing_name".toList]]) "blocked".toList])
      = Dispatch sampleLib 3 deleteEvent (rulesOnly []) :=
  have h := c8_dangling_under_all_skipped sampleLib 3 deleteEvent
    (rulesOnly [denyRuleOn
      (allOf [leafCondition "exists".toList "tool_name".toList [],
              allOf [refTo "missing_name".toList]]) "blocked".toList])
    [] []
    (denyRuleOn
      (allOf [leafCondition "exists".toList "tool_name".toList [],
              allOf [refTo "missing_name".toList]]) "blocked".toList)
    (allOf [leafCondition "exists".toList "tool_name".toList [],
            allOf [refTo "missing_name".toList]])
    rfl rfl
    (DanglingUnderAll.all _ (allOf [refTo "missing_name".toList]) rfl
      (by simp [allOf, Condition.All])
      (DanglingUnderAll.all _ (refTo "missing_name".toList) rfl
        (by simp [allOf, Condition.All])
        (DanglingUnderAll.root _ (by decide) rfl)))
  ⟨h.1, (h.2 (by decide)).2 rfl rfl⟩

/-! ## C9: all-of without children -/

/-- C9, as stated, fails: the condition whose only set field is an empty
`all` list does not evaluate to true. -/
theorem c9_empty_all_not_true :
    Evaluate sampleLib 1 (some (allOf [])) deleteEvent (rulesOnly []) ≠ some true := by
  decide

/-- C9, amended: the condition whose only set field is an empty `all` list
evaluates to false for every event and registry (with fuel for one step).
The all-of branch is taken only for a list with at least one child; without
children the condition is evaluated as a leaf, and a leaf with empty type
and field is false. -/
theorem c9_empty_all_false (lib : GoLib) (fuel : Nat) (event : HookEvent) (cfg : Config) :
    Evaluate lib (fuel + 1) (some (allOf [])) event cfg = some false := by
  rfl

/-! ## C10: any-of -/

/-- The any-of loop is true exactly when some child is true, provided every
child gives a result. -/
theorem evalAny_eq_true_iff (f : Condition → Option Bool) (cs : List Condition)
    (h : ∀ c ∈ cs, f c ≠ none) :
    evalAny f cs = some true ↔ ∃ c ∈ cs, f c = some true := by
  induction cs with
  | nil => simp [evalAny]
  | cons c cs ih =>
    have hc : f c ≠ none := h c (List.mem_cons_self c cs)
    have ih2 := ih (fun x hx => h x (List.mem_cons_of_mem c hx))
    cases hfc : f c with
    | none => exact absurd hfc hc
    | some b =>
      cases b with
      | true => simp [evalAny, hfc]
      | false => simp [evalAny, hfc, ih2]

/-- The any-of loop gives a result when every child does. -/
theorem evalAny_ne_none (f : Condition → Option Bool) (cs : List Condition)
    (h : ∀ c ∈ cs, f c ≠ none) : evalAny f cs ≠ none := by
  induction cs with
  | nil => simp [evalAny]
  | cons c cs ih =>
    have hc : f c ≠ none := h c (List.mem_cons_self c cs)
    have ih2 := ih (fun x hx => h x (List.mem_cons_of_mem c hx))
    cases hfc : f c with
    | none => exact absurd hfc hc
    | some b =>
      cases b with
      | true => simp [evalAny, hfc]
      | false => simpa [evalAny, hfc] using ih2

/-- With one more unit of fuel than its children need, `Evaluate` on the
any-of condition over `cs` is the any-of loop over `cs`. -/
theorem evaluate_anyOf (lib : GoLib) (fuel : Nat) (event : HookEvent) (cfg : Config)
    (cs : List Condition) :
    Evaluate lib (fuel + 1) (some (anyOf cs)) event cfg
      = evalAny (fun c => Evaluate lib fuel (some c) event cfg) cs := by
  cases cs with
  | nil => rfl
  | cons c cs => simp [Evaluate, anyOf, Condition.Ref, Condition.All, Condition.Any]

/-- The all-of loop keeps its result when the children keep theirs. -/
theorem evalAll_mono (f g : Condition → Option Bool) (h : ∀ c b, f c = some b → g c = some b)
    (cs : List Condition) (b : Bool) (hf : evalAll f cs = some b) : evalAll g cs = some b := by
  induction cs with
  | nil => exact hf
  | cons c cs ih =>
    cases hc : f c with
    | none => simp [evalAll, hc] at hf
    | some v =>
      have hg := h c v hc
      cases v with
      | false => simpa [evalAll, hc, hg] using hf
      | true =>
        have h2 : evalAll f cs = some b := by simpa [evalAll, hc] using hf
        simpa [evalAll, hg] using ih h2

/-- The any-of loop keeps its result when the children keep theirs. -/
theorem evalAny_mono (f g : Condition → Option Bool) (h : ∀ c b, f c = some b → g c = some b)
    (cs : List Condition) (b : Bool) (hf : evalAny f cs = some b) : evalAny g cs = some b := by
  induction cs with
  | nil => exact hf
  | cons c cs ih =>
    cases hc : f c with
    | none => simp [evalAny, hc] at hf
    | some v =>
      have hg := h c v hc
      cases v with
      | true => simpa [evalAny, hc, hg] using hf
      | false =>
        have h2 : evalAny f cs = some b := by simpa [evalAny, hc] using hf
        simpa [evalAny, hg] using ih h2

/-- A result of `Evaluate` is kept with one more unit of fuel. -/
theorem evaluate_succ (lib : GoLib) (event : HookEvent) (cfg : Config) :
    ∀ (fuel : Nat) (c : Option Condition) (b : Bool),
      Evaluate lib fuel c event cfg = some b → Evaluate lib (fuel + 1) c event cfg = some b := by
  intro fuel
  induction fuel with
  | zero => intro c b h; simp [Evaluate] at h
  | succ n ih =>
    intro c b h
    cases c with
    | none => simpa [Evaluate] using h
    | some cond =>
      rw [Evaluate] at h ⊢
      split at h
      · rename_i href
        rw [if_pos href]
        split at h
        · simpa using h
        · rename_i refCond hget
          exact ih _ _ h
      · rename_i href
        rw [if_neg href]
        split at h
        · rename_i hall
          rw [if_pos hall]
          exact evalAll_mono _ _ (fun c b hc => ih (some c) b hc) _ _ h
        · rename_i hall
          rw [if_neg hall]
          split at h
          · rename_i hany
            rw [if_pos hany]
            exact evalAny_mono _ _ (fun c b hc => ih (some c) b hc) _ _ h
          · rename_i hany
            rw [if_neg hany]
            split at h
            · rename_i nc hnot
              cases hv : Evaluate lib n (some nc) event cfg with
              | none => simp [hv] at h
              | some v =>
                rw [ih _ _ hv]
                simpa [hv] using h
            · rename_i hnot
              exact h

/-- A result of `Evaluate` is kept with more fuel. -/
theorem evaluate_mono (lib : GoLib) (event : HookEvent) (cfg : Config) (c : Option Condition)
    (b : Bool) (n m : Nat) (hnm : n ≤ m) (h : Evaluate lib n c event cfg = some b) :
    Evaluate lib m c event cfg = some b := by
  induction hnm with
  | refl => exact h
  | step _ ih => exact evaluate_succ lib event cfg _ c b ih

/-- The result of `Evaluate` does not depend on the fuel. -/
theorem evaluatesTo_unique (lib : GoLib) (event : HookEvent) (cfg : Config) (c : Condition)
    (b1 b2 : Bool) (h1 : EvaluatesTo lib event cfg c b1) (h2 : EvaluatesTo lib event cfg c b2) :
    b1 = b2 := by
  obtain ⟨n1, e1⟩ := h1
  obtain ⟨n2, e2⟩ := h2
  have f1 := evaluate_mono lib event cfg (some c) b1 n1 (max n1 n2) (le_max_left _ _) e1
  have f2 := evaluate_mono lib event cfg (some c) b2 n2 (max n1 n2) (le_max_right _ _) e2
  rw [f1] at f2
  exact Option.some.inj f2

/-- Children that each return a result do so with a common fuel. -/
theorem exists_common_fuel (lib : GoLib) (event : HookEvent) (cfg : Config)
    (cs : List Condition) (h : ∀ c ∈ cs, ∃ b, EvaluatesTo lib event cfg c b) :
    ∃ fuel, ∀ c ∈ cs, ∀ m, fuel ≤ m → Evaluate lib m (some c) event cfg ≠ none := by
  induction cs with
  | nil => exact ⟨0, fun c hc => absurd hc (List.not_mem_nil c)⟩
  | cons c0 cs ih =>
    obtain ⟨k, hk⟩ := ih (fun c hc => h c (List.mem_cons_of_mem c0 hc))
    obtain ⟨b, n, hn⟩ := h c0 (List.mem_cons_self c0 cs)
    refine ⟨max k n, ?_⟩
    intro c hc m hm
    rcases List.mem_cons.mp hc with rfl | hc2
    · rw [evaluate_mono lib event cfg (some c) b n m (le_trans (le_max_right _ _) hm) hn]
      simp
    · exact hk c hc2 m (le_trans (le_max_left _ _) hm)

/-- The any-of loop is true only when some child is. -/
theorem evalAny_true_exists (f : Condition → Option Bool) (cs : List Condition)
    (h : evalAny f cs = some true) : ∃ c ∈ cs, f c = some true := by
  induction cs with
  | nil => simp [evalAny] at h
  | cons c0 cs ih =>
    cases hf : f c0 with
    | none => simp [evalAny, hf] at h
    | some b =>
      cases b with
      | true => exact ⟨c0, List.mem_cons_self c0 cs, hf⟩
      | false =>
        have h2 : evalAny f cs = some true := by simpa [evalAny, hf] using h
        obtain ⟨c, hc, hct⟩ := ih h2
        exact ⟨c, List.mem_cons_of_mem c0 hc, hct⟩

/-- The any-of loop is false only when every child is. -/
theorem evalAny_false_all (f : Condition → Option Bool) (cs : List Condition)
    (h : evalAny f cs = some false) : ∀ c ∈ cs, f c = some false := by
  induction cs with
  | nil => intro c hc; cases hc
  | cons c0 cs ih =>
    intro c hc
    cases hf : f c0 with
    | none => simp [evalAny, hf] at h
    | some b =>
      cases b with
      | true => simp [evalAny, hf] at h
      | false =>
        have h2 : evalAny f cs = some false := by simpa [evalAny, hf] using h
        rcases List.mem_cons.mp hc with rfl | hc2
        · exact hf
        · exact ih h2 c hc2

/-- The any-of loop is false when every child is. -/
theorem evalAny_of_all_false (f : Condition → Option Bool) (cs : List Condition)
    (h : ∀ c ∈ cs, f c = some false) : evalAny f cs = some false := by
  induction cs with
  | nil => rfl
  | cons c0 cs ih =>
    simp [evalAny, h c0 (List.mem_cons_self c0 cs),
      ih (fun c hc => h c (List.mem_cons_of_mem c0 hc))]

/-- C10: for a list `cs` of child conditions on each of which `Evaluate`
returns a result, `Evaluate` returns a result on the condition whose only
set field is `any = cs`; it returns true if and only if `Evaluate` returns
true on at least one element of `cs`, and false if and only if it returns
false on all of them; over an empty list it returns false. -/
theorem c10_any_of (lib : GoLib) (event : HookEvent) (cfg : Config) (cs : List Condition)
    (hres : ∀ c ∈ cs, ∃ b, EvaluatesTo lib event cfg c b) :
    (∃ b, EvaluatesTo lib event cfg (anyOf cs) b) ∧
    (EvaluatesTo lib event cfg (anyOf cs) true ↔ ∃ c ∈ cs, EvaluatesTo lib event cfg c true) ∧
    (EvaluatesTo lib event cfg (anyOf cs) false ↔ ∀ c ∈ cs, EvaluatesTo lib event cfg c false) ∧
    EvaluatesTo lib event cfg (anyOf []) false ∧ ¬ EvaluatesTo lib event cfg (anyOf []) true := by
  obtain ⟨k, hk⟩ := exists_common_fuel lib event cfg cs hres
  have hfalse : EvaluatesTo lib event cfg (anyOf cs) false ↔
      ∀ c ∈ cs, EvaluatesTo lib event cfg c false := by
    constructor
    · rintro ⟨n, hn⟩ c hc
      cases n with
      | zero => simp [Evaluate] at hn
      | succ n =>
        rw [evaluate_anyOf] at hn
        exact ⟨n, evalAny_false_all _ _ hn c hc⟩
    · intro hall
      refine ⟨k + 1, ?_⟩
      rw [evaluate_anyOf]
      apply evalAny_of_all_false
      intro c hc
      cases hv : Evaluate lib k (some c) event cfg with
      | none => exact absurd hv (hk c hc k (le_refl k))
      | some b =>
        have := evaluatesTo_unique lib event cfg c b false ⟨k, hv⟩ (hall c hc)
        rw [this]
  have htrue : EvaluatesTo lib event cfg (anyOf cs) true ↔
      ∃ c ∈ cs, EvaluatesTo lib event cfg c true := by
    constructor
    · rintro ⟨n, hn⟩
      cases n with
      | zero => simp [Evaluate] at hn
      | succ n =>
        rw [evaluate_anyOf] at hn
        obtain ⟨c, hc, hct⟩ := evalAny_true_exists _ _ hn
        exact ⟨c, hc, n, hct⟩
    · rintro ⟨c, hc, n, hn⟩
      refine ⟨max k n + 1, ?_⟩
      rw [evaluate_anyOf]
      apply (evalAny_eq_true_iff _ cs
        (fun x hx => hk x hx (max k n) (le_max_left _ _))).mpr
      exact ⟨c, hc, evaluate_mono lib event cfg (some c) true n _ (le_max_right _ _) hn⟩
  refine ⟨?_, htrue, hfalse, ⟨1, rfl⟩, ?_⟩
  · cases hv : Evaluate lib (k + 1) (some (anyOf cs)) event cfg with
    | none =>
      rw [evaluate_anyOf] at hv
      exact absurd hv (evalAny_ne_none _ cs (fun x hx => hk x hx k (le_refl k)))
    | some b => exact ⟨b, k + 1, hv⟩
  · rintro ⟨n, hn⟩
    cases n with
    | zero => simp [Evaluate] at hn
    | succ n =>
      rw [evaluate_anyOf] at hn
      simp [evalAny] at hn

/-- C10 on the any-of of a leaf that is false on the scenario's event (the
field `missing` does not exist) and a leaf that is true (the tool name is
`delete_file`): the any-of is true. -/
theorem c10_any_of_witness :
    EvaluatesTo sampleLib deleteEvent (rulesOnly [])
      (anyOf [leafCondition "exists".toList "missing".toList [],
              leafCondition "regex".toList "tool_name".toList "^delete_file$".toList]) true :=
  (c10_any_of sampleLib deleteEvent (rulesOnly [])
    [leafCondition "exists".toList "missing".toList [],
     leafCondition "regex".toList "tool_name".toList "^delete_file$".toList]
    (by
      intro c hc
      simp only [List.mem_cons, List.mem_singleton, List.not_mem_nil, or_false] at hc
      rcases hc with rfl | rfl
      · exact ⟨false, 1, by decide⟩
      · exact ⟨true, 1, by decide⟩)).2.1.mpr
    ⟨leafCondition "regex".toList "tool_name".toList "^delete_file$".toList,
      by simp, 1, by decide⟩

/-! ## C11: double negation -/

/-- Negating twice costs two units of fuel and changes nothing. -/
theorem evaluate_not_not (lib : GoLib) (fuel : Nat) (event : HookEvent) (cfg : Config)
    (c : Condition) :
    Evaluate lib (fuel + 2) (some (notOf (notOf c))) event cfg
      = Evaluate lib fuel (some c) event cfg := by
  have h1 : ∀ (n : Nat) (x : Condition), Evaluate lib (n + 1) (some (notOf x)) event cfg
      = (Evaluate lib n (some x) event cfg).map (fun b => !b) := by
    intro n x
    rfl
  rw [h1, h1]
  cases Evaluate lib fuel (some c) event cfg with
  | none => rfl
  | some b => cases b <;> rfl

/-- With fuel for one step, `Evaluate` on a leaf is the field-based test. -/
theorem evaluate_leaf (lib : GoLib) (fuel : Nat) (event : HookEvent) (cfg : Config)
    (c : Condition) (hleaf : IsLeaf c) :
    Evaluate lib (fuel + 1) (some c) event cfg = some (evaluateLeaf lib c event) := by
  obtain ⟨h1, h2, h3, h4⟩ := hleaf
  simp [Evaluate, h1, h2, h3, h4]

/-- C11: double negation is the identity: for every event, registry and
condition `C`, in particular every leaf, `Evaluate` returns on
`not(not(C))` exactly what it returns on `C`; on a leaf both return the
result of the field-based test. The two negations take two units of fuel. -/
theorem c11_double_negation (lib : GoLib) (event : HookEvent) (cfg : Config) (C : Condition)
    (hleaf : IsLeaf C) :
    (∀ b, EvaluatesTo lib event cfg (notOf (notOf C)) b ↔ EvaluatesTo lib event cfg C b) ∧
    (∀ fuel, Evaluate lib (fuel + 2) (some (notOf (notOf C))) event cfg
      = Evaluate lib fuel (some C) event cfg) ∧
    (∀ fuel, Evaluate lib (fuel + 3) (some (notOf (notOf C))) event cfg
      = some (evaluateLeaf lib C event) ∧
      Evaluate lib (fuel + 1) (some C) event cfg = some (evaluateLeaf lib C event)) := by
  refine ⟨?_, fun fuel => evaluate_not_not lib fuel event cfg C, ?_⟩
  · intro b
    constructor
    · rintro ⟨n, hn⟩
      match n, hn with
      | 0, hn => simp [Evaluate] at hn
      | 1, hn =>
        have : Evaluate lib 1 (some (notOf (notOf C))) event cfg = none := rfl
        rw [this] at hn
        cases hn
      | m + 2, hn =>
        rw [evaluate_not_not] at hn
        exact ⟨m, hn⟩
    · rintro ⟨n, hn⟩
      exact ⟨n + 2, by rw [evaluate_not_not]; exact hn⟩
  · intro fuel
    have h := evaluate_leaf lib fuel event cfg C hleaf
    exact ⟨by rw [evaluate_not_not]; exact h, h⟩

/-- C11 on the leaf that tests whether `tool_name` exists: the leaf and its
double negation are both true on the scenario's event. -/
theorem c11_double_negation_witness :
    Evaluate sampleLib 3
        (some (notOf (notOf (leafCondition "exists".toList "tool_name".toList []))))
        deleteEvent (rulesOnly []) = some true ∧
    Evaluate sampleLib 1 (some (leafCondition "exists".toList "tool_name".toList []))
        deleteEvent (rulesOnly []) = some true :=
  (c11_double_negation sampleLib deleteEvent (rulesOnly [])
    (leafCondition "exists".toList "tool_name".toList []) ⟨rfl, rfl, rfl, rfl⟩).2.2 0

/-! ## C12: the merge of a condition reference -/

/-- With one unit of fuel for the lookup, `Evaluate` on a condition with a
reference that resolves is `Evaluate` on the merge of the registry entry
and the condition. -/
theorem evaluate_ref (lib : GoLib) (fuel : Nat) (event : HookEvent) (cfg : Config)
    (O B : Condition) (href : O.Ref ≠ []) (hB : mapGet cfg.Conditions O.Ref = some B) :
    Evaluate lib (fuel + 1) (some O) event cfg
      = Evaluate lib fuel (some (mergeCondition B O)) event cfg := by
  simp [Evaluate, href, hB]

/-- C12: for a registry entry `B` under the name `n` and a condition `O`
whose reference is `n`, `Evaluate` returns on `O` what it returns on the
merged condition, in which each of type, field, pattern, value, operator
and flags is `O`'s when `O`'s is non-empty and `B`'s otherwise, the rest
(`all`, `any`, `not`, `ref`) being `B`'s; in particular an override that
sets only the field keeps `B`'s type, pattern, value, operator and flags.
The lookup takes one unit of fuel. -/
theorem c12_reference_merge (lib : GoLib) (event : HookEvent) (cfg : Config) (n : Str)
    (O B : Condition) (hn : n ≠ []) (href : O.Ref = n)
    (hB : mapGet cfg.Conditions n = some B) :
    (∀ fuel, Evaluate lib (fuel + 1) (some O) event cfg
      = Evaluate lib fuel (some (mergeCondition B O)) event cfg) ∧
    (∀ b, EvaluatesTo lib event cfg O b ↔ EvaluatesTo lib event cfg (mergeCondition B O) b) ∧
    (mergeCondition B O).Type_ = (if O.Type_ = [] then B.Type_ else O.Type_) ∧
    (mergeCondition B O).Field = (if O.Field = [] then B.Field else O.Field) ∧
    (mergeCondition B O).Pattern = (if O.Pattern = [] then B.Pattern else O.Pattern) ∧
    (mergeCondition B O).Value = (if O.Value = [] then B.Value else O.Value) ∧
    (mergeCondition B O).Operator = (if O.Operator = [] then B.Operator else O.Operator) ∧
    (mergeCondition B O).Flags = (if O.Flags = [] then B.Flags else O.Flags) ∧
    (mergeCondition B O).All = B.All ∧ (mergeCondition B O).Any = B.Any ∧
    (mergeCondition B O).Not = B.Not ∧ (mergeCondition B O).Ref = B.Ref ∧
    (O.Type_ = [] → O.Pattern = [] → O.Value = [] → O.Operator = [] → O.Flags = [] →
      (mergeCondition B O).Type_ = B.Type_ ∧ (mergeCondition B O).Pattern = B.Pattern ∧
      (mergeCondition B O).Value = B.Value ∧ (mergeCondition B O).Operator = B.Operator ∧
      (mergeCondition B O).Flags = B.Flags) := by
  subst href
  have hstep := fun fuel => evaluate_ref lib fuel event cfg O B hn hB
  have hflags : (if 0 < O.Flags.length then O.Flags else B.Flags)
      = (if O.Flags = [] then B.Flags else O.Flags) := by
    cases hf : O.Flags with
    | nil => simp
    | cons f fs => simp
  refine ⟨hstep, ?_, ?_, ?_, ?_, ?_, ?_, ?_, rfl, rfl, rfl, rfl, ?_⟩
  · intro b
    constructor
    · rintro ⟨m, hm⟩
      cases m with
      | zero => simp [Evaluate] at hm
      | succ m => exact ⟨m, by rw [← hstep]; exact hm⟩
    · rintro ⟨m, hm⟩
      exact ⟨m + 1, by rw [hstep]; exact hm⟩
  · show (if O.Type_ ≠ [] then O.Type_ else B.Type_) = _
    by_cases h : O.Type_ = [] <;> simp [h]
  · show (if O.Field ≠ [] then O.Field else B.Field) = _
    by_cases h : O.Field = [] <;> simp [h]
  · show (if O.Pattern ≠ [] then O.Pattern else B.Pattern) = _
    by_cases h : O.Pattern = [] <;> simp [h]
  · show (if O.Value ≠ [] then O.Value else B.Value) = _
    by_cases h : O.Value = [] <;> simp [h]
  · show (if O.Operator ≠ [] then O.Operator else B.Operator) = _
    by_cases h : O.Operator = [] <;> simp [h]
  · exact hflags
  · intro h1 h2 h3 h4 h5
    refine ⟨?_, ?_, ?_, ?_, ?_⟩
    · show (if O.Type_ ≠ [] then O.Type_ else B.Type_) = _
      simp [h1]
    · show (if O.Pattern ≠ [] then O.Pattern else B.Pattern) = _
      simp [h2]
    · show (if O.Value ≠ [] then O.Value else B.Value) = _
      simp [h3]
    · show (if O.Operator ≠ [] then O.Operator else B.Operator) = _
      simp [h4]
    · show (if 0 < O.Flags.length then O.Flags else B.Flags) = _
      simp [h5]

/-- C12 on the registry entry `is_pre` (the tool name equals `pre_tool`,
false on the scenario's event) and a reference to it that sets only the
field, to `hook_type`: the comparison with `pre_tool` is kept and is made
on the hook type, which gives true. -/
theorem c12_reference_merge_witness :
    Evaluate sampleLib 2 (some (refWithField "is_pre".toList "hook_type".toList))
        deleteEvent preRegistry = some true ∧
    Evaluate sampleLib 2 (some (refTo "is_pre".toList)) deleteEvent preRegistry = some false :=
  ⟨(c12_reference_merge sampleLib deleteEvent preRegistry "is_pre".toList
      (refWithField "is_pre".toList "hook_type".toList)
      (Condition.mk "equals".toList "tool_name".toList [] "pre_tool".toList [] [] [] [] none [])
      (by decide) rfl rfl).1 1, by decide⟩

/-! ## Fuel and `Execute` -/

/-- The chain loop keeps its result when the children keep theirs. -/
theorem chainLoop_mono (f g : Action → Option (Option Response))
    (h : ∀ a r, f a = some r → g a = some r) (params : GoMap Value)
    (l : List Action) (r : Option Response) (hf : chainLoop f params l = some r) :
    chainLoop g params l = some r := by
  induction l with
  | nil => exact hf
  | cons a rest ih =>
    cases ha : f (a.withParams (inheritParams params a.Params)) with
    | none => simp [chainLoop, ha] at hf
    | some v =>
      have hg := h _ v ha
      cases v with
      | some resp => simpa [chainLoop, ha, hg] using hf
      | none =>
        have h2 : chainLoop f params rest = some r := by simpa [chainLoop, ha] using hf
        simpa [chainLoop, hg] using ih h2

/-- A result of `Execute` is kept with one more unit of fuel. -/
theorem execute_succ (lib : GoLib) (event : HookEvent) (cfg : Config) :
    ∀ (fuel : Nat) (a : Option Action) (r : Option Response),
      Execute lib fuel a event cfg = some r → Execute lib (fuel + 1) a event cfg = some r := by
  intro fuel
  induction fuel with
  | zero => intro a r h; simp [Execute] at h
  | succ n ih =>
    intro a r h
    cases a with
    | none => simpa [Execute] using h
    | some action =>
      rw [Execute] at h ⊢
      split at h
      · rename_i href
        rw [if_pos href]
        split at h
        · simpa using h
        · exact ih _ _ h
      · rename_i href
        rw [if_neg href]
        split at h
        · rename_i hty
          rw [if_pos hty]
          exact h
        · rename_i hty
          rw [if_neg hty]
          split at h
          · rename_i hlog
            rw [if_pos hlog]
            exact h
          · rename_i hlog
            rw [if_neg hlog]
            split at h
            · rename_i hchain
              rw [if_pos hchain]
              exact chainLoop_mono _ _ (fun a r ha => ih (some a) r ha) _ _ _ h
            · rename_i hchain
              rw [if_neg hchain]
              split at h
              · rename_i hcond
                rw [if_pos hcond]
                split at h
                · exact h
                · rename_i c hc
                  cases hv : Evaluate lib n (some c) event cfg with
                  | none => simp [hv] at h
                  | some b =>
                    rw [evaluate_succ lib event cfg n (some c) b hv]
                    rw [hv] at h
                    cases b with
                    | true =>
                      simp only at h ⊢
                      split at h
                      · exact ih _ _ h
                      · exact h
                    | false =>
                      simp only at h ⊢
                      split at h
                      · exact ih _ _ h
                      · exact h
              · rename_i hcond
                rw [if_neg hcond]
                exact h

/-- A result of `Execute` is kept with more fuel. -/
theorem execute_mono (lib : GoLib) (event : HookEvent) (cfg : Config) (a : Option Action)
    (r : Option Response) (n m : Nat) (hnm : n ≤ m) (h : Execute lib n a event cfg = some r) :
    Execute lib m a event cfg = some r := by
  induction hnm with
  | refl => exact h
  | step _ ih => exact execute_succ lib event cfg _ a r ih

/-- The result of `Execute` does not depend on the fuel. -/
theorem executesTo_unique (lib : GoLib) (event : HookEvent) (cfg : Config) (a : Action)
    (r1 r2 : Option Response) (h1 : ExecutesTo lib event cfg a r1)
    (h2 : ExecutesTo lib event cfg a r2) : r1 = r2 := by
  obtain ⟨n1, e1⟩ := h1
  obtain ⟨n2, e2⟩ := h2
  have f1 := execute_mono lib event cfg (some a) r1 n1 (max n1 n2) (le_max_left _ _) e1
  have f2 := execute_mono lib event cfg (some a) r2 n2 (max n1 n2) (le_max_right _ _) e2
  rw [f1] at f2
  exact Option.some.inj f2

/-! ## C13: the parameters of an action reference -/

/-- Reading a map after a write. -/
theorem mapGet_mapSet {α : Type} (m : GoMap α) (k k2 : Str) (v : α) :
    mapGet (mapSet m k v) k2 = if k = k2 then some v else mapGet m k2 := by
  induction m with
  | nil => simp [mapSet, mapGet]
  | cons e rest ih =>
    obtain ⟨k1, v1⟩ := e
    by_cases h1 : k1 = k
    · subst h1
      by_cases h2 : k1 = k2 <;> simp [mapSet, mapGet, h2]
    · by_cases h2 : k1 = k2
      · subst h2
        have h3 : ¬ k = k1 := fun h => h1 h.symm
        simp [mapSet, mapGet, h1, h3]
      · simp [mapSet, mapGet, h1, h2, ih]

/-- A key that is not among the keys of a map reads as missing. -/
theorem mapGet_eq_none {α : Type} (m : GoMap α) (k : Str) (h : k ∉ m.map Prod.fst) :
    mapGet m k = none := by
  induction m with
  | nil => rfl
  | cons e rest ih =>
    obtain ⟨k1, v1⟩ := e
    have h1 : ¬ k1 = k := by
      intro he
      apply h
      show k ∈ k1 :: rest.map Prod.fst
      rw [he]
      exact List.mem_cons_self _ _
    have h2 : k ∉ rest.map Prod.fst := by
      intro hm
      apply h
      show k ∈ k1 :: rest.map Prod.fst
      exact List.mem_cons_of_mem _ hm
    rw [mapGet, if_neg h1]
    exact ih h2

/-- Writing every entry of `caller`, a map with one entry per key, over
`base`: a key reads as in `caller` when `caller` has it and as in `base`
otherwise. -/
theorem mapGet_foldl_mapSet {α : Type} (caller : GoMap α)
    (hnodup : (caller.map Prod.fst).Nodup) (base : GoMap α) (k : Str) :
    mapGet (caller.foldl (fun m kv => mapSet m kv.1 kv.2) base) k
      = (mapGet caller k).or (mapGet base k) := by
  induction caller generalizing base with
  | nil => rfl
  | cons e rest ih =>
    obtain ⟨k0, v0⟩ := e
    have hnd : k0 ∉ rest.map Prod.fst ∧ (rest.map Prod.fst).Nodup :=
      List.nodup_cons.mp (show (k0 :: rest.map Prod.fst).Nodup from hnodup)
    rw [List.foldl_cons, ih hnd.2, mapGet_mapSet]
    by_cases hk : k0 = k
    · subst hk
      rw [mapGet_eq_none rest k0 hnd.1]
      simp [mapGet]
    · simp [mapGet, hk]

/-- The parameters after the merge of a reference: the caller's value for a
key the caller defines, the referenced definition's otherwise. -/
theorem mapGet_overlayParams (base caller : GoMap Value)
    (hnodup : (caller.map Prod.fst).Nodup) (k : Str) :
    mapGet (overlayParams base caller) k = (mapGet caller k).or (mapGet base k) := by
  unfold overlayParams
  split
  · exact mapGet_foldl_mapSet caller hnodup base k
  · rename_i h
    have : caller = [] := by
      cases caller with
      | nil => rfl
      | cons e rest => simp at h
    subst this
    rfl

/-- With one unit of fuel for the lookup, `Execute` on an action with a
reference that resolves is `Execute` on the referenced definition with the
merged parameters. -/
theorem execute_ref (lib : GoLib) (fuel : Nat) (event : HookEvent) (cfg : Config)
    (A B : Action) (href : A.Ref ≠ []) (hB : mapGet cfg.Actions A.Ref = some B) :
    Execute lib (fuel + 1) (some A) event cfg
      = Execute lib fuel (some (B.withParams (overlayParams B.Params A.Params))) event cfg := by
  simp [Execute, href, hB]

/-- C13: for an action `A` whose reference is `n` (its parameters being a
map with one entry per key): when the action registry has no entry `n`,
`Execute` returns `nil`; when it has the entry `B`, `Execute` returns on `A`
what it returns on `B` with the merged parameters, in which a key reads as
in `A` when `A` defines it and as in `B` otherwise, every other field being
`B`'s. The lookup takes one unit of fuel. -/
theorem c13_reference_caller_wins (lib : GoLib) (event : HookEvent) (cfg : Config) (n : Str)
    (A : Action) (hn : n ≠ []) (href : A.Ref = n)
    (hnodup : (A.Params.map Prod.fst).Nodup) :
    (mapGet cfg.Actions n = none →
      ∀ fuel, Execute lib (fuel + 1) (some A) event cfg = some none) ∧
    (∀ B, mapGet cfg.Actions n = some B →
      (∀ fuel, Execute lib (fuel + 1) (some A) event cfg
        = Execute lib fuel (some (B.withParams (overlayParams B.Params A.Params))) event cfg) ∧
      (∀ r, ExecutesTo lib event cfg A r ↔
        ExecutesTo lib event cfg (B.withParams (overlayParams B.Params A.Params)) r) ∧
      (∀ k, mapGet (B.withParams (overlayParams B.Params A.Params)).Params k
        = (mapGet A.Params k).or (mapGet B.Params k)) ∧
      (B.withParams (overlayParams B.Params A.Params)).Type_ = B.Type_ ∧
      (B.withParams (overlayParams B.Params A.Params)).Decision = B.Decision ∧
      (B.withParams (overlayParams B.Params A.Params)).Message = B.Message ∧
      (B.withParams (overlayParams B.Params A.Params)).Actions = B.Actions ∧
      (B.withParams (overlayParams B.Params A.Params)).Ref = B.Ref ∧
      (B.withParams (overlayParams B.Params A.Params)).Condition = B.Condition ∧
      (B.withParams (overlayParams B.Params A.Params)).Then = B.Then ∧
      (B.withParams (overlayParams B.Params A.Params)).Else = B.Else) := by
  subst href
  constructor
  · intro hmiss fuel
    simp [Execute, hn, hmiss]
  · intro B hB
    have hstep := fun fuel => execute_ref lib fuel event cfg A B hn hB
    refine ⟨hstep, ?_, ?_, ?_⟩
    · intro r
      constructor
      · rintro ⟨m, hm⟩
        cases m with
        | zero => simp [Execute] at hm
        | succ m => exact ⟨m, by rw [← hstep]; exact hm⟩
      · rintro ⟨m, hm⟩
        exact ⟨m + 1, by rw [hstep]; exact hm⟩
    · intro k
      have hp : (B.withParams (overlayParams B.Params A.Params)).Params
          = overlayParams B.Params A.Params := by cases B; rfl
      rw [hp]
      exact mapGet_overlayParams B.Params A.Params hnodup k
    · cases B
      exact ⟨rfl, rfl, rfl, rfl, rfl, rfl, rfl, rfl⟩

/-- C13 on the registry entry `deny_k`, a deny decision with message
`{{k}}` and parameter `k` = "base", and a reference to it with parameter
`k` = "caller": the message is "caller". -/
theorem c13_reference_caller_wins_witness :
    Execute sampleLib 2
        (some (actionRef "deny_k".toList [("k".toList, .str "caller".toList)]))
        deleteEvent denyRegistry
      = some (some { ExitCode := 2, Decision := "deny".toList, Message := "caller".toList }) :=
  ((c13_reference_caller_wins sampleLib deleteEvent denyRegistry "deny_k".toList
    (actionRef "deny_k".toList [("k".toList, .str "caller".toList)])
    (by decide) rfl (by decide)).2
      (Action.mk "decision".toList "deny".toList "\x7b\x7bk\x7d\x7d".toList [] []
        [("k".toList, .str "base".toList)] none none none) rfl).1 1

/-! ## C14: chains -/

/-- The parameters of a chain's child after the merge: the child's own value
for a key the child defines, the parent's otherwise. -/
theorem mapGet_inheritParams (parent child : GoMap Value) (k : Str) :
    mapGet (inheritParams parent child) k = (mapGet child k).or (mapGet parent k) := by
  have key : ∀ (parent child : GoMap Value),
      mapGet (parent.foldl
        (fun m kv => if (mapGet m kv.1).isSome then m else mapSet m kv.1 kv.2) child) k
        = (mapGet child k).or (mapGet parent k) := by
    intro parent
    induction parent with
    | nil =>
      intro child
      show mapGet child k = (mapGet child k).or none
      cases mapGet child k <;> rfl
    | cons e rest ih =>
      intro child
      obtain ⟨k0, v0⟩ := e
      rw [List.foldl_cons, ih]
      by_cases hs : (mapGet child k0).isSome = true
      · rw [if_pos hs]
        cases hc : mapGet child k with
        | some v => rfl
        | none =>
          have hk : ¬ k0 = k := by
            intro he
            rw [he, hc] at hs
            cases hs
          simp [Option.or, mapGet, hk]
      · rw [if_neg hs, mapGet_mapSet]
        have hnone : mapGet child k0 = none := by
          cases h : mapGet child k0 with
          | none => rfl
          | some v => rw [h] at hs; exact absurd rfl hs
        by_cases hk : k0 = k
        · subst hk
          simp [Option.or, mapGet, hnone]
        · simp [Option.or, mapGet, hk]
  unfold inheritParams
  split
  · exact key parent child
  · rename_i h
    have : parent = [] := by
      cases parent with
      | nil => rfl
      | cons e rest => simp at h
    subst this
    show mapGet child k = (mapGet child k).or none
    cases mapGet child k <;> rfl

/-- The chain loop returns the response of the first child that has one,
whatever the children after it. -/
theorem chainLoop_first (f : Action → Option (Option Response)) (params : GoMap Value)
    (pre post : List Action) (c : Action) (r : Response)
    (hpre : ∀ x ∈ pre, f (x.withParams (inheritParams params x.Params)) = some none)
    (hc : f (c.withParams (inheritParams params c.Params)) = some (some r)) :
    chainLoop f params (pre ++ c :: post) = some (some r) := by
  induction pre with
  | nil => simp [chainLoop, hc]
  | cons x rest ih =>
    have hx := hpre x (List.mem_cons_self x rest)
    simp [chainLoop, hx, ih (fun y hy => hpre y (List.mem_cons_of_mem x hy))]

/-- The chain loop returns `nil` when every child does. -/
theorem chainLoop_all_none (f : Action → Option (Option Response)) (params : GoMap Value)
    (l : List Action)
    (h : ∀ x ∈ l, f (x.withParams (inheritParams params x.Params)) = some none) :
    chainLoop f params l = some none := by
  induction l with
  | nil => rfl
  | cons x rest ih =>
    simp [chainLoop, h x (List.mem_cons_self x rest),
      ih (fun y hy => h y (List.mem_cons_of_mem x hy))]

/-- With one more unit of fuel than its children need, `Execute` on a
non-reference chain is the chain loop over the children. -/
theorem execute_chain (lib : GoLib) (fuel : Nat) (event : HookEvent) (cfg : Config)
    (a : Action) (href : a.Ref = []) (hty : a.Type_ = "chain".toList) :
    Execute lib (fuel + 1) (some a) event cfg
      = chainLoop (fun x => Execute lib fuel (some x) event cfg) a.Params a.Actions := by
  have h1 : ¬ ("chain".toList = "decision".toList) := by decide
  have h2 : ¬ ("chain".toList = "log".toList) := by decide
  rw [Execute, if_neg (by rw [href]; exact fun h => h rfl), hty, if_neg h1, if_neg h2,
    if_pos rfl]

/-- Children that each return `nil` do so with a common fuel. -/
theorem exists_common_fuel_none (lib : GoLib) (event : HookEvent) (cfg : Config)
    (g : Action → Action) (l : List Action)
    (h : ∀ x ∈ l, ExecutesTo lib event cfg (g x) none) :
    ∃ fuel, ∀ x ∈ l, ∀ m, fuel ≤ m → Execute lib m (some (g x)) event cfg = some none := by
  induction l with
  | nil => exact ⟨0, fun x hx => absurd hx (List.not_mem_nil x)⟩
  | cons x0 rest ih =>
    obtain ⟨k, hk⟩ := ih (fun x hx => h x (List.mem_cons_of_mem x0 hx))
    obtain ⟨n, hn⟩ := h x0 (List.mem_cons_self x0 rest)
    refine ⟨max k n, ?_⟩
    intro x hx m hm
    rcases List.mem_cons.mp hx with rfl | hx2
    · exact execute_mono lib event cfg _ none n m (le_trans (le_max_right _ _) hm) hn
    · exact hk x hx2 m (le_trans (le_max_left _ _) hm)

/-- C14: for a non-reference chain action with parameters `P` and children
`c1 .. cn`, where `ci'` is `ci` with its parameters extended by the entries
of `P` whose key `ci` does not define: when the children before `ci'`
return `nil` and `ci'` returns a response, `Execute` on the chain returns
that response, whatever the children after it; when every child returns
`nil`, so does the chain. In `ci'` a key reads as in `ci` when `ci` defines
it and as in `P` otherwise, and every other field is that of `ci`. -/
theorem c14_chain_first_result (lib : GoLib) (event : HookEvent) (cfg : Config) (a : Action)
    (href : a.Ref = []) (hty : a.Type_ = "chain".toList) :
    (∀ pre c post r, a.Actions = pre ++ c :: post →
      (∀ x ∈ pre, ExecutesTo lib event cfg
        (x.withParams (inheritParams a.Params x.Params)) none) →
      ExecutesTo lib event cfg (c.withParams (inheritParams a.Params c.Params)) (some r) →
      ExecutesTo lib event cfg a (some r)) ∧
    ((∀ x ∈ a.Actions, ExecutesTo lib event cfg
        (x.withParams (inheritParams a.Params x.Params)) none) →
      ExecutesTo lib event cfg a none) ∧
    (∀ (c : Action) k, mapGet (c.withParams (inheritParams a.Params c.Params)).Params k
        = (mapGet c.Params k).or (mapGet a.Params k)) ∧
    (∀ (c : Action),
      (c.withParams (inheritParams a.Params c.Params)).Type_ = c.Type_ ∧
      (c.withParams (inheritParams a.Params c.Params)).Decision = c.Decision ∧
      (c.withParams (inheritParams a.Params c.Params)).Message = c.Message ∧
      (c.withParams (inheritParams a.Params c.Params)).Actions = c.Actions ∧
      (c.withParams (inheritParams a.Params c.Params)).Ref = c.Ref ∧
      (c.withParams (inheritParams a.Params c.Params)).Condition = c.Condition ∧
      (c.withParams (inheritParams a.Params c.Params)).Then = c.Then ∧
      (c.withParams (inheritParams a.Params c.Params)).Else = c.Else) := by
  refine ⟨?_, ?_, ?_, ?_⟩
  · intro pre c post r hact hpre hc
    obtain ⟨k, hk⟩ := exists_common_fuel_none lib event cfg
      (fun x => x.withParams (inheritParams a.Params x.Params)) pre hpre
    obtain ⟨n, hn⟩ := hc
    refine ⟨max k n + 1, ?_⟩
    rw [execute_chain lib _ event cfg a href hty, hact]
    apply chainLoop_first
    · intro x hx
      exact hk x hx _ (le_max_left _ _)
    · exact execute_mono lib event cfg _ _ n _ (le_max_right _ _) hn
  · intro hall
    obtain ⟨k, hk⟩ := exists_common_fuel_none lib event cfg
      (fun x => x.withParams (inheritParams a.Params x.Params)) a.Actions hall
    refine ⟨k + 1, ?_⟩
    rw [execute_chain lib _ event cfg a href hty]
    apply chainLoop_all_none
    intro x hx
    exact hk x hx k (le_refl k)
  · intro c k
    have hp : (c.withParams (inheritParams a.Params c.Params)).Params
        = inheritParams a.Params c.Params := by cases c; rfl
    rw [hp]
    exact mapGet_inheritParams a.Params c.Params k
  · intro c
    cases c
    exact ⟨rfl, rfl, rfl, rfl, rfl, rfl, rfl, rfl⟩

/-- C14 on a chain of three log actions, which returns `nil`, and on a chain
with parameters `k` = "parent" and `j` = "inherited" over a log action, a
deny with message `{{k}} {{j}}` and own parameter `k` = "child", and a
second deny: the response is the first deny with message "child
inherited". -/
theorem c14_chain_first_result_witness :
    ExecutesTo sampleLib deleteEvent (rulesOnly [])
      (chainAction [] [logAction, logAction, logAction]) none ∧
    ExecutesTo sampleLib deleteEvent (rulesOnly []) sampleChain
      (some { ExitCode := 2, Decision := "deny".toList,
              Message := "child inherited".toList }) :=
  ⟨(c14_chain_first_result sampleLib deleteEvent (rulesOnly [])
      (chainAction [] [logAction, logAction, logAction]) rfl rfl).2.1
      (by
        intro x hx
        simp only [chainAction, Action.Actions, List.mem_cons, List.mem_singleton,
          List.not_mem_nil, or_false, or_self] at hx
        subst hx
        exact ⟨1, by decide⟩),
   (c14_chain_first_result sampleLib deleteEvent (rulesOnly []) sampleChain rfl rfl).1
      [logAction]
      (Action.mk "decision".toList "deny".toList
        "\x7b\x7bk\x7d\x7d \x7b\x7bj\x7d\x7d".toList [] []
        [("k".toList, .str "child".toList)] none none none)
      [decisionAction "deny".toList "never".toList] _ rfl
      (by
        intro x hx
        simp only [List.mem_singleton] at hx
        subst hx
        exact ⟨1, by decide⟩)
      ⟨1, by decide⟩⟩

/-! ## C15: all-of -/

/-- The all-of loop is true when every child is. -/
theorem evalAll_of_all_true (f : Condition → Option Bool) (cs : List Condition)
    (h : ∀ c ∈ cs, f c = some true) : evalAll f cs = some true := by
  induction cs with
  | nil => rfl
  | cons c0 cs ih =>
    simp [evalAll, h c0 (List.mem_cons_self c0 cs),
      ih (fun c hc => h c (List.mem_cons_of_mem c0 hc))]

/-- The all-of loop is false only when some child is. -/
theorem evalAll_false_exists (f : Condition → Option Bool) (cs : List Condition)
    (h : evalAll f cs = some false) : ∃ c ∈ cs, f c = some false := by
  induction cs with
  | nil => simp [evalAll] at h
  | cons c0 cs ih =>
    cases hf : f c0 with
    | none => simp [evalAll, hf] at h
    | some b =>
      cases b with
      | false => exact ⟨c0, List.mem_cons_self c0 cs, hf⟩
      | true =>
        have h2 : evalAll f cs = some false := by simpa [evalAll, hf] using h
        obtain ⟨c, hc, hct⟩ := ih h2
        exact ⟨c, List.mem_cons_of_mem c0 hc, hct⟩

/-- The all-of loop gives a result when every child does. -/
theorem evalAll_ne_none (f : Condition → Option Bool) (cs : List Condition)
    (h : ∀ c ∈ cs, f c ≠ none) : evalAll f cs ≠ none := by
  induction cs with
  | nil => simp [evalAll]
  | cons c cs ih =>
    have hc : f c ≠ none := h c (List.mem_cons_self c cs)
    have ih2 := ih (fun x hx => h x (List.mem_cons_of_mem c hx))
    cases hfc : f c with
    | none => exact absurd hfc hc
    | some b =>
      cases b with
      | false => simp [evalAll, hfc]
      | true => simpa [evalAll, hfc] using ih2

/-- With one more unit of fuel than its children need, `Evaluate` on a
condition without reference and with a non-empty `all` list is the all-of
loop over that list. -/
theorem evaluate_all (lib : GoLib) (fuel : Nat) (event : HookEvent) (cfg : Config)
    (c : Condition) (href : c.Ref = []) (hne : c.All ≠ []) :
    Evaluate lib (fuel + 1) (some c) event cfg
      = evalAll (fun x => Evaluate lib fuel (some x) event cfg) c.All := by
  have hlen : 0 < c.All.length := List.length_pos.mpr hne
  simp [Evaluate, href, hlen]

/-- C15: for a condition with no reference and a non-empty `all` list,
`Evaluate` returns true if and only if it returns true on every element of
the list; when it returns a result on every element it returns a result,
false if and only if some element is false; and it returns what it returns
on the condition that has this `all` list and nothing else, so that an
`any` list, a `not` child and leaf fields set on the condition play no
part. -/
theorem c15_all_takes_precedence (lib : GoLib) (event : HookEvent) (cfg : Config)
    (c : Condition) (href : c.Ref = []) (hne : c.All ≠ []) :
    (EvaluatesTo lib event cfg c true ↔ ∀ x ∈ c.All, EvaluatesTo lib event cfg x true) ∧
    ((∀ x ∈ c.All, ∃ b, EvaluatesTo lib event cfg x b) →
      (∃ b, EvaluatesTo lib event cfg c b) ∧
      (EvaluatesTo lib event cfg c false ↔ ∃ x ∈ c.All, EvaluatesTo lib event cfg x false)) ∧
    (∀ fuel, Evaluate lib fuel (some c) event cfg
      = Evaluate lib fuel (some (allOf c.All)) event cfg) := by
  have hstep := fun fuel => evaluate_all lib fuel event cfg c href hne
  refine ⟨?_, ?_, ?_⟩
  · constructor
    · rintro ⟨n, hn⟩ x hx
      cases n with
      | zero => simp [Evaluate] at hn
      | succ n =>
        rw [hstep] at hn
        exact ⟨n, evalAll_eq_true _ _ hn x hx⟩
    · intro hall
      obtain ⟨k, hk⟩ := exists_common_fuel lib event cfg c.All (fun x hx => ⟨true, hall x hx⟩)
      refine ⟨k + 1, ?_⟩
      rw [hstep]
      apply evalAll_of_all_true
      intro x hx
      cases hv : Evaluate lib k (some x) event cfg with
      | none => exact absurd hv (hk x hx k (le_refl k))
      | some b =>
        have := evaluatesTo_unique lib event cfg x b true ⟨k, hv⟩ (hall x hx)
        rw [this]
  · intro hres
    obtain ⟨k, hk⟩ := exists_common_fuel lib event cfg c.All hres
    have hret : evalAll (fun x => Evaluate lib k (some x) event cfg) c.All ≠ none :=
      evalAll_ne_none _ _ (fun x hx => hk x hx k (le_refl k))
    constructor
    · cases hv : evalAll (fun x => Evaluate lib k (some x) event cfg) c.All with
      | none => exact absurd hv hret
      | some b => exact ⟨b, k + 1, by rw [hstep]; exact hv⟩
    · constructor
      · rintro ⟨n, hn⟩
        cases n with
        | zero => simp [Evaluate] at hn
        | succ n =>
          rw [hstep] at hn
          obtain ⟨x, hx, hxf⟩ := evalAll_false_exists _ _ hn
          exact ⟨x, hx, n, hxf⟩
      · rintro ⟨x, hx, hxf⟩
        refine ⟨k + 1, ?_⟩
        rw [hstep]
        cases hv : evalAll (fun x => Evaluate lib k (some x) event cfg) c.All with
        | none => exact absurd hv hret
        | some b =>
          cases b with
          | false => rfl
          | true =>
            have hxt : EvaluatesTo lib event cfg x true :=
              ⟨k, evalAll_eq_true _ _ hv x hx⟩
            exact absurd (evaluatesTo_unique lib event cfg x true false hxt hxf) (by decide)
  · intro fuel
    cases fuel with
    | zero => simp [Evaluate]
    | succ n =>
      rw [hstep]
      have h2 : (allOf c.All).All ≠ [] := hne
      exact (evaluate_all lib n event cfg (allOf c.All) rfl h2).symm

/-- C15 on a condition that has an `all` list of two true leaves and also an
`any` list with a false leaf, a `not` child that would give false, and the
leaf fields of a test that is false: it is true on the scenario's event. -/
theorem c15_all_takes_precedence_witness :
    EvaluatesTo sampleLib deleteEvent (rulesOnly [])
      (Condition.mk "exists".toList "missing".toList [] [] [] []
        [leafCondition "exists".toList "tool_name".toList [],
         leafCondition "exists".toList "tool_input.path".toList []]
        [leafCondition "exists".toList "missing".toList []]
        (some (leafCondition "exists".toList "tool_name".toList [])) []) true :=
  (c15_all_takes_precedence sampleLib deleteEvent (rulesOnly [])
    (Condition.mk "exists".toList "missing".toList [] [] [] []
      [leafCondition "exists".toList "tool_name".toList [],
       leafCondition "exists".toList "tool_input.path".toList []]
      [leafCondition "exists".toList "missing".toList []]
      (some (leafCondition "exists".toList "tool_name".toList [])) [])
    rfl (by simp [Condition.All])).1.mpr
    (by
      intro x hx
      simp only [Condition.All, List.mem_cons, List.mem_singleton, List.not_mem_nil,
        or_false] at hx
      rcases hx with rfl | rfl
      · exact ⟨1, by decide⟩
      · exact ⟨1, by decide⟩)

/-! ## C16: conditional actions -/

/-- With one more unit of fuel than its parts need, `Execute` on a
non-reference conditional action is `executeConditional`. -/
theorem execute_conditional (lib : GoLib) (fuel : Nat) (event : HookEvent) (cfg : Config)
    (a : Action) (href : a.Ref = []) (hty : a.Type_ = "conditional".toList) :
    Execute lib (fuel + 1) (some a) event cfg
      = match a.Condition with
        | none => some none
        | some c =>
          match Evaluate lib fuel (some c) event cfg with
          | none => none
          | some true =>
            match a.Then with
            | some t => Execute lib fuel (some t) event cfg
            | none => some none
          | some false =>
            match a.Else with
            | some e => Execute lib fuel (some e) event cfg
            | none => some none := by
  have h1 : ¬ ("conditional".toList = "decision".toList) := by decide
  have h2 : ¬ ("conditional".toList = "log".toList) := by decide
  have h3 : ¬ ("conditional".toList = "chain".toList) := by decide
  rw [Execute, if_neg (by rw [href]; exact fun h => h rfl), hty, if_neg h1, if_neg h2,
    if_neg h3, if_pos rfl]

/-- C16, as stated, fails: a conditional action without condition returns
`nil` although it has a then-action that denies and `Evaluate` is true on an
absent condition. -/
theorem c16_absent_condition_returns_nil :
    Execute sampleLib 2
        (some (conditionalAction none (some (decisionAction "deny".toList "no".toList)) none))
        deleteEvent (rulesOnly []) = some none ∧
    Evaluate sampleLib 1 none deleteEvent (rulesOnly []) = some true ∧
    Execute sampleLib 1 (some (decisionAction "deny".toList "no".toList))
        deleteEvent (rulesOnly [])
      = some (some { ExitCode := 2, Decision := "deny".toList, Message := "no".toList }) := by
  decide

/-- C16, amended: a non-reference conditional action without condition
returns `nil`, whatever its branches. With a condition on which `Evaluate`
returns true, `Execute` returns what it returns on the then-action, and
`nil` when there is none; with a condition on which `Evaluate` returns
false, it returns what it returns on the else-action, and `nil` when there
is none. -/
theorem c16_conditional_branches (lib : GoLib) (event : HookEvent) (cfg : Config) (a : Action)
    (href : a.Ref = []) (hty : a.Type_ = "conditional".toList) :
    (a.Condition = none → ∀ fuel, Execute lib (fuel + 1) (some a) event cfg = some none) ∧
    (∀ c, a.Condition = some c →
      (EvaluatesTo lib event cfg c true →
        (∀ t, a.Then = some t →
          ∀ r, ExecutesTo lib event cfg a r ↔ ExecutesTo lib event cfg t r) ∧
        (a.Then = none → ExecutesTo lib event cfg a none)) ∧
      (EvaluatesTo lib event cfg c false →
        (∀ e, a.Else = some e →
          ∀ r, ExecutesTo lib event cfg a r ↔ ExecutesTo lib event cfg e r) ∧
        (a.Else = none → ExecutesTo lib event cfg a none))) := by
  have hstep := fun fuel => execute_conditional lib fuel event cfg a href hty
  constructor
  · intro hc fuel
    rw [hstep, hc]
  · intro c hc
    have hbranch : ∀ (b : Bool), EvaluatesTo lib event cfg c b →
        (∀ x, (if b then a.Then else a.Else) = some x →
          ∀ r, ExecutesTo lib event cfg a r ↔ ExecutesTo lib event cfg x r) ∧
        ((if b then a.Then else a.Else) = none → ExecutesTo lib event cfg a none) := by
      intro b hb
      obtain ⟨k, hk⟩ := hb
      constructor
      · intro x hx r
        constructor
        · rintro ⟨n, hn⟩
          cases n with
          | zero => simp [Execute] at hn
          | succ n =>
            rw [hstep, hc] at hn
            cases hv : Evaluate lib n (some c) event cfg with
            | none => simp [hv] at hn
            | some b2 =>
              have hb2 : b2 = b := evaluatesTo_unique lib event cfg c b2 b ⟨n, hv⟩ ⟨k, hk⟩
              subst hb2
              cases b2 with
              | true =>
                have hx2 : a.Then = some x := hx
                simp only [hv, hx2] at hn
                exact ⟨n, hn⟩
              | false =>
                have hx2 : a.Else = some x := hx
                simp only [hv, hx2] at hn
                exact ⟨n, hn⟩
        · rintro ⟨m, hm⟩
          refine ⟨max k m + 1, ?_⟩
          have hc2 := evaluate_mono lib event cfg (some c) b k (max k m) (le_max_left _ _) hk
          have hx3 := execute_mono lib event cfg (some x) r m (max k m) (le_max_right _ _) hm
          rw [hstep, hc]
          cases b with
          | true =>
            have hx2 : a.Then = some x := hx
            simp only [hc2, hx2]
            exact hx3
          | false =>
            have hx2 : a.Else = some x := hx
            simp only [hc2, hx2]
            exact hx3
      · intro hx
        refine ⟨k + 1, ?_⟩
        rw [hstep, hc]
        cases b with
        | true =>
          have hx2 : a.Then = none := hx
          simp only [hk, hx2]
        | false =>
          have hx2 : a.Else = none := hx
          simp only [hk, hx2]
    exact ⟨fun h => hbranch true h, fun h => hbranch false h⟩

/-- C16 on the scenario's event: a conditional action whose condition is
true and that has only an else-action returns `nil`; one whose condition is
false returns the verdict of its else-action; one without condition returns
`nil`. -/
theorem c16_conditional_branches_witness :
    ExecutesTo sampleLib deleteEvent (rulesOnly [])
      (conditionalAction (some (leafCondition "exists".toList "tool_name".toList [])) none
        (some (decisionAction "deny".toList "else".toList))) none ∧
    ExecutesTo sampleLib deleteEvent (rulesOnly [])
      (conditionalAction (some (leafCondition "exists".toList "missing".toList [])) none
        (some (decisionAction "deny".toList "else".toList)))
      (some { ExitCode := 2, Decision := "deny".toList, Message := "else".toList }) ∧
    Execute sampleLib 1
      (some (conditionalAction none (some (decisionAction "deny".toList "then".toList)) none))
      deleteEvent (rulesOnly []) = some none :=
  ⟨(((c16_conditional_branches sampleLib deleteEvent (rulesOnly [])
      (conditionalAction (some (leafCondition "exists".toList "tool_name".toList [])) none
        (some (decisionAction "deny".toList "else".toList))) rfl rfl).2
      (leafCondition "exists".toList "tool_name".toList []) rfl).1 ⟨1, by decide⟩).2 rfl,
   ((((c16_conditional_branches sampleLib deleteEvent (rulesOnly [])
      (conditionalAction (some (leafCondition "exists".toList "missing".toList [])) none
        (some (decisionAction "deny".toList "else".toList))) rfl rfl).2
      (leafCondition "exists".toList "missing".toList []) rfl).2 ⟨1, by decide⟩).1
      (decisionAction "deny".toList "else".toList) rfl _).mpr ⟨1, by decide⟩,
   (c16_conditional_branches sampleLib deleteEvent (rulesOnly [])
      (conditionalAction none (some (decisionAction "deny".toList "then".toList)) none)
      rfl rfl).1 rfl 0⟩

/-! ## C17: a decision that is none of deny, block, allow and ask -/

/-- The loop over the actions of a rule returns the response of the first
action that has one, whatever the actions after it. -/
theorem runActions_first (f : Action → Option (Option Response)) (pre post : List Action)
    (a : Action) (resp : Response) (hpre : ∀ x ∈ pre, f x = some none)
    (ha : f a = some (some resp)) :
    runActions f (pre ++ a :: post) = some (some resp) := by
  induction pre with
  | nil => simp [runActions, ha]
  | cons x rest ih =>
    simp [runActions, hpre x (List.mem_cons_self x rest),
      ih (fun y hy => hpre y (List.mem_cons_of_mem x hy))]

/-- A member of a list has a first occurrence. -/
theorem exists_first_occurrence (r : Rule) (l : List Rule) (h : r ∈ l) :
    ∃ l1 l2, l = l1 ++ r :: l2 ∧ r ∉ l1 := by
  induction l with
  | nil => cases h
  | cons x rest ih =>
    by_cases hx : x = r
    · exact ⟨[], rest, by rw [hx]; rfl, List.not_mem_nil r⟩
    · have hr : r ∈ rest := by
        rcases List.mem_cons.mp h with h1 | h1
        · exact absurd h1.symm hx
        · exact h1
      obtain ⟨l1, l2, hl, hn⟩ := ih hr
      refine ⟨x :: l1, l2, by rw [hl]; rfl, ?_⟩
      intro hm
      rcases List.mem_cons.mp hm with h1 | h1
      · exact hx h1.symm
      · exact hn h1

/-- C17, as stated, fails: a rule whose actions are a decision with an empty
decision and then a deny yields the default verdict, while the same rule
without the first action yields the deny verdict. -/
theorem c17_empty_decision_stops_dispatch :
    Dispatch sampleLib 1 deleteEvent
        (rulesOnly [ruleWithActions 0
          [decisionAction [] [], decisionAction "deny".toList "blocked".toList]])
      = some { ExitCode := 0, Decision := [], Message := [] } ∧
    Dispatch sampleLib 1 deleteEvent
        (rulesOnly [ruleWithActions 0 [decisionAction "deny".toList "blocked".toList]])
      = some { ExitCode := 2, Decision := "deny".toList, Message := "blocked".toList } := by
  decide

/-- C17, amended: a non-reference decision action whose decision is none of
deny, block, allow and ask returns the verdict with exit code 0, empty
decision and empty message, and it is terminal: when its rule is enabled and
passes trigger and condition, the actions before it in the rule return
`nil`, and every other enabled rule of the same or a higher priority
produces no verdict, `Dispatch` returns that verdict, whatever the later
actions of the rule and the rules of lower priority. -/
theorem c17_unknown_decision_is_terminal (lib : GoLib) (fuel : Nat) (event : HookEvent)
    (cfg : Config) (rpre rpost : List Rule) (r : Rule) (pre post : List Action) (a : Action)
    (hrules : cfg.Rules = rpre ++ r :: rpost)
    (hen : r.Enabled = true)
    (hother : ∀ x ∈ rpre ++ rpost, x.Enabled = true → r.Priority ≤ x.Priority →
      NoVerdict lib (fuel + 1) event cfg x)
    (ht : matchesTrigger lib r event = true)
    (hc : ruleCondition lib (fuel + 1) r event cfg = some true)
    (hact : r.Actions = pre ++ a :: post)
    (hpre : ∀ x ∈ pre, Execute lib (fuel + 1) (some x) event cfg = some none)
    (href : a.Ref = []) (hty : a.Type_ = "decision".toList)
    (hd1 : a.Decision ≠ "deny".toList) (hd2 : a.Decision ≠ "block".toList)
    (hd3 : a.Decision ≠ "allow".toList) (hd4 : a.Decision ≠ "ask".toList) :
    Execute lib (fuel + 1) (some a) event cfg
      = some (some { ExitCode := 0, Decision := [], Message := [] }) ∧
    Dispatch lib (fuel + 1) event cfg
      = some { ExitCode := 0, Decision := [], Message := [] } := by
  have hexec : Execute lib (fuel + 1) (some a) event cfg
      = some (some { ExitCode := 0, Decision := [], Message := [] }) := by
    have e : Execute lib (fuel + 1) (some a) event cfg
        = some (some (executeDecision lib a event)) := by
      simp [Execute, href, hty]
    rw [e]
    dsimp only [executeDecision]
    rw [if_neg (by rintro (h | h); exact hd1 h; exact hd2 h), if_neg hd3, if_neg hd4]
  refine ⟨hexec, ?_⟩
  have hperm := lib.sortSlice_perm (enabledRules cfg)
  have hsorted := lib.sortSlice_sorted (enabledRules cfg)
  have hrin : r ∈ lib.sortSlice (enabledRules cfg) := by
    apply hperm.mem_iff.mpr
    simp [enabledRules, hrules, hen]
  obtain ⟨l1, l2, hl, hn⟩ := exists_first_occurrence r _ hrin
  have hl1 : ∀ x ∈ l1, NoVerdict lib (fuel + 1) event cfg x := by
    intro x hx
    have hxs : x ∈ lib.sortSlice (enabledRules cfg) := by
      rw [hl]; exact List.mem_append_left _ hx
    have hxe : x ∈ enabledRules cfg := hperm.mem_iff.mp hxs
    simp only [enabledRules, hrules, List.mem_filter, List.mem_append, List.mem_cons] at hxe
    obtain ⟨hmem, hxen⟩ := hxe
    have hprio : r.Priority ≤ x.Priority := by
      rw [hl] at hsorted
      have h2 := (List.pairwise_append.mp hsorted).2.2 x hx r (List.mem_cons_self r l2)
      exact h2
    have hxr : x ≠ r := fun he => hn (he ▸ hx)
    have hmem2 : x ∈ rpre ++ rpost := by
      rcases hmem with h | h | h
      · exact List.mem_append_left _ h
      · exact absurd h hxr
      · exact List.mem_append_right _ h
    exact hother x hmem2 hxen hprio
  unfold Dispatch
  rw [hl, runRules_append_noVerdict lib (fuel + 1) event cfg l1 _ hl1]
  apply runRules_cons_fire lib (fuel + 1) event cfg r l2 _ ht hc
  rw [hact]
  exact runActions_first _ pre post a _ hpre hexec

/-- C17 on a rule of priority 9 whose actions are a log, a decision "later"
and a deny, followed by a deny rule of priority 1: the verdict is exit code
0 with an empty decision. -/
theorem c17_unknown_decision_is_terminal_witness :
    Dispatch sampleLib 1 deleteEvent
        (rulesOnly
          [ruleWithActions 9 [logAction, decisionAction "later".toList "wait".toList,
             decisionAction "deny".toList "blocked".toList],
           ruleWithActions 1 [decisionAction "deny".toList "low".toList]])
      = some { ExitCode := 0, Decision := [], Message := [] } :=
  (c17_unknown_decision_is_terminal sampleLib 0 deleteEvent
    (rulesOnly
      [ruleWithActions 9 [logAction, decisionAction "later".toList "wait".toList,
         decisionAction "deny".toList "blocked".toList],
       ruleWithActions 1 [decisionAction "deny".toList "low".toList]])
    [] [ruleWithActions 1 [decisionAction "deny".toList "low".toList]]
    (ruleWithActions 9 [logAction, decisionAction "later".toList "wait".toList,
       decisionAction "deny".toList "blocked".toList])
    [logAction] [decisionAction "deny".toList "blocked".toList]
    (decisionAction "later".toList "wait".toList)
    rfl rfl
    (by
      intro x hx _ hle
      simp only [List.nil_append, List.mem_singleton] at hx
      subst hx
      exact absurd hle (by decide))
    (by decide) (by decide) rfl
    (by
      intro x hx
      simp only [List.mem_singleton] at hx
      subst hx
      decide)
    rfl rfl (by decide) (by decide) (by decide) (by decide)).2

/-! ## C18: the field of a leaf -/

/-- A path that resolves ends on a value that is not null. -/
theorem resolvesTo_ne_null (current : Value) (path : List Str) (v : Value)
    (h : ResolvesTo current path v) : v ≠ Value.null := by
  induction h with
  | last m seg v _ hv => exact hv
  | step m seg next rest v _ _ _ ih => exact ih

/-- A path that resolves is not empty. -/
theorem resolvesTo_ne_nil (current : Value) (path : List Str) (v : Value)
    (h : ResolvesTo current path v) : path ≠ [] := by
  cases h <;> simp

/-- The loop of `getFieldValue` over a non-empty path returns a value
exactly when the path resolves to it. -/
theorem walkPath_eq_some_iff (path : List Str) (hne : path ≠ []) :
    ∀ (current v : Value), walkPath path current = some v ↔ ResolvesTo current path v := by
  induction path with
  | nil => exact absurd rfl hne
  | cons seg rest ih =>
    intro current v
    constructor
    · intro h
      cases current with
      | map m =>
        cases hg : mapGet m seg with
        | none => simp [walkPath, hg] at h
        | some next =>
          have hnn : next ≠ Value.null := by
            intro he
            subst he
            simp [walkPath, hg] at h
          have hw : walkPath rest next = some v := by
            cases next <;> first | exact absurd rfl hnn | simpa [walkPath, hg] using h
          cases rest with
          | nil =>
            have hv : next = v := by simpa [walkPath] using hw
            subst hv
            exact ResolvesTo.last m seg next hg hnn
          | cons s2 r2 =>
            exact ResolvesTo.step m seg next (s2 :: r2) v hg hnn
              ((ih (by simp) next v).mp hw)
      | null => simp [walkPath] at h
      | str s => simp [walkPath] at h
      | bool b => simp [walkPath] at h
      | num t => simp [walkPath] at h
      | seq items => simp [walkPath] at h
    · intro h
      cases h with
      | last m _ _ hg hv =>
        cases v <;> first | exact absurd rfl hv | simp [walkPath, hg]
      | step m _ next _ _ hg hnn hr =>
        have hrest : rest ≠ [] := resolvesTo_ne_nil next rest v hr
        have hw := (ih hrest next v).mpr hr
        cases next <;> first | exact absurd rfl hnn | simpa [walkPath, hg] using hw

/-- `strings.Split` returns at least one part. -/
theorem stringsSplit_ne_nil (sep : Char) (s : Str) : stringsSplit sep s ≠ [] := by
  cases s with
  | nil => simp [stringsSplit]
  | cons c cs =>
    unfold stringsSplit
    split
    · simp
    · split <;> simp

/-- `getFieldValue` returns a value exactly when the path is not empty and
its dot-separated segments resolve to that value in the field map. -/
theorem getFieldValue_eq_some_iff (data : GoMap Value) (fieldPath : Str) (v : Value) :
    getFieldValue data fieldPath = some v ↔
      fieldPath ≠ [] ∧ ResolvesTo (.map data) (stringsSplit '.' fieldPath) v := by
  unfold getFieldValue
  by_cases hp : fieldPath = []
  · simp [hp]
  · rw [if_neg hp, walkPath_eq_some_iff _ (stringsSplit_ne_nil '.' fieldPath)]
    simp [hp]

/-- The field-based test is false when the field has no value. -/
theorem evaluateLeaf_of_none (lib : GoLib) (c : Condition) (event : HookEvent)
    (h : getFieldValue event.Raw c.Field = none) : evaluateLeaf lib c event = false := by
  unfold evaluateLeaf
  simp only [h]
  split
  · rfl
  · split
    · rfl
    · split
      · rfl
      · split <;> rfl

/-- C18: for a leaf condition of any type, when the field path is empty or
does not resolve to a non-null value in the event's field map, `Evaluate`
returns false; for the type "exists", `Evaluate` returns true exactly when
the dot-separated path resolves to a non-null value, and false otherwise.
A path does not resolve when a segment is missing, maps to null, or is
looked up in a value that is not a mapping. -/
theorem c18_leaf_field_resolution (lib : GoLib) (fuel : Nat) (event : HookEvent) (cfg : Config)
    (c : Condition) (hleaf : IsLeaf c) :
    ((c.Field = [] ∨ ¬ ∃ v, ResolvesTo (.map event.Raw) (stringsSplit '.' c.Field) v) →
      Evaluate lib (fuel + 1) (some c) event cfg = some false) ∧
    (c.Type_ = "exists".toList →
      (Evaluate lib (fuel + 1) (some c) event cfg = some true ↔
        c.Field ≠ [] ∧ ∃ v, ResolvesTo (.map event.Raw) (stringsSplit '.' c.Field) v) ∧
      (Evaluate lib (fuel + 1) (some c) event cfg = some false ↔
        ¬ (c.Field ≠ [] ∧ ∃ v, ResolvesTo (.map event.Raw) (stringsSplit '.' c.Field) v))) ∧
    (∀ (m : GoMap Value) (seg : Str) (rest : List Str) (v : Value),
      mapGet m seg = none → ¬ ResolvesTo (.map m) (seg :: rest) v) ∧
    (∀ (m : GoMap Value) (seg : Str) (rest : List Str) (v : Value),
      mapGet m seg = some Value.null → ¬ ResolvesTo (.map m) (seg :: rest) v) ∧
    (∀ (current : Value) (path : List Str) (v : Value),
      (∀ m, current ≠ Value.map m) → ¬ ResolvesTo current path v) ∧
    (∀ (current : Value) (path : List Str) (v : Value),
      ResolvesTo current path v → v ≠ Value.null) := by
  have hev := evaluate_leaf lib fuel event cfg c hleaf
  have hiff : ∀ v, getFieldValue event.Raw c.Field = some v ↔
      c.Field ≠ [] ∧ ResolvesTo (.map event.Raw) (stringsSplit '.' c.Field) v :=
    fun v => getFieldValue_eq_some_iff event.Raw c.Field v
  have hsome : (getFieldValue event.Raw c.Field).isSome = true ↔
      c.Field ≠ [] ∧ ∃ v, ResolvesTo (.map event.Raw) (stringsSplit '.' c.Field) v := by
    constructor
    · intro h
      obtain ⟨v, hv⟩ := Option.isSome_iff_exists.mp h
      exact ⟨((hiff v).mp hv).1, v, ((hiff v).mp hv).2⟩
    · rintro ⟨hne, v, hv⟩
      exact Option.isSome_iff_exists.mpr ⟨v, (hiff v).mpr ⟨hne, hv⟩⟩
  refine ⟨?_, ?_, ?_, ?_, ?_, resolvesTo_ne_null⟩
  · intro h
    have hnone : getFieldValue event.Raw c.Field = none := by
      cases hg : getFieldValue event.Raw c.Field with
      | none => rfl
      | some v =>
        have hr := (hiff v).mp hg
        rcases h with h | h
        · exact absurd h hr.1
        · exact absurd ⟨v, hr.2⟩ h
    rw [hev, evaluateLeaf_of_none lib c event hnone]
  · intro hty
    have hl : evaluateLeaf lib c event = (getFieldValue event.Raw c.Field).isSome := by
      have h1 : ¬ ("exists".toList = "regex".toList) := by decide
      have h2 : ¬ ("exists".toList = "glob".toList) := by decide
      have h3 : ¬ ("exists".toList = "equals".toList) := by decide
      unfold evaluateLeaf
      simp only [hty, if_neg h1, if_neg h2, if_neg h3, if_true]
    rw [hev, hl]
    constructor
    · rw [← hsome]
      simp
    · rw [← hsome]
      simp
  · intro m seg rest v hg h
    cases h with
    | last _ _ _ hg2 _ => rw [hg] at hg2; cases hg2
    | step _ _ _ _ _ hg2 _ _ => rw [hg] at hg2; cases hg2
  · intro m seg rest v hg h
    cases h with
    | last _ _ _ hg2 hv =>
      rw [hg] at hg2
      exact hv (Option.some.inj hg2).symm
    | step _ _ _ _ _ hg2 hnn _ =>
      rw [hg] at hg2
      exact hnn (Option.some.inj hg2).symm
  · intro current path v hcur h
    cases h with
    | last m _ _ _ _ => exact hcur m rfl
    | step m _ _ _ _ _ _ _ => exact hcur m rfl

/-- C18 on the scenario's event: the leaf "exists" on `tool_input.path` is
true; a leaf "equals" on `tool_name.x`, a path through a string, is false;
a leaf "regex" with an empty field is false. -/
theorem c18_leaf_field_resolution_witness :
    Evaluate sampleLib 1 (some (leafCondition "exists".toList "tool_input.path".toList []))
        deleteEvent (rulesOnly []) = some true ∧
    Evaluate sampleLib 1 (some (leafCondition "equals".toList "tool_name.x".toList []))
        deleteEvent (rulesOnly []) = some false ∧
    Evaluate sampleLib 1 (some (leafCondition "regex".toList [] "delete".toList))
        deleteEvent (rulesOnly []) = some false :=
  ⟨((c18_leaf_field_resolution sampleLib 0 deleteEvent (rulesOnly [])
      (leafCondition "exists".toList "tool_input.path".toList [])
      ⟨rfl, rfl, rfl, rfl⟩).2.1 rfl).1.mpr
      ⟨by decide, Value.str "/etc/passwd".toList,
        ResolvesTo.step _ "tool_input".toList
          (Value.map [("path".toList, Value.str "/etc/passwd".toList)]) ["path".toList] _
          rfl (fun h => Value.noConfusion h)
          (ResolvesTo.last _ "path".toList _ rfl (fun h => Value.noConfusion h))⟩,
   (c18_leaf_field_resolution sampleLib 0 deleteEvent (rulesOnly [])
      (leafCondition "equals".toList "tool_name.x".toList [])
      ⟨rfl, rfl, rfl, rfl⟩).1
      (Or.inr (by
        rintro ⟨v, h⟩
        have hs : stringsSplit '.' (leafCondition "equals".toList "tool_name.x".toList []).Field
            = ["tool_name".toList, "x".toList] := by decide
        rw [hs] at h
        cases h with
        | step _ _ next _ _ hg _ hr =>
          have hn : mapGet deleteEvent.Raw "tool_name".toList
              = some (Value.str "delete_file".toList) := rfl
          rw [hn] at hg
          cases hg
          cases hr)),
   (c18_leaf_field_resolution sampleLib 0 deleteEvent (rulesOnly [])
      (leafCondition "regex".toList [] "delete".toList)
      ⟨rfl, rfl, rfl, rfl⟩).1 (Or.inl rfl)⟩

/-! ## C19: glob matching and the base name -/

/-- Without `**` in the pattern, `evaluateGlob` on a value is the match of
the pattern against the base name of the value's text. -/
theorem evaluateGlob_base (c : Condition) (v : Value)
    (hstar : stringsContains c.Pattern "**".toList = false) :
    evaluateGlob c (some v)
      = decide (filepathMatch c.Pattern (filepathBase (sprint v)) = some true) := by
  unfold evaluateGlob
  simp only [hstar]
  cases filepathMatch c.Pattern (filepathBase (sprint v)) with
  | none => rfl
  | some b => cases b <;> rfl

/-- C19: for a glob leaf whose pattern does not contain `**` and two events
on which the field resolves to values whose texts have the same base name,
`Evaluate` returns the same result, namely whether the pattern matches that
base name: the directory part of the value plays no part. -/
theorem c19_glob_base_name_only (lib : GoLib) (fuel : Nat) (cfg : Config) (c : Condition)
    (e1 e2 : HookEvent) (v1 v2 : Value)
    (hleaf : IsLeaf c) (hty : c.Type_ = "glob".toList)
    (hstar : stringsContains c.Pattern "**".toList = false)
    (h1 : getFieldValue e1.Raw c.Field = some v1)
    (h2 : getFieldValue e2.Raw c.Field = some v2)
    (hbase : filepathBase (sprint v1) = filepathBase (sprint v2)) :
    Evaluate lib (fuel + 1) (some c) e1 cfg = Evaluate lib (fuel + 1) (some c) e2 cfg ∧
    Evaluate lib (fuel + 1) (some c) e1 cfg
      = some (decide (filepathMatch c.Pattern (filepathBase (sprint v1)) = some true)) := by
  have hl : ∀ (e : HookEvent) (v : Value), getFieldValue e.Raw c.Field = some v →
      Evaluate lib (fuel + 1) (some c) e cfg
        = some (decide (filepathMatch c.Pattern (filepathBase (sprint v)) = some true)) := by
    intro e v hv
    have hne : ¬ ("glob".toList = "regex".toList) := by decide
    rw [evaluate_leaf lib fuel e cfg c hleaf]
    unfold evaluateLeaf
    simp only [hty, if_neg hne, if_true, hv]
    rw [evaluateGlob_base c v hstar]
  rw [hl e1 v1 h1, hl e2 v2 h2, hbase]
  exact ⟨rfl, rfl⟩

/-- C19 on the pattern `pass*` and the paths `/etc/passwd` and
`/home/user/passwd`: both events give true. -/
theorem c19_glob_base_name_only_witness :
    Evaluate sampleLib 1
        (some (leafCondition "glob".toList "tool_input.path".toList "pass*".toList))
        (deleteEventAt "/etc/passwd".toList) (rulesOnly [])
      = Evaluate sampleLib 1
        (some (leafCondition "glob".toList "tool_input.path".toList "pass*".toList))
        (deleteEventAt "/home/user/passwd".toList) (rulesOnly []) ∧
    Evaluate sampleLib 1
        (some (leafCondition "glob".toList "tool_input.path".toList "pass*".toList))
        (deleteEventAt "/etc/passwd".toList) (rulesOnly []) = some true :=
  c19_glob_base_name_only sampleLib 0 (rulesOnly [])
    (leafCondition "glob".toList "tool_input.path".toList "pass*".toList)
    (deleteEventAt "/etc/passwd".toList) (deleteEventAt "/home/user/passwd".toList)
    (Value.str "/etc/passwd".toList) (Value.str "/home/user/passwd".toList)
    ⟨rfl, rfl, rfl, rfl⟩ rfl (by decide) rfl rfl (by decide)

/-! ## C20: the context of a template -/

/-- The placeholder of a key, character by character. -/
theorem placeholder_eq (k : Str) :
    "\x7b\x7b".toList ++ k ++ "\x7d\x7d".toList
      = '\x7b' :: '\x7b' :: (k ++ ['\x7d', '\x7d']) := by
  rfl

/-- A text that lacks a character does not begin with a text that starts
with it. -/
theorem isPrefixOf_cons_of_not_mem (c : Char) (x s : Str) (h : c ∉ s) :
    (c :: x).isPrefixOf s = false := by
  cases s with
  | nil => rfl
  | cons d ds =>
    have hne : ¬ c = d := fun he => h (by rw [he]; exact List.mem_cons_self _ _)
    simp [List.isPrefixOf, hne]

/-- A text that lacks a character does not contain a text that starts with
it. -/
theorem stringsContains_cons_of_not_mem (c : Char) (x s : Str) (h : c ∉ s) :
    stringsContains s (c :: x) = false := by
  induction s with
  | nil => rfl
  | cons d ds ih =>
    have hds : c ∉ ds := fun hm => h (List.mem_cons_of_mem _ hm)
    rw [stringsContains, isPrefixOf_cons_of_not_mem c x (d :: ds) h, ih hds]
    rfl

/-- A text that begins with `p ++ q` begins with `p`. -/
theorem isPrefixOf_of_append (p q s : Str) (h : (p ++ q).isPrefixOf s = true) :
    p.isPrefixOf s = true := by
  rw [List.isPrefixOf_iff_prefix] at h ⊢
  exact (List.prefix_append p q).trans h

/-- A text that contains `p ++ q` contains `p`. -/
theorem stringsContains_of_append (p q s : Str) (h : stringsContains s (p ++ q) = true) :
    stringsContains s p = true := by
  induction s with
  | nil =>
    cases p with
    | nil => rfl
    | cons c cs => simp [stringsContains] at h
  | cons d ds ih =>
    rw [stringsContains, Bool.or_eq_true] at h ⊢
    rcases h with h | h
    · exact Or.inl (isPrefixOf_of_append p q _ h)
    · exact Or.inr (ih h)

/-- A text without `{{` contains no placeholder. -/
theorem stringsContains_placeholder_false (v k : Str)
    (h : stringsContains v "\x7b\x7b".toList = false) :
    stringsContains v ("\x7b\x7b".toList ++ k ++ "\x7d\x7d".toList) = false := by
  cases hc : stringsContains v ("\x7b\x7b".toList ++ k ++ "\x7d\x7d".toList) with
  | false => rfl
  | true =>
    have h2 : stringsContains v ("\x7b\x7b".toList ++ (k ++ "\x7d\x7d".toList)) = true := by
      rw [← List.append_assoc]; exact hc
    rw [stringsContains_of_append _ _ v h2] at h
    cases h

/-- Between the closing braces of two placeholders, of which one has a key
without braces, a prefix forces the keys to be equal. -/
theorem key_eq_of_prefix (k k2 : Str) (hk : BraceFree k)
    (h : (k2 ++ ['\x7d', '\x7d']).isPrefixOf (k ++ ['\x7d', '\x7d']) = true) : k2 = k := by
  rw [List.isPrefixOf_iff_prefix] at h
  obtain ⟨t, ht⟩ := h
  rw [List.append_assoc] at ht
  rcases List.append_eq_append_iff.mp ht with ⟨a, h1, h2⟩ | ⟨c, h1, h2⟩
  · cases a with
    | nil => rw [List.append_nil] at h1; exact h1.symm
    | cons x xs =>
      have hx : '\x7d' = x := by
        have h3 := congrArg List.head? h2
        simpa using h3
      have hmem : '\x7d' ∈ k := by
        rw [h1, hx]
        exact List.mem_append_right _ (List.mem_cons_self _ _)
      exact absurd hmem hk.2
  · have hlen := congrArg List.length h2
    simp at hlen
    have hc : c = [] := List.length_eq_zero.mp (by omega)
    rw [hc, List.append_nil] at h1
    exact h1

/-- The placeholder of a key without braces contains the placeholder of no
other key. -/
theorem key_eq_of_stringsContains (k k2 : Str) (hk : BraceFree k)
    (h : stringsContains ("\x7b\x7b".toList ++ k ++ "\x7d\x7d".toList)
      ("\x7b\x7b".toList ++ k2 ++ "\x7d\x7d".toList) = true) : k2 = k := by
  rw [placeholder_eq, placeholder_eq] at h
  have hw : '\x7b' ∉ k ++ ['\x7d', '\x7d'] := by
    intro hm
    rcases List.mem_append.mp hm with h1 | h1
    · exact hk.1 h1
    · revert h1; decide
  rw [stringsContains, Bool.or_eq_true] at h
  rcases h with h | h
  · have h2 : (k2 ++ ['\x7d', '\x7d']).isPrefixOf (k ++ ['\x7d', '\x7d']) = true := by
      simpa [List.isPrefixOf] using h
    exact key_eq_of_prefix k k2 hk h2
  · rw [stringsContains, Bool.or_eq_true] at h
    rcases h with h | h
    · have h2 : ('\x7b' :: (k2 ++ ['\x7d', '\x7d'])).isPrefixOf (k ++ ['\x7d', '\x7d'])
          = true := by
        simpa [List.isPrefixOf] using h
      rw [isPrefixOf_cons_of_not_mem _ _ _ hw] at h2
      cases h2
    · rw [stringsContains_cons_of_not_mem _ _ _ hw] at h
      cases h

/-- The replacement loop leaves the empty text empty. -/
theorem replaceAllAux_nil (old new : Str) (n : Nat) : replaceAllAux old new n [] = [] := by
  cases n <;> rfl

/-- Replacing a non-empty text in itself gives the replacement. -/
theorem stringsReplaceAll_self (s new : Str) (hs : s ≠ []) :
    stringsReplaceAll s s new = new := by
  cases s with
  | nil => exact absurd rfl hs
  | cons c cs =>
    have hp : (c :: cs).isPrefixOf (c :: cs) = true :=
      List.isPrefixOf_iff_prefix.mpr (List.prefix_refl _)
    have hd : (c :: cs).drop (c :: cs).length = [] := List.drop_length _
    unfold stringsReplaceAll
    simp only [List.isEmpty_cons, Bool.false_eq_true, if_false, List.length_cons]
    rw [replaceAllAux, if_pos hp]
    have hd2 : List.drop (c :: cs).length (c :: cs) = [] := hd
    rw [hd2, replaceAllAux_nil, List.append_nil]

/-- A text contains itself. -/
theorem stringsContains_self (s : Str) : stringsContains s s = true := by
  cases s with
  | nil => rfl
  | cons c cs =>
    have hp : (c :: cs).isPrefixOf (c :: cs) = true :=
      List.isPrefixOf_iff_prefix.mpr (List.prefix_refl _)
    rw [stringsContains, hp]
    rfl

/-- A pass over any entries leaves a text without `{{` as it is. -/
theorem foldl_render_fixed (v : Str) (h : stringsContains v "\x7b\x7b".toList = false)
    (l : GoMap Str) (b : Bool) :
    l.foldl
      (fun (acc : Str × Bool) (kv : Str × Str) =>
        if stringsContains acc.1 ("\x7b\x7b".toList ++ kv.1 ++ "\x7d\x7d".toList) then
          (stringsReplaceAll acc.1 ("\x7b\x7b".toList ++ kv.1 ++ "\x7d\x7d".toList) kv.2, true)
        else acc)
      (v, b) = (v, b) := by
  induction l with
  | nil => rfl
  | cons kv rest ih =>
    rw [List.foldl_cons]
    have hc := stringsContains_placeholder_false v kv.1 h
    simp only [hc, Bool.false_eq_true, if_false]
    exact ih

/-- A pass over a text without `{{` changes nothing. -/
theorem renderPass_fixed (v : Str) (h : stringsContains v "\x7b\x7b".toList = false)
    (l : GoMap Str) : renderPass l v = (v, false) := by
  unfold renderPass
  exact foldl_render_fixed v h l false

/-- A pass over the placeholder of a key without braces, in any order of
the entries: when the entries of that key all hold the value `v`, which has
no `{{`, and there is one, the pass yields `v`. -/
theorem renderPass_key (k v : Str) (hk : BraceFree k)
    (hv : stringsContains v "\x7b\x7b".toList = false) (l : GoMap Str)
    (huniq : ∀ kv ∈ l, kv.1 = k → kv.2 = v) (hex : ∃ kv ∈ l, kv.1 = k) :
    renderPass l ("\x7b\x7b".toList ++ k ++ "\x7d\x7d".toList) = (v, true) := by
  unfold renderPass
  induction l with
  | nil =>
    obtain ⟨kv, hkv, _⟩ := hex
    cases hkv
  | cons kv rest ih =>
    rw [List.foldl_cons]
    by_cases hkey : kv.1 = k
    · have hval : kv.2 = v := huniq kv (List.mem_cons_self kv rest) hkey
      have hne : "\x7b\x7b".toList ++ k ++ "\x7d\x7d".toList ≠ [] := by
        rw [placeholder_eq]; exact List.cons_ne_nil _ _
      simp only [hkey, hval, stringsContains_self, if_true, stringsReplaceAll_self _ v hne]
      exact foldl_render_fixed v hv rest true
    · have hc : stringsContains ("\x7b\x7b".toList ++ k ++ "\x7d\x7d".toList)
          ("\x7b\x7b".toList ++ kv.1 ++ "\x7d\x7d".toList) = false := by
        cases h : stringsContains ("\x7b\x7b".toList ++ k ++ "\x7d\x7d".toList)
            ("\x7b\x7b".toList ++ kv.1 ++ "\x7d\x7d".toList) with
        | false => rfl
        | true => exact absurd (key_eq_of_stringsContains k kv.1 hk h) hkey
      simp only [hc, Bool.false_eq_true, if_false]
      apply ih (fun x hx => huniq x (List.mem_cons_of_mem kv hx))
      obtain ⟨x, hx, hxk⟩ := hex
      rcases List.mem_cons.mp hx with h1 | h1
      · rw [h1] at hxk; exact absurd hxk hkey
      · exact ⟨x, h1, hxk⟩

/-- The keys of a map after a write: the same keys, with the written key
added at the end when it is new. -/
theorem keys_mapSet {α : Type} (m : GoMap α) (k : Str) (v : α) :
    (mapSet m k v).map Prod.fst
      = if k ∈ m.map Prod.fst then m.map Prod.fst else m.map Prod.fst ++ [k] := by
  induction m with
  | nil => rfl
  | cons e rest ih =>
    obtain ⟨k1, v1⟩ := e
    by_cases h1 : k1 = k
    · subst h1
      have hmem : k1 ∈ List.map Prod.fst ((k1, v1) :: rest) := List.mem_cons_self _ _
      rw [if_pos hmem]
      simp [mapSet]
    · have hne : ¬ k = k1 := fun h => h1 h.symm
      have hs : mapSet ((k1, v1) :: rest) k v = (k1, v1) :: mapSet rest k v := by
        simp [mapSet, h1]
      rw [hs, List.map_cons, ih, List.map_cons]
      by_cases hm : k ∈ rest.map Prod.fst
      · rw [if_pos hm, if_pos (List.mem_cons_of_mem _ hm)]
      · have hm2 : k ∉ k1 :: rest.map Prod.fst := by
          intro h
          rcases List.mem_cons.mp h with h | h
          · exact hne h
          · exact hm h
        rw [if_neg hm, if_neg hm2]
        rfl

/-- A write keeps the keys of a map distinct. -/
theorem nodup_keys_mapSet {α : Type} (m : GoMap α) (k : Str) (v : α)
    (h : (m.map Prod.fst).Nodup) : ((mapSet m k v).map Prod.fst).Nodup := by
  rw [keys_mapSet]
  split
  · exact h
  · rename_i hk
    exact List.Nodup.append h (List.nodup_singleton k)
      (by
        intro x hx hx2
        rw [List.mem_singleton] at hx2
        exact hk (hx2 ▸ hx))

/-- A sequence of writes keeps the keys of a map distinct. -/
theorem nodup_keys_foldl_mapSet (l : GoMap Value) (c : GoMap Str)
    (h : (c.map Prod.fst).Nodup) :
    ((l.foldl (fun c kv => mapSet c kv.1 (sprint kv.2)) c).map Prod.fst).Nodup := by
  induction l generalizing c with
  | nil => exact h
  | cons e rest ih =>
    rw [List.foldl_cons]
    exact ih _ (nodup_keys_mapSet c e.1 (sprint e.2) h)

/-- The context of a template has one entry per key. -/
theorem nodup_keys_buildContext (event : HookEvent) (params : GoMap Value) :
    ((buildContext event params).map Prod.fst).Nodup := by
  unfold buildContext
  apply nodup_keys_foldl_mapSet
  apply nodup_keys_foldl_mapSet
  apply nodup_keys_mapSet
  apply nodup_keys_mapSet
  exact List.nodup_nil

/-- An entry of a map with one entry per key is what the key reads as. -/
theorem mapGet_of_mem {α : Type} (m : GoMap α) (h : (m.map Prod.fst).Nodup) (k : Str) (v : α)
    (hm : (k, v) ∈ m) : mapGet m k = some v := by
  induction m with
  | nil => cases hm
  | cons e rest ih =>
    obtain ⟨k1, v1⟩ := e
    have hnd : k1 ∉ rest.map Prod.fst ∧ (rest.map Prod.fst).Nodup :=
      List.nodup_cons.mp (show (k1 :: rest.map Prod.fst).Nodup from h)
    rcases List.mem_cons.mp hm with h1 | h1
    · cases h1
      simp [mapGet]
    · have hk : ¬ k1 = k := by
        intro he
        apply hnd.1
        rw [he]
        exact List.mem_map_of_mem Prod.fst h1
      rw [mapGet, if_neg hk]
      exact ih hnd.2 h1

/-- What a key reads as is an entry of the map. -/
theorem mem_of_mapGet {α : Type} (m : GoMap α) (k : Str) (v : α) (h : mapGet m k = some v) :
    (k, v) ∈ m := by
  induction m with
  | nil => cases h
  | cons e rest ih =>
    obtain ⟨k1, v1⟩ := e
    by_cases hk : k1 = k
    · rw [mapGet, if_pos hk] at h
      cases h
      rw [hk]
      exact List.mem_cons_self _ _
    · rw [mapGet, if_neg hk] at h
      exact List.mem_cons_of_mem _ (ih h)

/-- Rendering the placeholder of a key without braces gives the value the
context holds for that key, when that value has no `{{`. -/
theorem renderTemplate_key (lib : GoLib) (event : HookEvent) (params : GoMap Value)
    (k v : Str) (hk : BraceFree k)
    (hget : mapGet (buildContext event params) k = some v)
    (hv : stringsContains v "\x7b\x7b".toList = false) :
    renderTemplate lib ("\x7b\x7b".toList ++ k ++ "\x7d\x7d".toList) event params = v := by
  have hnd := nodup_keys_buildContext event params
  have hpass : ∀ pass, renderPass (lib.mapOrder pass (buildContext event params))
      ("\x7b\x7b".toList ++ k ++ "\x7d\x7d".toList) = (v, true) := by
    intro pass
    have hperm := lib.mapOrder_perm pass (buildContext event params)
    apply renderPass_key k v hk hv
    · intro kv hkv hkey
      have hmem : (kv.1, kv.2) ∈ buildContext event params := hperm.mem_iff.mp hkv
      have h2 := mapGet_of_mem _ hnd kv.1 kv.2 hmem
      rw [hkey, hget] at h2
      exact (Option.some.inj h2).symm
    · exact ⟨(k, v), hperm.mem_iff.mpr (mem_of_mapGet _ k v hget), rfl⟩
  unfold renderTemplate
  rw [renderPasses]
  simp only [hpass 0, if_true]
  rw [renderPasses]
  simp only [renderPass_fixed v hv, Bool.false_eq_true, if_false]

/-- Writing the text of every entry of `l`, a map with one entry per key,
over the context `c`: a key reads as the text of its value in `l` when `l`
has it and as in `c` otherwise. -/
theorem mapGet_foldl_sprint (l : GoMap Value) (hnodup : (l.map Prod.fst).Nodup)
    (c : GoMap Str) (k : Str) :
    mapGet (l.foldl (fun c kv => mapSet c kv.1 (sprint kv.2)) c) k
      = ((mapGet l k).map sprint).or (mapGet c k) := by
  induction l generalizing c with
  | nil => rfl
  | cons e rest ih =>
    obtain ⟨k0, v0⟩ := e
    have hnd : k0 ∉ rest.map Prod.fst ∧ (rest.map Prod.fst).Nodup :=
      List.nodup_cons.mp (show (k0 :: rest.map Prod.fst).Nodup from hnodup)
    rw [List.foldl_cons, ih hnd.2, mapGet_mapSet]
    by_cases hk : k0 = k
    · subst hk
      rw [mapGet_eq_none rest k0 hnd.1]
      simp [mapGet]
    · simp [mapGet, hk]

/-- What a key reads as in the context of a template: the text of the
parameter of that key, else the text of the tool input of that key, else
the session id for `session_id` and the tool name for `tool_name`. -/
theorem mapGet_buildContext (event : HookEvent) (params : GoMap Value)
    (hpn : (params.map Prod.fst).Nodup) (htn : (event.ToolInput.map Prod.fst).Nodup)
    (k : Str) :
    mapGet (buildContext event params) k
      = ((mapGet params k).map sprint).or
          (((mapGet event.ToolInput k).map sprint).or
            (if "session_id".toList = k then some event.SessionID
             else if "tool_name".toList = k then some event.ToolName else none)) := by
  unfold buildContext
  rw [mapGet_foldl_sprint params hpn, mapGet_foldl_sprint event.ToolInput htn,
    mapGet_mapSet, mapGet_mapSet]
  rfl

/-- C20: for every event and parameter map (Go maps, one entry per key) and
every key `k` without braces, rendering the template `{{k}}` yields the text
of `params[k]` when the parameters define `k`; otherwise the text of
`tool_input[k]` when the tool input defines `k`; otherwise the tool name for
`k` = "tool_name" and the session id for `k` = "session_id"; each provided
the value selected contains no `{{`, and in whatever order the context is
visited. A parameter thus wins over an event value of the same key. -/
theorem c20_template_context_precedence (lib : GoLib) (event : HookEvent)
    (params : GoMap Value) (k : Str) (hk : BraceFree k)
    (hpn : (params.map Prod.fst).Nodup) (htn : (event.ToolInput.map Prod.fst).Nodup) :
    (∀ v, mapGet params k = some v →
      stringsContains (sprint v) "\x7b\x7b".toList = false →
      renderTemplate lib ("\x7b\x7b".toList ++ k ++ "\x7d\x7d".toList) event params
        = sprint v) ∧
    (mapGet params k = none → ∀ v, mapGet event.ToolInput k = some v →
      stringsContains (sprint v) "\x7b\x7b".toList = false →
      renderTemplate lib ("\x7b\x7b".toList ++ k ++ "\x7d\x7d".toList) event params
        = sprint v) ∧
    (mapGet params k = none → mapGet event.ToolInput k = none → k = "tool_name".toList →
      stringsContains event.ToolName "\x7b\x7b".toList = false →
      renderTemplate lib ("\x7b\x7b".toList ++ k ++ "\x7d\x7d".toList) event params
        = event.ToolName) ∧
    (mapGet params k = none → mapGet event.ToolInput k = none → k = "session_id".toList →
      stringsContains event.SessionID "\x7b\x7b".toList = false →
      renderTemplate lib ("\x7b\x7b".toList ++ k ++ "\x7d\x7d".toList) event params
        = event.SessionID) := by
  have hctx := mapGet_buildContext event params hpn htn k
  refine ⟨?_, ?_, ?_, ?_⟩
  · intro v hp hv
    apply renderTemplate_key lib event params k _ hk _ hv
    rw [hctx, hp]
    rfl
  · intro hp v ht hv
    apply renderTemplate_key lib event params k _ hk _ hv
    rw [hctx, hp, ht]
    rfl
  · intro hp ht hkey hv
    apply renderTemplate_key lib event params k _ hk _ hv
    rw [hctx, hp, ht, hkey]
    rfl
  · intro hp ht hkey hv
    apply renderTemplate_key lib event params k _ hk _ hv
    rw [hctx, hp, ht, hkey]
    rfl

/-- C20 on the scenario's event: `{{path}}` renders to the parameter `path`
when the action has one and to the path of the tool input otherwise, and
`{{tool_name}}` renders to the tool name. -/
theorem c20_template_context_precedence_witness :
    renderTemplate sampleLib "\x7b\x7bpath\x7d\x7d".toList deleteEvent
        [("path".toList, Value.str "from the action".toList)] = "from the action".toList ∧
    renderTemplate sampleLib "\x7b\x7bpath\x7d\x7d".toList deleteEvent []
        = "/etc/passwd".toList ∧
    renderTemplate sampleLib "\x7b\x7btool_name\x7d\x7d".toList deleteEvent []
        = "delete_file".toList :=
  ⟨(c20_template_context_precedence sampleLib deleteEvent
      [("path".toList, Value.str "from the action".toList)] "path".toList
      ⟨by decide, by decide⟩ (by decide) (by decide)).1
      (Value.str "from the action".toList) rfl (by decide),
   (c20_template_context_precedence sampleLib deleteEvent [] "path".toList
      ⟨by decide, by decide⟩ (by decide) (by decide)).2.1
      rfl (Value.str "/etc/passwd".toList) rfl (by decide),
   (c20_template_context_precedence sampleLib deleteEvent [] "tool_name".toList
      ⟨by decide, by decide⟩ (by decide) (by decide)).2.2.1
      rfl rfl rfl (by decide)⟩

/-! ## C21: one level of nested reference -/

/-- A pass is the fold of `renderStep` over the entries. -/
theorem renderPass_eq_foldl (l : GoMap Str) (t : Str) :
    renderPass l t = l.foldl renderStep (t, false) := by
  rfl

/-- A text contains what it begins with. -/
theorem stringsContains_start (s w : Str) : stringsContains (s ++ w) s = true := by
  cases hsw : s ++ w with
  | nil =>
    have hs : s = [] := (List.append_eq_nil.mp hsw).1
    rw [hs]
    rfl
  | cons c cs =>
    rw [stringsContains, ← hsw]
    have hp : s.isPrefixOf (s ++ w) = true :=
      List.isPrefixOf_iff_prefix.mpr (List.prefix_append s w)
    rw [hp]
    rfl

/-- A text contains what its tail contains. -/
theorem stringsContains_append_left (u t s : Str) (h : stringsContains t s = true) :
    stringsContains (u ++ t) s = true := by
  induction u with
  | nil => exact h
  | cons c cs ih =>
    show stringsContains (c :: (cs ++ t)) s = true
    rw [stringsContains, ih]
    exact Bool.or_true _

/-- A text with one placeholder contains that placeholder. -/
theorem stringsContains_single_self (u c w : Str) :
    stringsContains (u ++ ("\x7b\x7b".toList ++ c ++ "\x7d\x7d".toList) ++ w)
      ("\x7b\x7b".toList ++ c ++ "\x7d\x7d".toList) = true := by
  rw [List.append_assoc]
  exact stringsContains_append_left u _ _ (stringsContains_start _ w)

/-- After a key without braces and its closing braces comes text without
braces: a key whose closing braces fit as a prefix is that key. -/
theorem key_eq_of_prefix_append (k c w : Str) (hc : BraceFree c) (hw : BraceFree w)
    (h : (k ++ ['\x7d', '\x7d']).isPrefixOf (c ++ ['\x7d', '\x7d'] ++ w) = true) : k = c := by
  rw [List.isPrefixOf_iff_prefix] at h
  obtain ⟨t, ht⟩ := h
  rw [List.append_assoc, List.append_assoc] at ht
  rcases List.append_eq_append_iff.mp ht with ⟨a, h1, h2⟩ | ⟨a, h1, h2⟩
  · cases a with
    | nil => rw [List.append_nil] at h1; exact h1.symm
    | cons x xs =>
      have hx : '\x7d' = x := by
        have h3 := congrArg List.head? h2
        simpa using h3
      have hmem : '\x7d' ∈ c := by
        rw [h1, hx]
        exact List.mem_append_right _ (List.mem_cons_self _ _)
      exact absurd hmem hc.2
  · cases a with
    | nil => rw [List.append_nil] at h1; exact h1
    | cons x xs =>
      have hmem : '\x7d' ∈ w := by
        have h3 := congrArg (List.drop 2) h2
        cases xs with
        | nil =>
          have h4 : w = '\x7d' :: t := by simpa using h3
          rw [h4]
          exact List.mem_cons_self _ _
        | cons y ys =>
          have h4 : w = ys ++ '\x7d' :: '\x7d' :: t := by simpa using h3
          rw [h4]
          exact List.mem_append_right _ (List.mem_cons_self _ _)
      exact absurd hmem hw.2

/-- A text with one placeholder, of a key without braces, among text without
braces contains the placeholder of no other key. -/
theorem key_eq_of_stringsContains_single (u c w k : Str) (hu : BraceFree u)
    (hc : BraceFree c) (hw : BraceFree w)
    (h : stringsContains (u ++ ("\x7b\x7b".toList ++ c ++ "\x7d\x7d".toList) ++ w)
      ("\x7b\x7b".toList ++ k ++ "\x7d\x7d".toList) = true) : k = c := by
  rw [placeholder_eq, placeholder_eq] at h
  have hrest : '\x7b' ∉ c ++ ['\x7d', '\x7d'] ++ w := by
    intro hm
    rcases List.mem_append.mp hm with h1 | h1
    · rcases List.mem_append.mp h1 with h2 | h2
      · exact hc.1 h2
      · revert h2; decide
    · exact hw.1 h1
  induction u with
  | nil =>
    have h0 : stringsContains ('\x7b' :: '\x7b' :: (c ++ ['\x7d', '\x7d'] ++ w))
        ('\x7b' :: '\x7b' :: (k ++ ['\x7d', '\x7d'])) = true := by
      simpa using h
    rw [stringsContains, Bool.or_eq_true] at h0
    rcases h0 with h1 | h1
    · have h2 : (k ++ ['\x7d', '\x7d']).isPrefixOf (c ++ ['\x7d', '\x7d'] ++ w) = true := by
        simpa [List.isPrefixOf] using h1
      exact key_eq_of_prefix_append k c w hc hw h2
    · rw [stringsContains, Bool.or_eq_true] at h1
      rcases h1 with h2 | h2
      · have h3 : ('\x7b' :: (k ++ ['\x7d', '\x7d'])).isPrefixOf (c ++ ['\x7d', '\x7d'] ++ w)
            = true := by
          simpa [List.isPrefixOf] using h2
        rw [isPrefixOf_cons_of_not_mem _ _ _ hrest] at h3
        cases h3
      · rw [stringsContains_cons_of_not_mem _ _ _ hrest] at h2
        cases h2
  | cons d ds ih =>
    have hd : ¬ '\x7b' = d := fun he => hu.1 (by rw [he]; exact List.mem_cons_self _ _)
    have hds : BraceFree ds :=
      ⟨fun hm => hu.1 (List.mem_cons_of_mem _ hm), fun hm => hu.2 (List.mem_cons_of_mem _ hm)⟩
    have h0 : stringsContains
        (d :: (ds ++ '\x7b' :: '\x7b' :: (c ++ ['\x7d', '\x7d']) ++ w))
        ('\x7b' :: '\x7b' :: (k ++ ['\x7d', '\x7d'])) = true := h
    rw [stringsContains, Bool.or_eq_true] at h0
    rcases h0 with h1 | h1
    · simp [List.isPrefixOf, hd] at h1
    · exact ih hds h1

/-- The replacement loop leaves a text as it is when the text lacks the first
character of what is searched. -/
theorem replaceAllAux_of_not_mem (c : Char) (o new : Str) (n : Nat) (w : Str)
    (h : c ∉ w) : replaceAllAux (c :: o) new n w = w := by
  induction w generalizing n with
  | nil => exact replaceAllAux_nil _ _ n
  | cons d ds ih =>
    cases n with
    | zero => rfl
    | succ m =>
      have hds : c ∉ ds := fun hm => h (List.mem_cons_of_mem _ hm)
      rw [replaceAllAux, isPrefixOf_cons_of_not_mem c o (d :: ds) h]
      simp only [Bool.false_eq_true, if_false]
      rw [ih m hds]

/-- The replacement loop on a text with one occurrence of what is searched,
among text that lacks its first character. -/
theorem replaceAllAux_single (c : Char) (o new u w : Str) (n : Nat)
    (hu : c ∉ u) (hw : c ∉ w) (hn : u.length + 1 ≤ n) :
    replaceAllAux (c :: o) new n (u ++ (c :: o) ++ w) = u ++ new ++ w := by
  induction u generalizing n with
  | nil =>
    cases n with
    | zero => omega
    | succ m =>
      have hp : (c :: o).isPrefixOf (c :: (o ++ w)) = true :=
        List.isPrefixOf_iff_prefix.mpr (List.prefix_append (c :: o) w)
      have hd : List.drop (c :: o).length (c :: (o ++ w)) = w :=
        List.drop_left (c :: o) w
      show replaceAllAux (c :: o) new (m + 1) (c :: (o ++ w)) = [] ++ new ++ w
      rw [replaceAllAux, if_pos hp, hd, replaceAllAux_of_not_mem c o new m w hw]
      rfl
  | cons d ds ih =>
    cases n with
    | zero => omega
    | succ m =>
      have hds : c ∉ ds := fun hm => hu (List.mem_cons_of_mem _ hm)
      have hd : ¬ c = d := fun he => hu (by rw [he]; exact List.mem_cons_self _ _)
      have hp : (c :: o).isPrefixOf (d :: (ds ++ (c :: o) ++ w)) = false := by
        simp [List.isPrefixOf, hd]
      show replaceAllAux (c :: o) new (m + 1) (d :: (ds ++ (c :: o) ++ w))
        = d :: (ds ++ new ++ w)
      rw [replaceAllAux, hp]
      simp only [Bool.false_eq_true, if_false]
      rw [ih m hds (by simp at hn; omega)]

/-- Replacing the one placeholder of a text whose other parts have no opening
brace puts the value in its place. -/
theorem stringsReplaceAll_single (u c w v : Str) (hu : '\x7b' ∉ u) (hw : '\x7b' ∉ w) :
    stringsReplaceAll (u ++ ("\x7b\x7b".toList ++ c ++ "\x7d\x7d".toList) ++ w)
      ("\x7b\x7b".toList ++ c ++ "\x7d\x7d".toList) v = u ++ v ++ w := by
  rw [placeholder_eq]
  unfold stringsReplaceAll
  simp only [List.isEmpty_cons, Bool.false_eq_true, if_false]
  apply replaceAllAux_single _ _ _ _ _ _ hu hw
  simp

/-- A step on an entry whose placeholder the text lacks changes nothing. -/
theorem renderStep_miss (acc : Str × Bool) (kv : Str × Str)
    (h : stringsContains acc.1 ("\x7b\x7b".toList ++ kv.1 ++ "\x7d\x7d".toList) = false) :
    renderStep acc kv = acc := by
  unfold renderStep
  rw [h]
  rfl

/-- A step on an entry whose placeholder the text has replaces it. -/
theorem renderStep_hit (acc : Str × Bool) (kv : Str × Str)
    (h : stringsContains acc.1 ("\x7b\x7b".toList ++ kv.1 ++ "\x7d\x7d".toList) = true) :
    renderStep acc kv
      = (stringsReplaceAll acc.1 ("\x7b\x7b".toList ++ kv.1 ++ "\x7d\x7d".toList) kv.2,
          true) := by
  unfold renderStep
  rw [h]
  rfl

/-- A text without opening brace has no `{{`. -/
theorem stringsContains_open_false (r : Str) (h : '\x7b' ∉ r) :
    stringsContains r "\x7b\x7b".toList = false :=
  stringsContains_cons_of_not_mem '\x7b' ['\x7b'] r h

/-- The steps over any entries leave a text without opening brace as it
is. -/
theorem foldl_renderStep_fixed (r : Str) (h : '\x7b' ∉ r) (l : GoMap Str) (b : Bool) :
    l.foldl renderStep (r, b) = (r, b) :=
  foldl_render_fixed r (stringsContains_open_false r h) l b

/-- The steps over entries of other keys leave a text with one placeholder
as it is. -/
theorem foldl_renderStep_other (u c w : Str) (hu : BraceFree u) (hc : BraceFree c)
    (hw : BraceFree w) (l : GoMap Str) (b : Bool) (hl : ∀ kv ∈ l, kv.1 ≠ c) :
    l.foldl renderStep (u ++ ("\x7b\x7b".toList ++ c ++ "\x7d\x7d".toList) ++ w, b)
      = (u ++ ("\x7b\x7b".toList ++ c ++ "\x7d\x7d".toList) ++ w, b) := by
  induction l with
  | nil => rfl
  | cons kv rest ih =>
    have hne : kv.1 ≠ c := hl kv (List.mem_cons_self kv rest)
    have hm : stringsContains
        (u ++ ("\x7b\x7b".toList ++ c ++ "\x7d\x7d".toList) ++ w, b).1
        ("\x7b\x7b".toList ++ kv.1 ++ "\x7d\x7d".toList) = false := by
      cases h : stringsContains
          (u ++ ("\x7b\x7b".toList ++ c ++ "\x7d\x7d".toList) ++ w, b).1
          ("\x7b\x7b".toList ++ kv.1 ++ "\x7d\x7d".toList) with
      | false => rfl
      | true => exact absurd (key_eq_of_stringsContains_single u c w kv.1 hu hc hw h) hne
    rw [List.foldl_cons, renderStep_miss _ kv hm]
    exact ih (fun x hx => hl x (List.mem_cons_of_mem kv hx))

/-- The steps over entries of which the first of key `c` holds `v`: the one
placeholder of the text is replaced by `v`, and the steps go on from
there. -/
theorem foldl_renderStep_first (u c w v : Str) (hu : BraceFree u) (hc : BraceFree c)
    (hw : BraceFree w) (l1 l2 : GoMap Str) (b : Bool) (hl : ∀ kv ∈ l1, kv.1 ≠ c) :
    (l1 ++ (c, v) :: l2).foldl renderStep
        (u ++ ("\x7b\x7b".toList ++ c ++ "\x7d\x7d".toList) ++ w, b)
      = l2.foldl renderStep (u ++ v ++ w, true) := by
  rw [List.foldl_append, foldl_renderStep_other u c w hu hc hw l1 b hl, List.foldl_cons,
    renderStep_hit _ (c, v) (stringsContains_single_self u c w)]
  show l2.foldl renderStep
    (stringsReplaceAll (u ++ ("\x7b\x7b".toList ++ c ++ "\x7d\x7d".toList) ++ w)
      ("\x7b\x7b".toList ++ c ++ "\x7d\x7d".toList) v, true) = _
  rw [stringsReplaceAll_single u c w v hu.1 hw.1]

/-- Either no entry has the key, or there is a first entry that has it. -/
theorem exists_first_key (c : Str) (l : GoMap Str) :
    (∀ kv ∈ l, kv.1 ≠ c) ∨
    ∃ l1 v l2, l = l1 ++ (c, v) :: l2 ∧ ∀ kv ∈ l1, kv.1 ≠ c := by
  induction l with
  | nil => exact Or.inl (fun kv hkv => absurd hkv (List.not_mem_nil kv))
  | cons e rest ih =>
    by_cases he : e.1 = c
    · refine Or.inr ⟨[], e.2, rest, ?_, fun kv hkv => absurd hkv (List.not_mem_nil kv)⟩
      rw [← he]
      rfl
    · rcases ih with h | ⟨l1, v, l2, hl, hn⟩
      · left
        intro kv hkv
        rcases List.mem_cons.mp hkv with h1 | h1
        · rw [h1]; exact he
        · exact h kv h1
      · right
        refine ⟨e :: l1, v, l2, by rw [hl]; rfl, ?_⟩
        intro kv hkv
        rcases List.mem_cons.mp hkv with h1 | h1
        · rw [h1]; exact he
        · exact hn kv h1

/-- In every visiting order of a context with one entry per key, the entries
of a key that reads as `v` hold `v`, and there is one. -/
theorem order_entries (lib : GoLib) (context : GoMap Str)
    (hnd : (context.map Prod.fst).Nodup) (k v : Str) (hget : mapGet context k = some v)
    (pass : Nat) :
    (∀ kv ∈ lib.mapOrder pass context, kv.1 = k → kv.2 = v) ∧
    ∃ kv ∈ lib.mapOrder pass context, kv.1 = k := by
  have hperm := lib.mapOrder_perm pass context
  constructor
  · intro kv hkv hkey
    have hmem : (kv.1, kv.2) ∈ context := hperm.mem_iff.mp hkv
    have h2 := mapGet_of_mem _ hnd kv.1 kv.2 hmem
    rw [hkey, hget] at h2
    exact (Option.some.inj h2).symm
  · exact ⟨(k, v), hperm.mem_iff.mpr (mem_of_mapGet _ k v hget), rfl⟩

/-- Text without braces put together has no braces. -/
theorem braceFree_append (u w : Str) (hu : BraceFree u) (hw : BraceFree w) :
    BraceFree (u ++ w) := by
  constructor
  · intro hm
    rcases List.mem_append.mp hm with h | h
    · exact hu.1 h
    · exact hw.1 h
  · intro hm
    rcases List.mem_append.mp hm with h | h
    · exact hu.2 h
    · exact hw.2 h

/-- A pass over a text with one placeholder whose key reads as `v`, a text
without braces: the placeholder is replaced. -/
theorem renderPass_single (u c w v : Str) (hu : BraceFree u) (hc : BraceFree c)
    (hw : BraceFree w) (hv : BraceFree v) (l : GoMap Str) (b : Bool)
    (huniq : ∀ kv ∈ l, kv.1 = c → kv.2 = v) (hex : ∃ kv ∈ l, kv.1 = c) :
    l.foldl renderStep (u ++ ("\x7b\x7b".toList ++ c ++ "\x7d\x7d".toList) ++ w, b)
      = (u ++ v ++ w, true) := by
  rcases exists_first_key c l with hno | ⟨l1, v2, l2, hl, hl1⟩
  · obtain ⟨kv, hkv, hk⟩ := hex
    exact absurd hk (hno kv hkv)
  · have hv2 : v2 = v := huniq (c, v2) (by rw [hl]; simp) rfl
    rw [hl, foldl_renderStep_first u c w v2 hu hc hw l1 l2 b hl1, hv2]
    exact foldl_renderStep_fixed _
      (braceFree_append _ _ (braceFree_append _ _ hu hv) hw).1 l2 true

/-- C21: let the context map the key `a` to `p ++ {{b}} ++ s` and the key
`b` to `vb`, where `a` and `b` are distinct keys and `a`, `b`, `p`, `s` and
`vb` have no braces; on the template `x ++ {{a}} ++ y`, where `x` and `y`
have no braces, `renderTemplate` returns `x ++ p ++ vb ++ s ++ y`, in
whatever order the context is visited in each pass. -/
theorem c21_nested_reference (lib : GoLib) (event : HookEvent) (params : GoMap Value)
    (a b p s vb x y : Str)
    (ha : BraceFree a) (hb : BraceFree b) (_hab : a ≠ b)
    (hp : BraceFree p) (hs : BraceFree s) (hvb : BraceFree vb)
    (hx : BraceFree x) (hy : BraceFree y)
    (hga : mapGet (buildContext event params) a
      = some (p ++ ("\x7b\x7b".toList ++ b ++ "\x7d\x7d".toList) ++ s))
    (hgb : mapGet (buildContext event params) b = some vb) :
    renderTemplate lib (x ++ ("\x7b\x7b".toList ++ a ++ "\x7d\x7d".toList) ++ y) event params
      = x ++ p ++ vb ++ s ++ y := by
  have hnd := nodup_keys_buildContext event params
  have hxp : BraceFree (x ++ p) := braceFree_append x p hx hp
  have hsy : BraceFree (s ++ y) := braceFree_append s y hs hy
  have hS2 : '\x7b' ∉ x ++ p ++ vb ++ (s ++ y) :=
    (braceFree_append _ _ (braceFree_append _ _ hxp hvb) hsy).1
  have hfinal : x ++ p ++ vb ++ (s ++ y) = x ++ p ++ vb ++ s ++ y := by
    simp [List.append_assoc]
  have hS1 : x ++ (p ++ ("\x7b\x7b".toList ++ b ++ "\x7d\x7d".toList) ++ s) ++ y
      = x ++ p ++ ("\x7b\x7b".toList ++ b ++ "\x7d\x7d".toList) ++ (s ++ y) := by
    simp [List.append_assoc]
  -- a pass that starts from the template
  have pass0 : ∀ pass,
      renderPass (lib.mapOrder pass (buildContext event params))
        (x ++ ("\x7b\x7b".toList ++ a ++ "\x7d\x7d".toList) ++ y)
        = (x ++ p ++ ("\x7b\x7b".toList ++ b ++ "\x7d\x7d".toList) ++ (s ++ y), true) ∨
      renderPass (lib.mapOrder pass (buildContext event params))
        (x ++ ("\x7b\x7b".toList ++ a ++ "\x7d\x7d".toList) ++ y)
        = (x ++ p ++ vb ++ (s ++ y), true) := by
    intro pass
    obtain ⟨hua, hea⟩ := order_entries lib _ hnd a _ hga pass
    obtain ⟨hub, _⟩ := order_entries lib _ hnd b _ hgb pass
    rw [renderPass_eq_foldl]
    rcases exists_first_key a (lib.mapOrder pass (buildContext event params))
      with hno | ⟨l1, v2, l2, hl, hl1⟩
    · obtain ⟨kv, hkv, hk⟩ := hea
      exact absurd hk (hno kv hkv)
    · have hv2 : v2 = p ++ ("\x7b\x7b".toList ++ b ++ "\x7d\x7d".toList) ++ s :=
        hua (a, v2) (by rw [hl]; simp) rfl
      have hub2 : ∀ kv ∈ l2, kv.1 = b → kv.2 = vb := by
        intro kv hkv
        apply hub kv
        rw [hl]
        exact List.mem_append_right _ (List.mem_cons_of_mem _ hkv)
      rw [hl, foldl_renderStep_first x a y v2 hx ha hy l1 l2 false hl1, hv2, hS1]
      rcases exists_first_key b l2 with hnb | ⟨m1, v3, m2, hm, hm1⟩
      · left
        exact foldl_renderStep_other (x ++ p) b (s ++ y) hxp hb hsy l2 true hnb
      · right
        have hv3 : v3 = vb := hub2 (b, v3) (by rw [hm]; simp) rfl
        rw [hm, foldl_renderStep_first (x ++ p) b (s ++ y) v3 hxp hb hsy m1 m2 true hm1, hv3]
        exact foldl_renderStep_fixed _ hS2 m2 true
  -- a pass that starts after `a` was replaced
  have pass1 : ∀ pass,
      renderPass (lib.mapOrder pass (buildContext event params))
        (x ++ p ++ ("\x7b\x7b".toList ++ b ++ "\x7d\x7d".toList) ++ (s ++ y))
        = (x ++ p ++ vb ++ (s ++ y), true) := by
    intro pass
    obtain ⟨hub, heb⟩ := order_entries lib _ hnd b _ hgb pass
    rw [renderPass_eq_foldl]
    exact renderPass_single (x ++ p) b (s ++ y) vb hxp hb hsy hvb _ false hub heb
  -- a pass that starts from the final text
  have pass2 : ∀ pass,
      renderPass (lib.mapOrder pass (buildContext event params)) (x ++ p ++ vb ++ (s ++ y))
        = (x ++ p ++ vb ++ (s ++ y), false) := by
    intro pass
    rw [renderPass_eq_foldl]
    exact foldl_renderStep_fixed _ hS2 _ false
  rw [← hfinal]
  unfold renderTemplate
  rw [renderPasses]
  rcases pass0 0 with h0 | h0
  · simp only [h0, if_true]
    rw [renderPasses]
    simp only [pass1 1, if_true]
    rw [renderPasses]
    simp only [pass2 2, Bool.false_eq_true, if_false]
  · simp only [h0, if_true]
    rw [renderPasses]
    simp only [pass2 1, Bool.false_eq_true, if_false]

/-- C21 on the scenario's event with the parameters `a` = "see {{b}}!" and
`b` = "B" and the template "<{{a}}>": the message is "<see B!>". -/
theorem c21_nested_reference_witness :
    renderTemplate sampleLib "<\x7b\x7ba\x7d\x7d>".toList deleteEvent
        [("a".toList, Value.str "see \x7b\x7bb\x7d\x7d!".toList),
         ("b".toList, Value.str "B".toList)]
      = "<see B!>".toList :=
  c21_nested_reference sampleLib deleteEvent
    [("a".toList, Value.str "see \x7b\x7bb\x7d\x7d!".toList),
     ("b".toList, Value.str "B".toList)]
    "a".toList "b".toList "see ".toList "!".toList "B".toList "<".toList ">".toList
    ⟨by decide, by decide⟩ ⟨by decide, by decide⟩ (by decide)
    ⟨by decide, by decide⟩ ⟨by decide, by decide⟩ ⟨by decide, by decide⟩
    ⟨by decide, by decide⟩ ⟨by decide, by decide⟩ rfl rfl

/-! ## C22: rendering and the visiting order -/

/-- C22, as stated, fails in three ways in which the last-to-first order of
the context gives another message than the first-to-last order. With the
parameters `a` = "{{b}}", `b` = "{{c}}", `c` = "{{d}}" and `d` = "end", the
template "{{a}}" renders to "end" and to "{{d}}": three levels of nesting
use up the three passes. With the parameters `a` = "x", `b` = "y" and a key
with braces, `a}}{{b` = "z", the template "{{a}}{{b}}" renders to "xy" and
to "z". With the parameters `a` = "b", `b` = "c", `c` = "d" and `d` = "e",
whose values have no brace, the template "{{{{{{{{a}}}}}}}}" renders to "e"
and to "{{d}}": the braces around a placeholder make placeholders anew. -/
theorem c22_order_changes_message :
    (renderTemplate sampleLib "\x7b\x7ba\x7d\x7d".toList deleteEvent
        [("a".toList, Value.str "\x7b\x7bb\x7d\x7d".toList),
         ("b".toList, Value.str "\x7b\x7bc\x7d\x7d".toList),
         ("c".toList, Value.str "\x7b\x7bd\x7d\x7d".toList),
         ("d".toList, Value.str "end".toList)] = "end".toList ∧
      renderTemplate reverseLib "\x7b\x7ba\x7d\x7d".toList deleteEvent
        [("a".toList, Value.str "\x7b\x7bb\x7d\x7d".toList),
         ("b".toList, Value.str "\x7b\x7bc\x7d\x7d".toList),
         ("c".toList, Value.str "\x7b\x7bd\x7d\x7d".toList),
         ("d".toList, Value.str "end".toList)] = "\x7b\x7bd\x7d\x7d".toList) ∧
    (renderTemplate sampleLib "\x7b\x7ba\x7d\x7d\x7b\x7bb\x7d\x7d".toList deleteEvent
        [("a".toList, Value.str "x".toList), ("b".toList, Value.str "y".toList),
         ("a\x7d\x7d\x7b\x7bb".toList, Value.str "z".toList)] = "xy".toList ∧
      renderTemplate reverseLib "\x7b\x7ba\x7d\x7d\x7b\x7bb\x7d\x7d".toList deleteEvent
        [("a".toList, Value.str "x".toList), ("b".toList, Value.str "y".toList),
         ("a\x7d\x7d\x7b\x7bb".toList, Value.str "z".toList)] = "z".toList) ∧
    (renderTemplate sampleLib
        "\x7b\x7b\x7b\x7b\x7b\x7b\x7b\x7ba\x7d\x7d\x7d\x7d\x7d\x7d\x7d\x7d".toList deleteEvent
        [("a".toList, Value.str "b".toList), ("b".toList, Value.str "c".toList),
         ("c".toList, Value.str "d".toList), ("d".toList, Value.str "e".toList)] = "e".toList ∧
      renderTemplate reverseLib
        "\x7b\x7b\x7b\x7b\x7b\x7b\x7b\x7ba\x7d\x7d\x7d\x7d\x7d\x7d\x7d\x7d".toList deleteEvent
        [("a".toList, Value.str "b".toList), ("b".toList, Value.str "c".toList),
         ("c".toList, Value.str "d".toList), ("d".toList, Value.str "e".toList)]
        = "\x7b\x7bd\x7d\x7d".toList) := by
  decide

/-- The replacement loop does not depend on the fuel once the fuel covers the
length of the text. -/
theorem replaceAllAux_fuel (old new : Str) (hold : old ≠ []) :
    ∀ (n : Nat) (s : Str), s.length ≤ n →
      replaceAllAux old new n s = replaceAllAux old new s.length s := by
  intro n
  induction n using Nat.strong_induction_on with
  | _ n ih =>
    intro s hs
    cases s with
    | nil => rw [replaceAllAux_nil, replaceAllAux_nil]
    | cons c cs =>
      cases n with
      | zero => simp at hs
      | succ m =>
        have hm : cs.length ≤ m := by simpa using hs
        have hdrop : (List.drop old.length (c :: cs)).length ≤ cs.length := by
          cases old with
          | nil => exact absurd rfl hold
          | cons o os =>
            simp only [List.length_cons, List.drop_succ_cons, List.length_drop]
            omega
        show replaceAllAux old new (m + 1) (c :: cs)
          = replaceAllAux old new (cs.length + 1) (c :: cs)
        rw [replaceAllAux, replaceAllAux]
        split
        · rw [ih m (Nat.lt_succ_self m) _ (le_trans hdrop hm)]
          rw [ih cs.length (Nat.lt_succ_of_le hm) _ hdrop]
        · rw [ih m (Nat.lt_succ_self m) cs hm]

/-- Replacing a placeholder in a text that does not begin with it keeps the
first character and goes on with the rest. -/
theorem stringsReplaceAll_cons_miss (k v : Str) (c : Char) (cs : Str)
    (h : ("\x7b\x7b".toList ++ k ++ "\x7d\x7d".toList).isPrefixOf (c :: cs) = false) :
    stringsReplaceAll (c :: cs) ("\x7b\x7b".toList ++ k ++ "\x7d\x7d".toList) v
      = c :: stringsReplaceAll cs ("\x7b\x7b".toList ++ k ++ "\x7d\x7d".toList) v := by
  have hne : ("\x7b\x7b".toList ++ k ++ "\x7d\x7d".toList).isEmpty = false := by
    rw [placeholder_eq]; rfl
  unfold stringsReplaceAll
  simp only [hne, Bool.false_eq_true, if_false, List.length_cons]
  rw [replaceAllAux, h]
  simp only [Bool.false_eq_true, if_false]

/-- Replacing a placeholder in a text that begins with it puts the value
first and goes on with the rest. -/
theorem stringsReplaceAll_hit (k v rest : Str) :
    stringsReplaceAll (("\x7b\x7b".toList ++ k ++ "\x7d\x7d".toList) ++ rest)
        ("\x7b\x7b".toList ++ k ++ "\x7d\x7d".toList) v
      = v ++ stringsReplaceAll rest ("\x7b\x7b".toList ++ k ++ "\x7d\x7d".toList) v := by
  have hne : ("\x7b\x7b".toList ++ k ++ "\x7d\x7d".toList).isEmpty = false := by
    rw [placeholder_eq]; rfl
  have hne2 : "\x7b\x7b".toList ++ k ++ "\x7d\x7d".toList ≠ [] := by
    rw [placeholder_eq]; exact List.cons_ne_nil _ _
  have hp : ("\x7b\x7b".toList ++ k ++ "\x7d\x7d".toList).isPrefixOf
      (("\x7b\x7b".toList ++ k ++ "\x7d\x7d".toList) ++ rest) = true :=
    List.isPrefixOf_iff_prefix.mpr (List.prefix_append _ rest)
  have hd : List.drop ("\x7b\x7b".toList ++ k ++ "\x7d\x7d".toList).length
      (("\x7b\x7b".toList ++ k ++ "\x7d\x7d".toList) ++ rest) = rest :=
    List.drop_left _ rest
  unfold stringsReplaceAll
  simp only [hne, Bool.false_eq_true, if_false]
  cases hs : ("\x7b\x7b".toList ++ k ++ "\x7d\x7d".toList) ++ rest with
  | nil =>
    exact absurd (List.append_eq_nil.mp hs).1 hne2
  | cons c cs =>
    rw [hs] at hp hd
    have hlen : rest.length ≤ cs.length := by
      have h1 := congrArg List.length hs
      rw [placeholder_eq] at h1
      simp at h1
      omega
    rw [List.length_cons, replaceAllAux, if_pos hp, hd,
      replaceAllAux_fuel _ v hne2 cs.length rest hlen]

/-- A text without opening brace is a text in which no placeholder begins. -/
theorem noOpening_of_not_mem (t : Str) (ht : '\x7b' ∉ t) : NoOpening t := by
  constructor
  · induction t with
    | nil => rfl
    | cons d ds ih =>
      have hd : ¬ '\x7b' = d := fun he => ht (by rw [he]; exact List.mem_cons_self _ _)
      have hds : '\x7b' ∉ ds := fun hm => ht (List.mem_cons_of_mem _ hm)
      rw [stringsContains, ih hds]
      simp [List.isPrefixOf, hd]
  · intro h
    exact ht (List.mem_of_getLast?_eq_some h)

/-- The rest of a text in which no placeholder begins is such a text, and
the text does not begin with two opening braces nor is it one opening
brace. -/
theorem noOpening_cons (d : Char) (ds : Str) (h : NoOpening (d :: ds)) :
    NoOpening ds ∧ (d = '\x7b' → ∃ e es, ds = e :: es ∧ e ≠ '\x7b') := by
  obtain ⟨h1, h2⟩ := h
  rw [stringsContains, Bool.or_eq_false_iff] at h1
  cases ds with
  | nil =>
    refine ⟨⟨rfl, fun he => nomatch he⟩, fun hd => ?_⟩
    rw [hd] at h2
    exact absurd rfl h2
  | cons e es =>
    refine ⟨⟨h1.2, ?_⟩, fun hd => ⟨e, es, rfl, ?_⟩⟩
    · rw [List.getLast?_cons_cons] at h2
      exact h2
    · intro he
      rw [hd, he] at h1
      exact absurd h1.1 (by simp [List.isPrefixOf])

/-- Replacing a placeholder passes over a text in which no placeholder
begins. -/
theorem stringsReplaceAll_text (k v t rest : Str) (ht : NoOpening t) :
    stringsReplaceAll (t ++ rest) ("\x7b\x7b".toList ++ k ++ "\x7d\x7d".toList) v
      = t ++ stringsReplaceAll rest ("\x7b\x7b".toList ++ k ++ "\x7d\x7d".toList) v := by
  induction t with
  | nil => rfl
  | cons d ds ih =>
    obtain ⟨hds, hd⟩ := noOpening_cons d ds ht
    have hp : ("\x7b\x7b".toList ++ k ++ "\x7d\x7d".toList).isPrefixOf (d :: (ds ++ rest))
        = false := by
      rw [placeholder_eq]
      by_cases hdb : d = '\x7b'
      · obtain ⟨e, es, hes, he⟩ := hd hdb
        have he2 : ¬ '\x7b' = e := fun h => he h.symm
        rw [hes]
        simp [List.isPrefixOf, he2]
      · have hdb2 : ¬ '\x7b' = d := fun h => hdb h.symm
        simp [List.isPrefixOf, hdb2]
    show stringsReplaceAll (d :: (ds ++ rest)) _ v = d :: (ds ++ _)
    rw [stringsReplaceAll_cons_miss k v d _ hp, ih hds]

/-- Two keys without braces whose closing braces fit as a prefix are the
same key, whatever follows. -/
theorem key_eq_of_prefix_any (k c rest : Str) (hk : BraceFree k) (hc : BraceFree c)
    (h : (k ++ ['\x7d', '\x7d']).isPrefixOf (c ++ ['\x7d', '\x7d'] ++ rest) = true) :
    k = c := by
  rw [List.isPrefixOf_iff_prefix] at h
  obtain ⟨t, ht⟩ := h
  rw [List.append_assoc, List.append_assoc] at ht
  rcases List.append_eq_append_iff.mp ht with ⟨a, h1, h2⟩ | ⟨a, h1, h2⟩
  · cases a with
    | nil => rw [List.append_nil] at h1; exact h1.symm
    | cons x xs =>
      have hx : '\x7d' = x := by
        have h3 := congrArg List.head? h2
        simpa using h3
      have hmem : '\x7d' ∈ c := by
        rw [h1, hx]
        exact List.mem_append_right _ (List.mem_cons_self _ _)
      exact absurd hmem hc.2
  · cases a with
    | nil => rw [List.append_nil] at h1; exact h1
    | cons x xs =>
      have hx : '\x7d' = x := by
        have h3 := congrArg List.head? h2
        simpa using h3
      have hmem : '\x7d' ∈ k := by
        rw [h1, hx]
        exact List.mem_append_right _ (List.mem_cons_self _ _)
      exact absurd hmem hk.2

/-- Replacing a placeholder passes over the placeholder of another key, when
both keys have no braces. -/
theorem stringsReplaceAll_other (k v c rest : Str) (hk : BraceFree k) (hc : BraceFree c)
    (hne : c ≠ k) :
    stringsReplaceAll (("\x7b\x7b".toList ++ c ++ "\x7d\x7d".toList) ++ rest)
        ("\x7b\x7b".toList ++ k ++ "\x7d\x7d".toList) v
      = ("\x7b\x7b".toList ++ c ++ "\x7d\x7d".toList)
        ++ stringsReplaceAll rest ("\x7b\x7b".toList ++ k ++ "\x7d\x7d".toList) v := by
  have hshape : ("\x7b\x7b".toList ++ c ++ "\x7d\x7d".toList) ++ rest
      = '\x7b' :: '\x7b' :: ((c ++ ['\x7d', '\x7d']) ++ rest) := by
    rw [placeholder_eq]; rfl
  have hct : '\x7b' ∉ c ++ ['\x7d', '\x7d'] := by
    intro hm
    rcases List.mem_append.mp hm with h1 | h1
    · exact hc.1 h1
    · revert h1; decide
  have h0 : ("\x7b\x7b".toList ++ k ++ "\x7d\x7d".toList).isPrefixOf
      ('\x7b' :: '\x7b' :: ((c ++ ['\x7d', '\x7d']) ++ rest)) = false := by
    cases h : ("\x7b\x7b".toList ++ k ++ "\x7d\x7d".toList).isPrefixOf
        ('\x7b' :: '\x7b' :: ((c ++ ['\x7d', '\x7d']) ++ rest)) with
    | false => rfl
    | true =>
      rw [placeholder_eq] at h
      have h2 : (k ++ ['\x7d', '\x7d']).isPrefixOf (c ++ ['\x7d', '\x7d'] ++ rest) = true := by
        simpa [List.isPrefixOf] using h
      exact absurd (key_eq_of_prefix_any k c rest hk hc h2).symm hne
  have h1 : ("\x7b\x7b".toList ++ k ++ "\x7d\x7d".toList).isPrefixOf
      ('\x7b' :: ((c ++ ['\x7d', '\x7d']) ++ rest)) = false := by
    rw [placeholder_eq]
    cases c with
    | nil => simp [List.isPrefixOf]
    | cons d ds =>
      have hd : ¬ '\x7b' = d := fun he => hc.1 (by rw [he]; exact List.mem_cons_self _ _)
      simp [List.isPrefixOf, hd]
  rw [hshape, stringsReplaceAll_cons_miss k v _ _ h0, stringsReplaceAll_cons_miss k v _ _ h1,
    stringsReplaceAll_text k v _ rest (noOpening_of_not_mem _ hct)]
  rw [placeholder_eq]
  rfl

/-- Replacing the placeholder of a key in a flat template replaces it piece
by piece. -/
theorem stringsReplaceAll_flatten (k v : Str) (hk : BraceFree k) (ps : List Piece)
    (hps : ∀ p ∈ ps, p.Plain) :
    stringsReplaceAll (flattenPieces ps) ("\x7b\x7b".toList ++ k ++ "\x7d\x7d".toList) v
      = flattenPieces (ps.map (Piece.replaceKey k v)) := by
  induction ps with
  | nil => rfl
  | cons p rest ih =>
    have ih2 := ih (fun q hq => hps q (List.mem_cons_of_mem p hq))
    have hp : p.Plain := hps p (List.mem_cons_self p rest)
    cases p with
    | text s =>
      show stringsReplaceAll (s ++ flattenPieces rest) _ v
        = s ++ flattenPieces (rest.map (Piece.replaceKey k v))
      rw [stringsReplaceAll_text k v s _ hp, ih2]
    | key c =>
      by_cases hck : c = k
      · subst hck
        show stringsReplaceAll
            (("\x7b\x7b".toList ++ c ++ "\x7d\x7d".toList) ++ flattenPieces rest) _ v
          = (Piece.replaceKey c v (Piece.key c)).render
            ++ flattenPieces (rest.map (Piece.replaceKey c v))
        rw [stringsReplaceAll_hit c v _, ih2]
        simp [Piece.replaceKey, Piece.render]
      · show stringsReplaceAll
            (("\x7b\x7b".toList ++ c ++ "\x7d\x7d".toList) ++ flattenPieces rest) _ v
          = (Piece.replaceKey k v (Piece.key c)).render
            ++ flattenPieces (rest.map (Piece.replaceKey k v))
        rw [stringsReplaceAll_other k v c _ hk hp hck, ih2]
        simp [Piece.replaceKey, Piece.render, hck]

/-- A flat template that has the placeholder of a key among its pieces
contains that placeholder. -/
theorem stringsContains_flatten (k : Str) (ps : List Piece) (h : Piece.key k ∈ ps) :
    stringsContains (flattenPieces ps) ("\x7b\x7b".toList ++ k ++ "\x7d\x7d".toList) = true := by
  induction ps with
  | nil => cases h
  | cons p rest ih =>
    rcases List.mem_cons.mp h with h1 | h1
    · rw [← h1]
      exact stringsContains_start _ _
    · exact stringsContains_append_left _ _ _ (ih h1)

/-- Replacing a key that is not among the pieces changes no piece. -/
theorem map_replaceKey_of_not_mem (k v : Str) (ps : List Piece) (h : Piece.key k ∉ ps) :
    ps.map (Piece.replaceKey k v) = ps := by
  induction ps with
  | nil => rfl
  | cons p rest ih =>
    have hrest : Piece.key k ∉ rest := fun hm => h (List.mem_cons_of_mem p hm)
    rw [List.map_cons, ih hrest]
    cases p with
    | text s => rfl
    | key c =>
      have hck : ¬ c = k := by
        intro he
        apply h
        rw [he]
        exact List.mem_cons_self _ _
      simp [Piece.replaceKey, hck]

/-- One step of a pass on a flat template replaces the key of the entry
piece by piece. -/
theorem renderStep_flatten (k v : Str) (hk : BraceFree k) (ps : List Piece)
    (hps : ∀ p ∈ ps, p.Plain) (b : Bool) :
    (renderStep (flattenPieces ps, b) (k, v)).1
      = flattenPieces (ps.map (Piece.replaceKey k v)) := by
  cases hc : stringsContains (flattenPieces ps)
      ("\x7b\x7b".toList ++ k ++ "\x7d\x7d".toList) with
  | true =>
    rw [renderStep_hit _ (k, v) hc]
    exact stringsReplaceAll_flatten k v hk ps hps
  | false =>
    rw [renderStep_miss _ (k, v) hc]
    have hmem : Piece.key k ∉ ps := by
      intro hm
      rw [stringsContains_flatten k ps hm] at hc
      cases hc
    rw [map_replaceKey_of_not_mem k v ps hmem]

/-- The text of two lists of pieces put together. -/
theorem flattenPieces_append (a b : List Piece) :
    flattenPieces (a ++ b) = flattenPieces a ++ flattenPieces b := by
  induction a with
  | nil => rfl
  | cons p rest ih =>
    show p.render ++ flattenPieces (rest ++ b) = (p.render ++ flattenPieces rest) ++ _
    rw [ih, List.append_assoc]

/-- Replacing a key by a value that is the text of pieces is replacing it by
these pieces. -/
theorem flattenPieces_replacePieces (k v : Str) (value : List Piece)
    (hv : v = flattenPieces value) (ps : List Piece) :
    flattenPieces (ps.map (Piece.replaceKey k v)) = flattenPieces (replacePieces k value ps) := by
  induction ps with
  | nil => rfl
  | cons p rest ih =>
    rw [List.map_cons, replacePieces, flattenPieces_append, ← ih]
    show (Piece.replaceKey k v p).render ++ _ = _
    congr 1
    cases p with
    | text s => exact (List.append_nil _).symm
    | key c =>
      by_cases hck : c = k
      · simp only [Piece.replaceKey, Piece.replaceBy, hck, if_true, Piece.render]
        exact hv
      · simp only [Piece.replaceKey, Piece.replaceBy, hck, if_false]
        exact (List.append_nil _).symm

/-- One step of a pass on a flat template replaces the key of the entry by
the pieces of its value. -/
theorem renderStep_pieces (k v : Str) (value : List Piece) (hk : BraceFree k)
    (hv : v = flattenPieces value) (ps : List Piece) (hps : ∀ p ∈ ps, p.Plain) (b : Bool) :
    (renderStep (flattenPieces ps, b) (k, v)).1 = flattenPieces (replacePieces k value ps) := by
  rw [renderStep_flatten k v hk ps hps b, flattenPieces_replacePieces k v value hv ps]

/-- A piece after a replacement is a piece from before, other than the
placeholder of the key, or a piece of the value, the placeholder of the key
being there before. -/
theorem mem_replacePieces (k : Str) (value : List Piece) (q : Piece) (ps : List Piece)
    (h : q ∈ replacePieces k value ps) :
    (q ∈ ps ∧ q ≠ Piece.key k) ∨ (Piece.key k ∈ ps ∧ q ∈ value) := by
  induction ps with
  | nil => cases h
  | cons p rest ih =>
    rw [replacePieces] at h
    rcases List.mem_append.mp h with h1 | h1
    · cases p with
      | text s =>
        have hq : q = Piece.text s := List.mem_singleton.mp h1
        left
        exact ⟨by rw [hq]; exact List.mem_cons_self _ _, by rw [hq]; exact fun he => nomatch he⟩
      | key c =>
        by_cases hck : c = k
        · right
          rw [Piece.replaceBy, if_pos hck] at h1
          exact ⟨by rw [hck]; exact List.mem_cons_self _ _, h1⟩
        · left
          rw [Piece.replaceBy, if_neg hck] at h1
          have hq : q = Piece.key c := List.mem_singleton.mp h1
          refine ⟨by rw [hq]; exact List.mem_cons_self _ _, ?_⟩
          rw [hq]
          intro he
          exact hck (Piece.key.inj he)
    · rcases ih h1 with ⟨h2, h3⟩ | ⟨h2, h3⟩
      · exact Or.inl ⟨List.mem_cons_of_mem _ h2, h3⟩
      · exact Or.inr ⟨List.mem_cons_of_mem _ h2, h3⟩

/-- Replacing by plain pieces keeps the pieces plain. -/
theorem plain_replacePieces (k : Str) (value : List Piece) (hvalue : ∀ p ∈ value, p.Plain)
    (ps : List Piece) (hps : ∀ p ∈ ps, p.Plain) :
    ∀ p ∈ replacePieces k value ps, p.Plain := by
  intro q hq
  rcases mem_replacePieces k value q ps hq with ⟨h1, _⟩ | ⟨_, h2⟩
  · exact hps q h1
  · exact hvalue q h2

/-- An entry of a map makes the read of its key succeed. -/
theorem mapGet_isSome_of_mem {α : Type} (m : GoMap α) (kv : Str × α) (h : kv ∈ m) :
    (mapGet m kv.1).isSome = true := by
  induction m with
  | nil => cases h
  | cons e rest ih =>
    obtain ⟨k1, v1⟩ := e
    by_cases hk : k1 = kv.1
    · rw [mapGet, if_pos hk]
      rfl
    · rw [mapGet, if_neg hk]
      rcases List.mem_cons.mp h with h1 | h1
      · exact absurd (by rw [h1]) hk
      · exact ih h1

/-- A key whose read succeeds has an entry in the map. -/
theorem exists_mem_of_mapGet_isSome {α : Type} (m : GoMap α) (k : Str)
    (h : (mapGet m k).isSome = true) : ∃ v, (k, v) ∈ m := by
  cases hv : mapGet m k with
  | none => rw [hv] at h; cases h
  | some v => exact ⟨v, mem_of_mapGet m k v hv⟩
/-- The expansion of two lists of pieces put together. -/
theorem expandPieces_append (context : GoMap Str) (pieces : Str → List Piece)
    (a b : List Piece) :
    expandPieces context pieces (a ++ b)
      = expandPieces context pieces a ++ expandPieces context pieces b := by
  induction a with
  | nil => rfl
  | cons p rest ih =>
    show p.expand context pieces ++ expandPieces context pieces (rest ++ b) = _
    rw [ih, expandPieces, List.append_assoc]

/-- Pieces without placeholder of a context key are their own expansion. -/
theorem expandPieces_of_noKeys (context : GoMap Str) (pieces : Str → List Piece)
    (rank : Str → Nat) (ps : List Piece) (h : KeysBelow context rank 0 ps) :
    expandPieces context pieces ps = ps := by
  induction ps with
  | nil => rfl
  | cons p rest ih =>
    have hrest : KeysBelow context rank 0 rest :=
      fun q hq => h q (List.mem_cons_of_mem p hq)
    rw [expandPieces, ih hrest]
    cases p with
    | text s => rfl
    | key c =>
      have hc : ¬ (mapGet context c).isSome = true :=
        fun hs => absurd (h (Piece.key c) (List.mem_cons_self _ _) hs) (Nat.not_lt_zero _)
      rw [Piece.expand, if_neg hc]
      rfl

/-- A piece of the expansion is a piece from before that is no placeholder
of a context key, or a piece of the value of a context key whose placeholder
was there before. -/
theorem mem_expandPieces (context : GoMap Str) (pieces : Str → List Piece) (q : Piece)
    (ps : List Piece) (h : q ∈ expandPieces context pieces ps) :
    (q ∈ ps ∧ ∀ c, q = Piece.key c → ¬ (mapGet context c).isSome = true) ∨
    ∃ c, Piece.key c ∈ ps ∧ (mapGet context c).isSome = true ∧ q ∈ pieces c := by
  induction ps with
  | nil => cases h
  | cons p rest ih =>
    rw [expandPieces] at h
    rcases List.mem_append.mp h with h1 | h1
    · cases p with
      | text s =>
        have hq : q = Piece.text s := List.mem_singleton.mp h1
        left
        exact ⟨by rw [hq]; exact List.mem_cons_self _ _, by
          rw [hq]; exact fun c he => nomatch he⟩
      | key c =>
        by_cases hs : (mapGet context c).isSome = true
        · right
          rw [Piece.expand, if_pos hs] at h1
          exact ⟨c, List.mem_cons_self _ _, hs, h1⟩
        · left
          rw [Piece.expand, if_neg hs] at h1
          have hq : q = Piece.key c := List.mem_singleton.mp h1
          refine ⟨by rw [hq]; exact List.mem_cons_self _ _, ?_⟩
          intro c2 he
          rw [hq] at he
          rw [← Piece.key.inj he]
          exact hs
    · rcases ih h1 with ⟨h2, h3⟩ | ⟨c, h2, h3, h4⟩
      · exact Or.inl ⟨List.mem_cons_of_mem _ h2, h3⟩
      · exact Or.inr ⟨c, List.mem_cons_of_mem _ h2, h3, h4⟩

/-- In a ranked context, the value of a key of rank at most `n`, with `n`
below three, has placeholders of context keys of rank below `n` only. -/
theorem keysBelow_value (context : GoMap Str) (pieces : Str → List Piece) (rank : Str → Nat)
    (hr : RankedContext context pieces rank) (k : Str) (hk : (mapGet context k).isSome = true)
    (n : Nat) (hn : rank k ≤ n) (hn3 : n < 3) : KeysBelow context rank n (pieces k) := by
  obtain ⟨v, hv⟩ := exists_mem_of_mapGet_isSome context k hk
  have hk3 : rank k < 3 := lt_of_le_of_lt hn hn3
  intro p hp
  cases p with
  | text s => trivial
  | key c => exact fun hs => lt_of_lt_of_le (hr (k, v) hv hk3 (Piece.key c) hp hs) hn

/-- In a ranked context, one level of expansion lowers the rank of the
placeholders of context keys. -/
theorem keysBelow_expandPieces (context : GoMap Str) (pieces : Str → List Piece)
    (rank : Str → Nat) (hr : RankedContext context pieces rank) (n : Nat) (hn3 : n < 3)
    (ps : List Piece) (h : KeysBelow context rank (n + 1) ps) :
    KeysBelow context rank n (expandPieces context pieces ps) := by
  intro p hp
  cases p with
  | text s => trivial
  | key c =>
    intro hs
    rcases mem_expandPieces context pieces _ ps hp with ⟨_, h2⟩ | ⟨c0, h1, h2, h3⟩
    · exact absurd hs (h2 c rfl)
    · have h0 : rank c0 < n + 1 := h (Piece.key c0) h1 h2
      exact keysBelow_value context pieces rank hr c0 h2 n (Nat.lt_succ_iff.mp h0) hn3
        (Piece.key c) h3 hs

/-- In a ranked context, replacing the placeholders of one context key by
its value does not change the third expansion of pieces whose context keys
have rank below three. -/
theorem expandPieces_replacePieces (context : GoMap Str) (pieces : Str → List Piece)
    (rank : Str → Nat) (hr : RankedContext context pieces rank) (k : Str)
    (hk : (mapGet context k).isSome = true) (ps : List Piece)
    (hps : KeysBelow context rank 3 ps) :
    expandPieces context pieces (expandPieces context pieces (expandPieces context pieces
        (replacePieces k (pieces k) ps)))
      = expandPieces context pieces (expandPieces context pieces
          (expandPieces context pieces ps)) := by
  induction ps with
  | nil => rfl
  | cons p rest ih =>
    have hrest : KeysBelow context rank 3 rest :=
      fun q hq => hps q (List.mem_cons_of_mem p hq)
    have hsplit : p :: rest = [p] ++ rest := rfl
    rw [replacePieces, hsplit]
    simp only [expandPieces_append]
    rw [ih hrest]
    congr 1
    cases p with
    | text s => rfl
    | key c =>
      by_cases hck : c = k
      · subst hck
        have hrank : rank c < 3 := hps (Piece.key c) (List.mem_cons_self _ _) hk
        have h2 : KeysBelow context rank 2 (pieces c) :=
          keysBelow_value context pieces rank hr c hk 2 (Nat.lt_succ_iff.mp hrank) (by decide)
        have h0 : KeysBelow context rank 0
            (expandPieces context pieces (expandPieces context pieces (pieces c))) :=
          keysBelow_expandPieces context pieces rank hr 0 (by decide) _
            (keysBelow_expandPieces context pieces rank hr 1 (by decide) _ h2)
        have hone : expandPieces context pieces [Piece.key c] = pieces c := by
          rw [expandPieces, Piece.expand, if_pos hk]
          exact List.append_nil _
        rw [Piece.replaceBy, if_pos rfl, hone,
          expandPieces_of_noKeys context pieces rank _ h0]
      · rw [Piece.replaceBy, if_neg hck]

/-- A pass over entries of a flat, ranked context, in any order, leads from
a flat template to a flat template with the same third expansion, and keeps
the invariant of the pass with the keys of the entries visited. -/
theorem foldl_renderStep_pieces (context : GoMap Str) (pieces : Str → List Piece)
    (rank : Str → Nat) (hf : FlatContext context pieces rank)
    (hr : RankedContext context pieces rank) (n : Nat) (hn : n ≤ 3) :
    ∀ (l : GoMap Str), (∀ kv ∈ l, kv ∈ context) →
      ∀ (visited : List Str) (ps : List Piece) (b : Bool), (∀ p ∈ ps, p.Plain) →
        PassInv context rank n visited ps →
        ∃ qs, (l.foldl renderStep (flattenPieces ps, b)).1 = flattenPieces qs ∧
          (∀ p ∈ qs, p.Plain) ∧
          expandPieces context pieces (expandPieces context pieces
              (expandPieces context pieces qs))
            = expandPieces context pieces (expandPieces context pieces
              (expandPieces context pieces ps)) ∧
          PassInv context rank n (visited ++ l.map Prod.fst) qs := by
  intro l
  induction l with
  | nil =>
    intro _ visited ps b hps hinv
    refine ⟨ps, rfl, hps, rfl, ?_⟩
    rw [List.map_nil, List.append_nil]
    exact hinv
  | cons e rest ih =>
    intro hl visited ps b hps hinv
    obtain ⟨k, v⟩ := e
    have hkv : (k, v) ∈ context := hl (k, v) (List.mem_cons_self _ _)
    have hrest : ∀ kv ∈ rest, kv ∈ context := fun kv h => hl kv (List.mem_cons_of_mem _ h)
    have hkb : BraceFree k := (hf (k, v) hkv).1
    have hk : (mapGet context k).isSome = true := mapGet_isSome_of_mem context (k, v) hkv
    by_cases hmem : Piece.key k ∈ ps
    · have hkn : rank k < n := (hinv k hmem hk).1
      have hk3 : rank k < 3 := lt_of_lt_of_le hkn hn
      obtain ⟨hval, hplain⟩ := (hf (k, v) hkv).2 hk3
      have hstep : renderStep (flattenPieces ps, b) (k, v)
          = (flattenPieces (replacePieces k (pieces k) ps),
              (renderStep (flattenPieces ps, b) (k, v)).2) := by
        rw [← renderStep_pieces k v (pieces k) hkb hval ps hps b]
      have hbelow : KeysBelow context rank 3 ps := by
        intro p hp
        cases p with
        | text s => trivial
        | key c => exact fun hs => lt_of_lt_of_le (hinv c hp hs).1 hn
      have hinv2 : PassInv context rank n (visited ++ [k])
          (replacePieces k (pieces k) ps) := by
        intro c hc hs
        rcases mem_replacePieces k (pieces k) _ ps hc with ⟨h1, h2⟩ | ⟨_, h2⟩
        · refine ⟨(hinv c h1 hs).1, fun hvis => ?_⟩
          rcases List.mem_append.mp hvis with h3 | h3
          · exact (hinv c h1 hs).2 h3
          · have hck : c = k := List.mem_singleton.mp h3
            exact absurd (by rw [hck]) h2
        · have hlt : rank c < rank k := hr (k, v) hkv hk3 (Piece.key c) h2 hs
          exact ⟨by omega, fun _ => by omega⟩
      obtain ⟨qs, h1, h2, h3, h4⟩ := ih hrest (visited ++ [k]) _
        (renderStep (flattenPieces ps, b) (k, v)).2
        (plain_replacePieces k (pieces k) hplain ps hps) hinv2
      refine ⟨qs, ?_, h2, ?_, ?_⟩
      · rw [List.foldl_cons, hstep]
        exact h1
      · rw [h3]
        exact expandPieces_replacePieces context pieces rank hr k hk ps hbelow
      · rw [List.map_cons]
        rw [List.append_assoc] at h4
        exact h4
    · have hstep : renderStep (flattenPieces ps, b) (k, v)
          = (flattenPieces ps, (renderStep (flattenPieces ps, b) (k, v)).2) := by
        have h1 := renderStep_flatten k v hkb ps hps b
        rw [map_replaceKey_of_not_mem k v ps hmem] at h1
        exact Prod.ext h1 rfl
      have hinv2 : PassInv context rank n (visited ++ [k]) ps := by
        intro c hc hs
        refine ⟨(hinv c hc hs).1, fun hvis => ?_⟩
        rcases List.mem_append.mp hvis with h3 | h3
        · exact (hinv c hc hs).2 h3
        · have hck : c = k := List.mem_singleton.mp h3
          rw [hck] at hc
          exact absurd hc hmem
      obtain ⟨qs, h1, h2, h3, h4⟩ := ih hrest (visited ++ [k]) ps
        (renderStep (flattenPieces ps, b) (k, v)).2 hps hinv2
      refine ⟨qs, ?_, h2, h3, ?_⟩
      · rw [List.foldl_cons, hstep]
        exact h1
      · rw [List.map_cons]
        rw [List.append_assoc] at h4
        exact h4

/-- Once a pass has replaced a placeholder, its flag stays set. -/
theorem foldl_renderStep_true (l : GoMap Str) :
    ∀ t : Str, (l.foldl renderStep (t, true)).2 = true := by
  induction l with
  | nil => intro t; rfl
  | cons kv rest ih =>
    intro t
    rw [List.foldl_cons]
    cases hc : stringsContains t ("\x7b\x7b".toList ++ kv.1 ++ "\x7d\x7d".toList) with
    | true =>
      rw [renderStep_hit (t, true) kv hc]
      exact ih _
    | false =>
      rw [renderStep_miss (t, true) kv hc]
      exact ih _

/-- A pass that ends with its flag unset has found no placeholder of its
entries, and has left the text as it was. -/
theorem foldl_renderStep_unset (l : GoMap Str) (t : Str)
    (h : (l.foldl renderStep (t, false)).2 = false) :
    (l.foldl renderStep (t, false)).1 = t ∧
    ∀ kv ∈ l, stringsContains t ("\x7b\x7b".toList ++ kv.1 ++ "\x7d\x7d".toList) = false := by
  induction l with
  | nil => exact ⟨rfl, fun kv hkv => absurd hkv (List.not_mem_nil kv)⟩
  | cons e rest ih =>
    rw [List.foldl_cons] at h ⊢
    cases hc : stringsContains t ("\x7b\x7b".toList ++ e.1 ++ "\x7d\x7d".toList) with
    | true =>
      rw [renderStep_hit (t, false) e hc, foldl_renderStep_true] at h
      cases h
    | false =>
      rw [renderStep_miss (t, false) e hc] at h ⊢
      obtain ⟨h1, h2⟩ := ih h
      refine ⟨h1, fun kv hkv => ?_⟩
      rcases List.mem_cons.mp hkv with h3 | h3
      · rw [h3]; exact hc
      · exact h2 kv h3

/-- With `n` passes left for a flat template whose context keys have rank
below `n`, the pass loop returns the third expansion of the template,
whatever the visiting orders. -/
theorem renderPasses_pieces (lib : GoLib) (context : GoMap Str) (pieces : Str → List Piece)
    (rank : Str → Nat) (hf : FlatContext context pieces rank)
    (hr : RankedContext context pieces rank) :
    ∀ (n : Nat), n ≤ 3 → ∀ (pass : Nat) (ps : List Piece), (∀ p ∈ ps, p.Plain) →
      KeysBelow context rank n ps →
      renderPasses lib context n pass (flattenPieces ps)
        = flattenPieces (expandPieces context pieces (expandPieces context pieces
            (expandPieces context pieces ps))) := by
  intro n
  induction n with
  | zero =>
    intro _ pass ps _ hbelow
    rw [expandPieces_of_noKeys context pieces rank ps hbelow,
      expandPieces_of_noKeys context pieces rank ps hbelow,
      expandPieces_of_noKeys context pieces rank ps hbelow]
    rfl
  | succ n ih =>
    intro hn pass ps hps hbelow
    have hperm := lib.mapOrder_perm pass context
    have hl : ∀ kv ∈ lib.mapOrder pass context, kv ∈ context :=
      fun kv hkv => hperm.mem_iff.mp hkv
    have hinv : PassInv context rank (n + 1) [] ps :=
      fun c hc hs => ⟨hbelow (Piece.key c) hc hs, fun hmem => absurd hmem (List.not_mem_nil c)⟩
    obtain ⟨qs, h1, h2, h3, h4⟩ := foldl_renderStep_pieces context pieces rank hf hr (n + 1) hn
      (lib.mapOrder pass context) hl [] ps false hps hinv
    have hqs : KeysBelow context rank n qs := by
      intro p hp
      cases p with
      | text s => trivial
      | key c =>
        intro hs
        obtain ⟨v, hv⟩ := exists_mem_of_mapGet_isSome context c hs
        have hmem : c ∈ [] ++ (lib.mapOrder pass context).map Prod.fst :=
          List.mem_map_of_mem Prod.fst (hperm.mem_iff.mpr hv)
        have := (h4 c hp hs).2 hmem
        omega
    rw [renderPasses]
    rw [renderPass_eq_foldl]
    cases hflag : ((lib.mapOrder pass context).foldl renderStep (flattenPieces ps, false)).2 with
    | true =>
      simp only [if_true]
      rw [h1, ih (by omega) (pass + 1) qs h2 hqs, h3]
    | false =>
      simp only [Bool.false_eq_true, if_false]
      obtain ⟨hsame, hmiss⟩ := foldl_renderStep_unset _ _ hflag
      rw [hsame]
      have hzero : KeysBelow context rank 0 ps := by
        intro p hp
        cases p with
        | text s => trivial
        | key c =>
          intro hs
          obtain ⟨v, hv⟩ := exists_mem_of_mapGet_isSome context c hs
          have hm := hmiss (c, v) (hperm.mem_iff.mpr hv)
          rw [stringsContains_flatten c ps hp] at hm
          cases hm
      rw [expandPieces_of_noKeys context pieces rank ps hzero,
        expandPieces_of_noKeys context pieces rank ps hzero,
        expandPieces_of_noKeys context pieces rank ps hzero]

/-- C22 (amended): let no context key have a brace, let the template be
flat, that is text in which no placeholder begins (no two opening braces in
a row and no opening brace at its end) interleaved with placeholders of keys
without braces, and let the context keys admit a rank such that the context
keys of the template have rank below three and the value of every key of
rank below three is flat as well, with placeholders of context keys of
strictly smaller rank only (at most two levels of nesting below the
template; the values of the other keys are free). Then `renderTemplate`
returns, whatever order the context entries are visited in on each pass, the
template expanded three times, in which no placeholder of a context key is
left. -/
theorem c22_shallow_nesting_order_independent (lib : GoLib) (event : HookEvent)
    (params : GoMap Value) (pieces : Str → List Piece) (rank : Str → Nat) (ps : List Piece)
    (hps : ∀ p ∈ ps, p.Plain)
    (hflat : FlatContext (buildContext event params) pieces rank)
    (hrank : RankedContext (buildContext event params) pieces rank)
    (hbelow : KeysBelow (buildContext event params) rank 3 ps) :
    renderTemplate lib (flattenPieces ps) event params
      = flattenPieces (expandPieces (buildContext event params) pieces
          (expandPieces (buildContext event params) pieces
            (expandPieces (buildContext event params) pieces ps))) ∧
    KeysBelow (buildContext event params) rank 0
      (expandPieces (buildContext event params) pieces
        (expandPieces (buildContext event params) pieces
          (expandPieces (buildContext event params) pieces ps))) :=
  ⟨renderPasses_pieces lib _ pieces rank hflat hrank 3 (le_refl 3) 0 ps hps hbelow,
    keysBelow_expandPieces _ pieces rank hrank 0 (by decide) _
      (keysBelow_expandPieces _ pieces rank hrank 1 (by decide) _
        (keysBelow_expandPieces _ pieces rank hrank 2 (by decide) _ hbelow))⟩

/-- C22 (amended) on `writeEvent` with `nestedParams`, visited from the last
entry to the first: the template "{{a}}!{{why}}" renders to
"<end at /tmp/{draft}.txt>!{{why}}", the path having single braces and the
content, which is not reached, braces of every kind. -/
theorem c22_shallow_nesting_order_independent_witness :
    renderTemplate reverseLib
        (flattenPieces [Piece.key "a".toList, Piece.text "!".toList, Piece.key "why".toList])
        writeEvent nestedParams
      = "<end at /tmp/\x7bdraft\x7d.txt>!\x7b\x7bwhy\x7d\x7d".toList :=
  (c22_shallow_nesting_order_independent reverseLib writeEvent nestedParams
    (piecesOf nestedTable) nestedRank
    [Piece.key "a".toList, Piece.text "!".toList, Piece.key "why".toList]
    (by decide)
    (by
      show ∀ kv ∈ buildContext writeEvent nestedParams, BraceFree kv.1 ∧
        (nestedRank kv.1 < 3 → kv.2 = flattenPieces (piecesOf nestedTable kv.1) ∧
          ∀ p ∈ piecesOf nestedTable kv.1, p.Plain)
      decide)
    (by
      show ∀ kv ∈ buildContext writeEvent nestedParams, nestedRank kv.1 < 3 →
        ∀ p ∈ piecesOf nestedTable kv.1,
          p.RankBelow (buildContext writeEvent nestedParams) nestedRank (nestedRank kv.1)
      decide)
    (by
      show ∀ p ∈ [Piece.key "a".toList, Piece.text "!".toList, Piece.key "why".toList],
        p.RankBelow (buildContext writeEvent nestedParams) nestedRank 3
      decide)).1.trans (by decide)

/-! ## C23: the shapes of a verdict -/

/-- A decision action returns a response of a boundary shape. -/
theorem executeDecision_shape (lib : GoLib) (action : Action) (event : HookEvent) :
    BoundaryShape (executeDecision lib action event) := by
  dsimp only [executeDecision]
  split
  · refine ⟨Or.inr (Or.inr (Or.inl rfl)), rfl, fun h => ?_⟩
    rcases h with h | h
    · exact absurd (show "deny".toList = ([] : Str) from h) (by decide)
    · exact absurd (show "deny".toList = "allow".toList from h) (by decide)
  · split
    · exact ⟨Or.inr (Or.inl rfl), rfl, fun _ => rfl⟩
    · split
      · refine ⟨Or.inr (Or.inr (Or.inr rfl)), rfl, fun h => ?_⟩
        rcases h with h | h
        · exact absurd (show "ask".toList = ([] : Str) from h) (by decide)
        · exact absurd (show "ask".toList = "allow".toList from h) (by decide)
      · exact ⟨Or.inl rfl, rfl, fun _ => rfl⟩

/-- The default response has a boundary shape. -/
theorem defaultResponse_shape : BoundaryShape defaultResponse :=
  ⟨Or.inl rfl, rfl, fun _ => rfl⟩

/-- A response of a chain is the response of one of the children. -/
theorem chainLoop_shape (f : Action → Option (Option Response)) (P : Response → Prop)
    (hf : ∀ a r, f a = some (some r) → P r) (params : GoMap Value) :
    ∀ (l : List Action) (r : Response), chainLoop f params l = some (some r) → P r := by
  intro l
  induction l with
  | nil => intro r h; simp [chainLoop] at h
  | cons a rest ih =>
    intro r h
    rw [chainLoop] at h
    split at h
    · cases h
    · rename_i resp hresp
      cases h
      exact hf _ _ hresp
    · exact ih r h

/-- A response of the actions of a rule is the response of one of them. -/
theorem runActions_shape (f : Action → Option (Option Response)) (P : Response → Prop)
    (hf : ∀ a r, f a = some (some r) → P r) :
    ∀ (l : List Action) (r : Response), runActions f l = some (some r) → P r := by
  intro l
  induction l with
  | nil => intro r h; simp [runActions] at h
  | cons a rest ih =>
    intro r h
    rw [runActions] at h
    split at h
    · cases h
    · rename_i resp hresp
      cases h
      exact hf _ _ hresp
    · exact ih r h

/-- Every response of `Execute`, through references, chains and
conditionals, has a boundary shape. -/
theorem execute_shape (lib : GoLib) (event : HookEvent) (cfg : Config) :
    ∀ (fuel : Nat) (a : Option Action) (r : Response),
      Execute lib fuel a event cfg = some (some r) → BoundaryShape r := by
  intro fuel
  induction fuel with
  | zero => intro a r h; simp [Execute] at h
  | succ n ih =>
    intro a r h
    cases a with
    | none => simp [Execute] at h
    | some action =>
      rw [Execute] at h
      split at h
      · split at h
        · cases h
        · exact ih _ _ h
      · split at h
        · cases h
          exact executeDecision_shape lib action event
        · split at h
          · simp [executeLog] at h
          · split at h
            · exact chainLoop_shape _ _ (fun a r ha => ih (some a) r ha) _ _ _ h
            · split at h
              · split at h
                · cases h
                · split at h
                  · cases h
                  · split at h
                    · exact ih _ _ h
                    · cases h
                  · split at h
                    · exact ih _ _ h
                    · cases h
              · cases h

/-- Every response of the rule loop has a boundary shape. -/
theorem runRules_shape (lib : GoLib) (fuel : Nat) (event : HookEvent) (cfg : Config) :
    ∀ (l : List Rule) (r : Response), runRules lib fuel event cfg l = some r →
      BoundaryShape r := by
  intro l
  induction l with
  | nil =>
    intro r h
    simp only [runRules, Option.some.injEq] at h
    rw [← h]
    exact defaultResponse_shape
  | cons rule rest ih =>
    intro r h
    rw [runRules] at h
    split at h
    · exact ih r h
    · split at h
      · cases h
      · exact ih r h
      · split at h
        · cases h
        · rename_i resp hresp
          cases h
          exact runActions_shape _ _ (fun a r ha => execute_shape lib event cfg fuel (some a) r ha)
            _ _ hresp
        · exact ih r h

/-- C23: every verdict that `Dispatch` returns, for every event and ruleset,
has one of the boundary shapes: the decision is "", "allow", "deny" or
"ask", the exit code is 2 when the decision is "deny" and 0 otherwise, and
the message is empty when the decision is "" or "allow". -/
theorem c23_boundary_shapes (lib : GoLib) (fuel : Nat) (event : HookEvent) (cfg : Config)
    (r : Response) (h : Dispatch lib fuel event cfg = some r) : BoundaryShape r :=
  runRules_shape lib fuel event cfg _ r h

/-- C23 on a rule whose chain reaches, through a reference and a conditional,
a decision written as "block": the verdict is "deny" with exit code 2. -/
theorem c23_boundary_shapes_witness :
    Dispatch sampleLib 5 deleteEvent nestedBlockRules
      = some { ExitCode := 2, Decision := "deny".toList, Message := "no /etc/passwd".toList } ∧
    BoundaryShape { ExitCode := 2, Decision := "deny".toList, Message := "no /etc/passwd".toList } :=
  ⟨by decide, c23_boundary_shapes sampleLib 5 deleteEvent nestedBlockRules _ (by decide)⟩

/-! ## C24: totality under acyclic references -/

/-- Finitely many names have a common strict bound on their rank. -/
theorem exists_rank_bound (rank : Str → Nat) (l : List Str) : ∃ R, ∀ m ∈ l, rank m < R := by
  induction l with
  | nil => exact ⟨0, fun m hm => absurd hm (List.not_mem_nil m)⟩
  | cons x xs ih =>
    obtain ⟨R, hR⟩ := ih
    refine ⟨max R (rank x + 1), ?_⟩
    intro m hm
    rcases List.mem_cons.mp hm with h | h
    · rw [h]
      exact lt_of_lt_of_le (Nat.lt_succ_self _) (le_max_right _ _)
    · exact lt_of_lt_of_le (hR m h) (le_max_left _ _)

/-- The names of a member are among the names of the list. -/
theorem condRefNamesList_mem (x : Condition) (l : List Condition) (hx : x ∈ l) (m : Str)
    (hm : m ∈ x.refNames) : m ∈ condRefNamesList l := by
  induction l with
  | nil => cases hx
  | cons y ys ih =>
    rw [condRefNamesList]
    rcases List.mem_cons.mp hx with h | h
    · rw [← h]
      exact List.mem_append_left _ hm
    · exact List.mem_append_right _ (ih h)

/-- The depth of a member is at most the depth of the list. -/
theorem condDepthList_mem (x : Condition) (l : List Condition) (hx : x ∈ l) :
    x.depth ≤ condDepthList l := by
  induction l with
  | nil => cases hx
  | cons y ys ih =>
    rw [condDepthList]
    rcases List.mem_cons.mp hx with h | h
    · rw [← h]
      exact le_max_left _ _
    · exact le_trans (ih h) (le_max_right _ _)

/-- The reference of a condition is among its names. -/
theorem Condition.ref_mem_refNames (c : Condition) (h : c.Ref ≠ []) : c.Ref ∈ c.refNames := by
  cases c with
  | mk t f p v o fl all any not ref =>
    have h2 : ref ≠ [] := h
    rw [Condition.refNames, if_neg h2]
    exact List.mem_append_left _ (List.mem_singleton_self _)

/-- An `all` child is less deep and refers to names of the condition. -/
theorem Condition.all_child (c x : Condition) (hx : x ∈ c.All) :
    x.depth < c.depth ∧ ∀ m ∈ x.refNames, m ∈ c.refNames := by
  cases c with
  | mk t f p v o fl all any not ref =>
    have hx2 : x ∈ all := hx
    constructor
    · rw [Condition.depth]
      exact Nat.lt_succ_of_le (le_trans (condDepthList_mem x all hx2) (le_max_left _ _))
    · intro m hm
      rw [Condition.refNames]
      exact List.mem_append_right _
        (List.mem_append_left _ (condRefNamesList_mem x all hx2 m hm))

/-- An `any` child is less deep and refers to names of the condition. -/
theorem Condition.any_child (c x : Condition) (hx : x ∈ c.Any) :
    x.depth < c.depth ∧ ∀ m ∈ x.refNames, m ∈ c.refNames := by
  cases c with
  | mk t f p v o fl all any not ref =>
    have hx2 : x ∈ any := hx
    constructor
    · rw [Condition.depth]
      exact Nat.lt_succ_of_le (le_trans (condDepthList_mem x any hx2)
        (le_trans (le_max_left _ _) (le_max_right _ _)))
    · intro m hm
      rw [Condition.refNames]
      exact List.mem_append_right _ (List.mem_append_right _
        (List.mem_append_left _ (condRefNamesList_mem x any hx2 m hm)))

/-- The `not` child is less deep and refers to names of the condition. -/
theorem Condition.not_child (c x : Condition) (hx : c.Not = some x) :
    x.depth < c.depth ∧ ∀ m ∈ x.refNames, m ∈ c.refNames := by
  cases c with
  | mk t f p v o fl all any not ref =>
    have hx2 : not = some x := hx
    subst hx2
    constructor
    · rw [Condition.depth]
      exact Nat.lt_succ_of_le (le_trans (le_max_right _ _) (le_max_right _ _))
    · intro m hm
      rw [Condition.refNames]
      exact List.mem_append_right _ (List.mem_append_right _ (List.mem_append_right _ hm))

/-- A merged condition refers to the names of the registry entry. -/
theorem refNames_mergeCondition (base override : Condition) :
    (mergeCondition base override).refNames = base.refNames := by
  cases base with
  | mk t f p v o fl all any not ref => rfl

/-- Under an acyclic condition registry, `Evaluate` returns a result on every
condition whose names have rank below `R`. -/
theorem evaluate_total_below (lib : GoLib) (event : HookEvent) (cfg : Config)
    (rank : Str → Nat) (hacyc : CondAcyclic rank cfg) :
    ∀ (R : Nat) (c : Condition), (∀ m ∈ c.refNames, rank m < R) →
      ∃ b, EvaluatesTo lib event cfg c b := by
  intro R
  induction R using Nat.strong_induction_on with
  | _ R ihR =>
    have inner : ∀ (d : Nat) (c : Condition), c.depth ≤ d →
        (∀ m ∈ c.refNames, rank m < R) → ∃ b, EvaluatesTo lib event cfg c b := by
      intro d
      induction d with
      | zero =>
        intro c hd _
        cases c with
        | mk t f p v o fl all any not ref =>
          rw [Condition.depth] at hd
          omega
      | succ d ihd =>
        intro c hd hrefs
        by_cases href : c.Ref = []
        · by_cases hall : c.All = []
          · by_cases hany : c.Any = []
            · cases hnot : c.Not with
              | none =>
                exact ⟨_, 1, evaluate_leaf lib 0 event cfg c ⟨href, hall, hany, hnot⟩⟩
              | some x =>
                have hx := c.not_child x hnot
                obtain ⟨b, k, hk⟩ := ihd x (by omega) (fun m hm => hrefs m (hx.2 m hm))
                refine ⟨!b, k + 1, ?_⟩
                simp [Evaluate, href, hall, hany, hnot, hk]
            · have hch : ∀ x ∈ c.Any, ∃ b, EvaluatesTo lib event cfg x b := by
                intro x hx
                have h := c.any_child x hx
                exact ihd x (by omega) (fun m hm => hrefs m (h.2 m hm))
              obtain ⟨k, hk⟩ := exists_common_fuel lib event cfg c.Any hch
              have hne := evalAny_ne_none (fun x => Evaluate lib k (some x) event cfg) c.Any
                (fun x hx => hk x hx k (le_refl k))
              cases hres : evalAny (fun x => Evaluate lib k (some x) event cfg) c.Any with
              | none => exact absurd hres hne
              | some b =>
                refine ⟨b, k + 1, ?_⟩
                have hlen : 0 < c.Any.length := List.length_pos.mpr hany
                simp [Evaluate, href, hall, hlen, hres]
          · have hch : ∀ x ∈ c.All, ∃ b, EvaluatesTo lib event cfg x b := by
              intro x hx
              have h := c.all_child x hx
              exact ihd x (by omega) (fun m hm => hrefs m (h.2 m hm))
            obtain ⟨k, hk⟩ := exists_common_fuel lib event cfg c.All hch
            have hne := evalAll_ne_none (fun x => Evaluate lib k (some x) event cfg) c.All
              (fun x hx => hk x hx k (le_refl k))
            cases hres : evalAll (fun x => Evaluate lib k (some x) event cfg) c.All with
            | none => exact absurd hres hne
            | some b =>
              refine ⟨b, k + 1, ?_⟩
              rw [evaluate_all lib k event cfg c href hall, hres]
        · cases hB : mapGet cfg.Conditions c.Ref with
          | none =>
            refine ⟨false, 1, ?_⟩
            simp [Evaluate, href, hB]
          | some B =>
            have hlt : rank c.Ref < R := hrefs _ (c.ref_mem_refNames href)
            have hBrefs : ∀ m ∈ (mergeCondition B c).refNames, rank m < rank c.Ref := by
              rw [refNames_mergeCondition]
              exact hacyc c.Ref B hB
            obtain ⟨b, k, hk⟩ := ihR (rank c.Ref) hlt (mergeCondition B c) hBrefs
            refine ⟨b, k + 1, ?_⟩
            rw [evaluate_ref lib k event cfg c B href hB, hk]
    intro c hrefs
    exact inner c.depth c (le_refl _) hrefs

/-- Under an acyclic condition registry, `Evaluate` returns a result on every
condition, with every fuel from some fuel on. -/
theorem evaluate_total (lib : GoLib) (event : HookEvent) (cfg : Config)
    (rank : Str → Nat) (hacyc : CondAcyclic rank cfg) (c : Condition) :
    ∃ b fuel, ∀ m, fuel ≤ m → Evaluate lib m (some c) event cfg = some b := by
  obtain ⟨R, hR⟩ := exists_rank_bound rank c.refNames
  obtain ⟨b, k, hk⟩ := evaluate_total_below lib event cfg rank hacyc R c hR
  exact ⟨b, k, fun m hm => evaluate_mono lib event cfg (some c) b k m hm hk⟩

/-- The names of a member are among the names of the list. -/
theorem actRefNamesList_mem (x : Action) (l : List Action) (hx : x ∈ l) (m : Str)
    (hm : m ∈ x.refNames) : m ∈ actRefNamesList l := by
  induction l with
  | nil => cases hx
  | cons y ys ih =>
    rw [actRefNamesList]
    rcases List.mem_cons.mp hx with h | h
    · rw [← h]
      exact List.mem_append_left _ hm
    · exact List.mem_append_right _ (ih h)

/-- The depth of a member is at most the depth of the list. -/
theorem actDepthList_mem (x : Action) (l : List Action) (hx : x ∈ l) :
    x.depth ≤ actDepthList l := by
  induction l with
  | nil => cases hx
  | cons y ys ih =>
    rw [actDepthList]
    rcases List.mem_cons.mp hx with h | h
    · rw [← h]
      exact le_max_left _ _
    · exact le_trans (ih h) (le_max_right _ _)

/-- The reference of an action is among its names. -/
theorem Action.ref_mem_names (a : Action) (h : a.Ref ≠ []) : a.Ref ∈ a.refNames := by
  cases a with
  | mk t d msg acts ref params c th el =>
    have h2 : ref ≠ [] := h
    rw [Action.refNames, if_neg h2]
    exact List.mem_append_left _ (List.mem_singleton_self _)

/-- A chain child is less deep and refers to names of the action. -/
theorem Action.chain_child (a x : Action) (hx : x ∈ a.Actions) :
    x.depth < a.depth ∧ ∀ m ∈ x.refNames, m ∈ a.refNames := by
  cases a with
  | mk t d msg acts ref params c th el =>
    have hx2 : x ∈ acts := hx
    constructor
    · rw [Action.depth]
      exact Nat.lt_succ_of_le (le_trans (actDepthList_mem x acts hx2) (le_max_left _ _))
    · intro m hm
      rw [Action.refNames]
      exact List.mem_append_right _
        (List.mem_append_left _ (actRefNamesList_mem x acts hx2 m hm))

/-- The `then` branch is less deep and refers to names of the action. -/
theorem Action.then_child (a x : Action) (hx : a.Then = some x) :
    x.depth < a.depth ∧ ∀ m ∈ x.refNames, m ∈ a.refNames := by
  cases a with
  | mk t d msg acts ref params c th el =>
    have hx2 : th = some x := hx
    subst hx2
    constructor
    · rw [Action.depth]
      exact Nat.lt_succ_of_le (le_trans (le_max_left _ _) (le_max_right _ _))
    · intro m hm
      rw [Action.refNames]
      exact List.mem_append_right _ (List.mem_append_right _ (List.mem_append_left _ hm))

/-- The `else` branch is less deep and refers to names of the action. -/
theorem Action.else_child (a x : Action) (hx : a.Else = some x) :
    x.depth < a.depth ∧ ∀ m ∈ x.refNames, m ∈ a.refNames := by
  cases a with
  | mk t d msg acts ref params c th el =>
    have hx2 : el = some x := hx
    subst hx2
    constructor
    · rw [Action.depth]
      exact Nat.lt_succ_of_le (le_trans (le_max_right _ _) (le_max_right _ _))
    · intro m hm
      rw [Action.refNames]
      exact List.mem_append_right _ (List.mem_append_right _ (List.mem_append_right _ hm))

/-- Another parameter map changes neither the names nor the depth. -/
theorem Action.withParams_same (a : Action) (p : GoMap Value) :
    (a.withParams p).refNames = a.refNames ∧ (a.withParams p).depth = a.depth := by
  cases a with
  | mk t d msg acts ref params c th el => exact ⟨rfl, rfl⟩

/-- The chain loop gives a result when every child does. -/
theorem chainLoop_ne_none (f : Action → Option (Option Response)) (params : GoMap Value)
    (l : List Action)
    (h : ∀ x ∈ l, f (x.withParams (inheritParams params x.Params)) ≠ none) :
    chainLoop f params l ≠ none := by
  induction l with
  | nil => simp [chainLoop]
  | cons x xs ih =>
    have hx := h x (List.mem_cons_self x xs)
    have ih2 := ih (fun y hy => h y (List.mem_cons_of_mem x hy))
    cases hfx : f (x.withParams (inheritParams params x.Params)) with
    | none => exact absurd hfx hx
    | some r =>
      cases r with
      | some resp => simp [chainLoop, hfx]
      | none => simpa [chainLoop, hfx] using ih2

/-- Actions that each return a result do so with a common fuel. -/
theorem exists_common_fuel_exec (lib : GoLib) (event : HookEvent) (cfg : Config)
    (g : Action → Action) (l : List Action)
    (h : ∀ x ∈ l, ∃ r, ExecutesTo lib event cfg (g x) r) :
    ∃ fuel, ∀ x ∈ l, ∀ m, fuel ≤ m → Execute lib m (some (g x)) event cfg ≠ none := by
  induction l with
  | nil => exact ⟨0, fun x hx => absurd hx (List.not_mem_nil x)⟩
  | cons x0 rest ih =>
    obtain ⟨k, hk⟩ := ih (fun x hx => h x (List.mem_cons_of_mem x0 hx))
    obtain ⟨r, n, hn⟩ := h x0 (List.mem_cons_self x0 rest)
    refine ⟨max k n, ?_⟩
    intro x hx m hm
    rcases List.mem_cons.mp hx with h1 | h1
    · rw [h1, execute_mono lib event cfg _ r n m (le_trans (le_max_right _ _) hm) hn]
      exact Option.some_ne_none r
    · exact hk x h1 m (le_trans (le_max_left _ _) hm)

/-- Under acyclic registries, `Execute` returns a result on every action
whose names have rank below `R`. -/
theorem execute_total_below (lib : GoLib) (event : HookEvent) (cfg : Config)
    (rc ra : Str → Nat) (hc : CondAcyclic rc cfg) (ha : ActAcyclic ra cfg) :
    ∀ (R : Nat) (a : Action), (∀ m ∈ a.refNames, ra m < R) →
      ∃ r, ExecutesTo lib event cfg a r := by
  intro R
  induction R using Nat.strong_induction_on with
  | _ R ihR =>
    have inner : ∀ (d : Nat) (a : Action), a.depth ≤ d →
        (∀ m ∈ a.refNames, ra m < R) → ∃ r, ExecutesTo lib event cfg a r := by
      intro d
      induction d with
      | zero =>
        intro a hd _
        cases a with
        | mk t dc msg acts ref params c th el =>
          rw [Action.depth] at hd
          omega
      | succ d ihd =>
        intro a hd hrefs
        by_cases href : a.Ref = []
        · have hnref : ¬ a.Ref ≠ [] := not_not.mpr href
          by_cases hdec : a.Type_ = "decision".toList
          · exact ⟨some (executeDecision lib a event), 1, by
              rw [Execute, if_neg hnref, if_pos hdec]⟩
          · by_cases hlog : a.Type_ = "log".toList
            · exact ⟨executeLog a event, 1, by
                rw [Execute, if_neg hnref, if_neg hdec, if_pos hlog]⟩
            · by_cases hchain : a.Type_ = "chain".toList
              · have hch : ∀ x ∈ a.Actions, ∃ r, ExecutesTo lib event cfg
                    ((fun y : Action => y.withParams (inheritParams a.Params y.Params)) x) r := by
                  intro x hx
                  have h := a.chain_child x hx
                  have hw := x.withParams_same (inheritParams a.Params x.Params)
                  apply ihd
                  · show (x.withParams (inheritParams a.Params x.Params)).depth ≤ d
                    rw [hw.2]
                    omega
                  · show ∀ m ∈ (x.withParams (inheritParams a.Params x.Params)).refNames, _
                    rw [hw.1]
                    exact fun m hm => hrefs m (h.2 m hm)
                obtain ⟨k, hk⟩ := exists_common_fuel_exec lib event cfg _ a.Actions hch
                have hne := chainLoop_ne_none (fun x => Execute lib k (some x) event cfg)
                  a.Params a.Actions (fun x hx => hk x hx k (le_refl k))
                cases hres : chainLoop (fun x => Execute lib k (some x) event cfg)
                    a.Params a.Actions with
                | none => exact absurd hres hne
                | some r =>
                  exact ⟨r, k + 1, by rw [execute_chain lib k event cfg a href hchain, hres]⟩
              · by_cases hcond : a.Type_ = "conditional".toList
                · cases hC : a.Condition with
                  | none =>
                    exact ⟨none, 1, by
                      rw [execute_conditional lib 0 event cfg a href hcond, hC]⟩
                  | some c =>
                    obtain ⟨b, k1, h1⟩ := evaluate_total lib event cfg rc hc c
                    cases b with
                    | true =>
                      cases hT : a.Then with
                      | none =>
                        exact ⟨none, k1 + 1, by
                          rw [execute_conditional lib k1 event cfg a href hcond, hC]
                          simp only [h1 k1 (le_refl k1), hT]⟩
                      | some t =>
                        have h := a.then_child t hT
                        obtain ⟨r, k2, h2⟩ := ihd t (by omega) (fun m hm => hrefs m (h.2 m hm))
                        refine ⟨r, max k1 k2 + 1, ?_⟩
                        rw [execute_conditional lib (max k1 k2) event cfg a href hcond, hC]
                        simp only [h1 (max k1 k2) (le_max_left _ _), hT]
                        exact execute_mono lib event cfg _ r k2 _ (le_max_right _ _) h2
                    | false =>
                      cases hE : a.Else with
                      | none =>
                        exact ⟨none, k1 + 1, by
                          rw [execute_conditional lib k1 event cfg a href hcond, hC]
                          simp only [h1 k1 (le_refl k1), hE]⟩
                      | some e =>
                        have h := a.else_child e hE
                        obtain ⟨r, k2, h2⟩ := ihd e (by omega) (fun m hm => hrefs m (h.2 m hm))
                        refine ⟨r, max k1 k2 + 1, ?_⟩
                        rw [execute_conditional lib (max k1 k2) event cfg a href hcond, hC]
                        simp only [h1 (max k1 k2) (le_max_left _ _), hE]
                        exact execute_mono lib event cfg _ r k2 _ (le_max_right _ _) h2
                · exact ⟨none, 1, by
                    rw [Execute, if_neg hnref, if_neg hdec, if_neg hlog, if_neg hchain,
                      if_neg hcond]⟩
        · cases hB : mapGet cfg.Actions a.Ref with
          | none =>
            refine ⟨none, 1, ?_⟩
            simp [Execute, href, hB]
          | some B =>
            have hlt : ra a.Ref < R := hrefs _ (a.ref_mem_names href)
            have hBrefs : ∀ m ∈ (B.withParams (overlayParams B.Params a.Params)).refNames,
                ra m < ra a.Ref := by
              rw [(B.withParams_same _).1]
              exact ha a.Ref B hB
            obtain ⟨r, k, hk⟩ := ihR (ra a.Ref) hlt _ hBrefs
            refine ⟨r, k + 1, ?_⟩
            rw [execute_ref lib k event cfg a B href hB, hk]
    intro a hrefs
    exact inner a.depth a (le_refl _) hrefs

/-- Under acyclic registries, `Execute` returns a result on every action,
with every fuel from some fuel on. -/
theorem execute_total (lib : GoLib) (event : HookEvent) (cfg : Config)
    (rc ra : Str → Nat) (hc : CondAcyclic rc cfg) (ha : ActAcyclic ra cfg) (a : Action) :
    ∃ r fuel, ∀ m, fuel ≤ m → Execute lib m (some a) event cfg = some r := by
  obtain ⟨R, hR⟩ := exists_rank_bound ra a.refNames
  obtain ⟨r, k, hk⟩ := execute_total_below lib event cfg rc ra hc ha R a hR
  exact ⟨r, k, fun m hm => execute_mono lib event cfg (some a) r k m hm hk⟩

/-- The actions of a rule give a result, with every fuel from some fuel on,
when `Execute` does so on every action. -/
theorem runActions_total (lib : GoLib) (event : HookEvent) (cfg : Config)
    (hex : ∀ a : Action, ∃ r fuel, ∀ m, fuel ≤ m → Execute lib m (some a) event cfg = some r) :
    ∀ l : List Action, ∃ res fuel, ∀ m, fuel ≤ m →
      runActions (fun a => Execute lib m (some a) event cfg) l = some res := by
  intro l
  induction l with
  | nil => exact ⟨none, 0, fun _ _ => rfl⟩
  | cons a rest ih =>
    obtain ⟨r, k1, h1⟩ := hex a
    obtain ⟨res, k2, h2⟩ := ih
    cases r with
    | some resp =>
      refine ⟨some resp, k1, fun m hm => ?_⟩
      rw [runActions]
      simp only [h1 m hm]
    | none =>
      refine ⟨res, max k1 k2, fun m hm => ?_⟩
      rw [runActions]
      simp only [h1 m (le_trans (le_max_left _ _) hm)]
      exact h2 m (le_trans (le_max_right _ _) hm)

/-- The rule loop gives a verdict, with every fuel from some fuel on, when
`Evaluate` and `Execute` give a result on every condition and action. -/
theorem runRules_total (lib : GoLib) (event : HookEvent) (cfg : Config)
    (hev : ∀ c : Condition, ∃ b fuel, ∀ m, fuel ≤ m →
      Evaluate lib m (some c) event cfg = some b)
    (hex : ∀ a : Action, ∃ r fuel, ∀ m, fuel ≤ m → Execute lib m (some a) event cfg = some r) :
    ∀ l : List Rule, ∃ v fuel, ∀ m, fuel ≤ m → runRules lib m event cfg l = some v := by
  intro l
  induction l with
  | nil => exact ⟨defaultResponse, 0, fun _ _ => rfl⟩
  | cons rule rest ih =>
    obtain ⟨v, k0, h0⟩ := ih
    by_cases ht : matchesTrigger lib rule event = false
    · refine ⟨v, k0, fun m hm => ?_⟩
      rw [runRules, if_pos ht]
      exact h0 m hm
    · have hrc : ∃ b k1, ∀ m, k1 ≤ m → ruleCondition lib m rule event cfg = some b := by
        cases hC : rule.Conditions with
        | none =>
          refine ⟨true, 0, fun m _ => ?_⟩
          rw [ruleCondition, hC]
        | some c =>
          obtain ⟨b, k1, h1⟩ := hev c
          refine ⟨b, k1, fun m hm => ?_⟩
          rw [ruleCondition, hC]
          exact h1 m hm
      obtain ⟨b, k1, h1⟩ := hrc
      cases b with
      | false =>
        refine ⟨v, max k0 k1, fun m hm => ?_⟩
        rw [runRules, if_neg ht]
        simp only [h1 m (le_trans (le_max_right _ _) hm)]
        exact h0 m (le_trans (le_max_left _ _) hm)
      | true =>
        obtain ⟨res, k2, h2⟩ := runActions_total lib event cfg hex rule.Actions
        cases res with
        | some resp =>
          refine ⟨resp, max k1 k2, fun m hm => ?_⟩
          rw [runRules, if_neg ht]
          simp only [h1 m (le_trans (le_max_left _ _) hm),
            h2 m (le_trans (le_max_right _ _) hm)]
        | none =>
          refine ⟨v, max k0 (max k1 k2), fun m hm => ?_⟩
          have hm1 : k1 ≤ m := le_trans (le_trans (le_max_left _ _) (le_max_right _ _)) hm
          have hm2 : k2 ≤ m := le_trans (le_trans (le_max_right _ _) (le_max_right _ _)) hm
          rw [runRules, if_neg ht]
          simp only [h1 m hm1, h2 m hm2]
          exact h0 m (le_trans (le_max_left _ _) hm)

/-- Without the rank, `Evaluate` need not return: on a condition that refers
to itself through the registry no fuel is enough. -/
theorem evaluate_cycle_no_result (lib : GoLib) (event : HookEvent) :
    ∀ fuel, Evaluate lib fuel (some (refTo "loop".toList)) event cyclicRegistry = none := by
  intro fuel
  induction fuel with
  | zero => rfl
  | succ n ih =>
    rw [evaluate_ref lib n event cyclicRegistry (refTo "loop".toList) (refTo "loop".toList)
      (by decide) rfl]
    exact ih

/-- C24: for every event and every ruleset whose condition registry and
action registry each admit a rank under which every registered definition
refers only to names of strictly smaller rank, `Evaluate` returns a result
on every condition, `Execute` returns a result on every action, and
`Dispatch` returns a verdict, each with every fuel from some fuel on. -/
theorem c24_total_when_acyclic (lib : GoLib) (event : HookEvent) (cfg : Config)
    (rc ra : Str → Nat) (hc : CondAcyclic rc cfg) (ha : ActAcyclic ra cfg) :
    (∀ c : Condition, ∃ b fuel, ∀ m, fuel ≤ m →
      Evaluate lib m (some c) event cfg = some b) ∧
    (∀ a : Action, ∃ r fuel, ∀ m, fuel ≤ m → Execute lib m (some a) event cfg = some r) ∧
    (∃ v fuel, ∀ m, fuel ≤ m → Dispatch lib m event cfg = some v) :=
  ⟨evaluate_total lib event cfg rc hc,
    execute_total lib event cfg rc ra hc ha,
    runRules_total lib event cfg (evaluate_total lib event cfg rc hc)
      (execute_total lib event cfg rc ra hc ha) _⟩

/-- C24 on `layeredRules` with the rank `layeredRank`: both registries are
acyclic under it, and `Dispatch` returns a verdict on the scenario's event;
with eight units of fuel the verdict is the deny of `stop`. -/
theorem c24_total_when_acyclic_witness :
    CondAcyclic layeredRank layeredRules ∧ ActAcyclic layeredRank layeredRules ∧
    (∃ v fuel, ∀ m, fuel ≤ m → Dispatch sampleLib m deleteEvent layeredRules = some v) ∧
    Dispatch sampleLib 8 deleteEvent layeredRules
      = some { ExitCode := 2, Decision := "deny".toList, Message := "no /etc/passwd".toList } :=
  have hc : CondAcyclic layeredRank layeredRules := fun n B h =>
    (by decide : ∀ e ∈ layeredRules.Conditions, ∀ m ∈ e.2.refNames,
      layeredRank m < layeredRank e.1) (n, B) (mem_of_mapGet _ n B h)
  have ha : ActAcyclic layeredRank layeredRules := fun n B h =>
    (by decide : ∀ e ∈ layeredRules.Actions, ∀ m ∈ e.2.refNames,
      layeredRank m < layeredRank e.1) (n, B) (mem_of_mapGet _ n B h)
  ⟨hc, ha, (c24_total_when_acyclic sampleLib deleteEvent layeredRules layeredRank layeredRank
    hc ha).2.2, by decide⟩

end WorkflowGuard
